import Mathlib

/-!
# todonetOnline: activation propagation and the optimistic state engine

A shallow embedding of `src/js/app/activation.js`, `src/js/app/state.js`,
`src/js/ui/acute.js` (the commit ledger), `src/js/utils/pubsub.js`, the
constants of `src/js/utils/config.js` and the response of the create route of
`server.js`, followed by theorems about them.

Modelling conventions.

* Numbers come in two embeddings.  `Num` is an exact rational: a statement
  about `Num` is a statement over exact arithmetic, where sums may be
  reordered.  `F64` is the IEEE 754 double of the code, with rounding to
  nearest, infinities and `NaN`; `InDoubles` is activation.js over `F64`, and
  the statements that depend on rounding or overflow are made there.
* A plain JavaScript object with string keys is an association list in
  insertion order (`JsObj`).  JavaScript objects never hold a key twice; the
  predicate `JsObj.WF` says so and is assumed where a statement needs it.
* Node objects have identity: closures of `state.js` keep references to node
  objects.  The store is therefore a heap of node objects plus the array
  `nodes` of references into it.
* An asynchronous operation is split in its synchronous part, which returns the
  data its closure captured (`Pending`), and the two continuations
  `Pending.onSuccess` and `Pending.onFailure`, which a scheduler may run at
  any later point.
-/

namespace Todonet

/-! ## Data model -/

/-- A JavaScript number, over exact arithmetic: the value the code would compute if no
operation rounded.  The doubles of the code are `F64`. -/
abbrev Num := ℚ

/-- Node identifiers are strings. -/
abbrev NodeId := String

/-- A plain JavaScript object with string keys, as an association list in insertion order. -/
abbrev JsObj (α : Type) := List (String × α)

namespace JsObj

variable {α : Type}

/-- Property read `o[k]`; `none` stands for `undefined`. -/
def get (o : JsObj α) (k : String) : Option α := List.lookup k o

/-- Own-key test `k in o`. -/
def has (o : JsObj α) (k : String) : Bool := o.any (fun e => e.1 == k)

/-- Property write `o[k] = v`: an existing key keeps its place, a new key goes last. -/
def set : JsObj α → String → α → JsObj α
  | [], k, v => [(k, v)]
  | e :: o, k, v => if e.1 = k then (k, v) :: o else e :: set o k v

/-- Property removal `delete o[k]`. -/
def del (o : JsObj α) (k : String) : JsObj α := o.filter (fun e => e.1 != k)

/-- The keys of the object, in enumeration order. -/
def keys (o : JsObj α) : List String := o.map Prod.fst

/-- No key occurs twice: the representation invariant of a JavaScript object. -/
def WF (o : JsObj α) : Prop := (keys o).Nodup

instance (o : JsObj α) : Decidable (WF o) := by
  unfold WF
  infer_instance

end JsObj

/-- JavaScript truthiness of a property read that yields a number or `undefined`. -/
def truthy (v : Option Num) : Bool :=
  match v with
  | some w => w != 0
  | none => false

/-- A node object.  Fields that `setNodes` may have to fill in are optional
(`none` is `undefined`); a missing `links` object behaves as the empty object
in every function embedded here and is represented by it. -/
structure Node where
  id : NodeId
  name : String
  commit : Num
  x : Num
  y : Num
  links : JsObj Num
  activation : Option Num
  color : Option String
  starred : Option Bool
  acute : Option Bool
  ownerId : Option String
deriving DecidableEq

/-- The constant `config.activation.iterations` of `config.js`. -/
def config.activation.iterations : ℕ := 4

/-- The constant `config.activation.propagationRate` of `config.js` (0.2). -/
def config.activation.propagationRate : Num := 1 / 5

/-! ## activation.js -/

/-- The value of `node.activation` as a number (it is a number from the reset on). -/
def act (node : Node) : Num := node.activation.getD 0

/-- The reset `node.activation = 0` (activation.js line 12). -/
def resetActivation (node : Node) : Node := { node with activation := some 0 }

/-- The object `increments` at the start of a round: every node id mapped to 0
(activation.js line 15).  Only keys that are node ids are ever read or written. -/
def initIncrements (newNodes : List Node) : NodeId → Num :=
  newNodes.foldl (fun acc node => Function.update acc node.id 0) (fun _ => 0)

/-- The `increment` of one link (activation.js line 22). -/
def linkIncrement (ic : ℕ) (alpha : Num) (sourceNode : Node) (weight : Num) : Num :=
  (weight * (sourceNode.commit + act sourceNode * alpha)) / ic

/-- The `for ... in sourceNode.links` loop (activation.js lines 18-25): links whose
target is no node of the list are skipped. -/
def addLinkIncrements (ic : ℕ) (alpha : Num) (newNodes : List Node)
    (increments : NodeId → Num) (sourceNode : Node) : NodeId → Num :=
  sourceNode.links.foldl
    (fun inc e =>
      if newNodes.any (fun n => n.id == e.1) then
        Function.update inc e.1 (inc e.1 + linkIncrement ic alpha sourceNode e.2)
      else inc)
    increments

/-- One pass of the outer loop (activation.js lines 15-32): all increments are computed
from the activations at the start of the round, then every node is updated. -/
def propagationRound (ic : ℕ) (alpha : Num) (newNodes : List Node) : List Node :=
  let increments := newNodes.foldl (addLinkIncrements ic alpha newNodes) (initIncrements newNodes)
  newNodes.map (fun node =>
    { node with activation := some (act node + increments node.id + node.commit / ic) })

/-- The body of `calculateAndPropagateActivation` for given constants: deep copy (the
identity on values), reset, then `ic` rounds. -/
def propagate (ic : ℕ) (alpha : Num) (nodes : List Node) : List Node :=
  (propagationRound ic alpha)^[ic] (nodes.map resetActivation)

/-- The function `calculateAndPropagateActivation` of activation.js. -/
def calculateAndPropagateActivation (nodes : List Node) : List Node :=
  propagate config.activation.iterations config.activation.propagationRate nodes

/-! ### The rounds as a map on activation vectors -/

/-- The nodes `ns` with their activations replaced by the entries of `a`. -/
def withActivations (ns : List Node) (a : List Num) : List Node :=
  List.zipWith (fun n v => { n with activation := some v }) ns a

/-- The sum of the increments that the links of `s` add to `increments[t]` in one round,
when `s` has activation `v` and `all` is the list of all nodes. -/
def sentTo (ic : ℕ) (alpha : Num) (all : List Node) (s : Node) (v : Num) (t : NodeId) : Num :=
  ((s.links.filter (fun e => e.1 == t && all.any (fun n => n.id == e.1))).map
    (fun e => (e.2 * (s.commit + v * alpha)) / ic)).sum

/-- The value of `increments[t]` after the loop over all source nodes. -/
def incomingTo (ic : ℕ) (alpha : Num) (ns : List Node) (a : List Num) (t : NodeId) : Num :=
  ((ns.zip a).map (fun sv => sentTo ic alpha ns sv.1 sv.2 t)).sum

/-- One round of the code on the vector of activations. -/
def activationStep (ic : ℕ) (alpha : Num) (ns : List Node) (a : List Num) : List Num :=
  (ns.zip a).map (fun nv => nv.2 + incomingTo ic alpha ns a nv.1.id + nv.1.commit / ic)

/-! ### The recurrence of the specification -/

/-- The sum of the specification over every node `s` that has a link to `t` with
weight `w`, of `w * (commit s + alpha * a s) / R`, where `a` lists the
activations of the nodes at the start of the round. -/
def specIncoming (R : ℕ) (alpha : Num) (ns : List Node) (a : List Num) (t : NodeId) : Num :=
  ((ns.zip a).map (fun sa =>
    match JsObj.get sa.1.links t with
    | some w => w * (sa.1.commit + alpha * sa.2) / R
    | none => 0)).sum

/-- One round of the specification: every node adds its incoming sum and `commit / R`. -/
def specStep (R : ℕ) (alpha : Num) (ns : List Node) (a : List Num) : List Num :=
  (ns.zip a).map (fun ta => ta.2 + specIncoming R alpha ns a ta.1.id + ta.1.commit / R)

/-- The activations `a_k` of the specification, listed in the order of the nodes. -/
def specActivations (R : ℕ) (alpha : Num) (ns : List Node) : ℕ → List Num
  | 0 => ns.map (fun _ => 0)
  | k + 1 => specStep R alpha ns (specActivations R alpha ns k)

/-- The links of a node whose target is a node of the list. -/
def pruneDangling (ns : List Node) (n : Node) : Node :=
  { n with links := n.links.filter (fun e => ns.any (fun m => m.id == e.1)) }

/-- Forget the activation of a node. -/
def clearActivation (n : Node) : Node := { n with activation := none }

/-- A node with the given id, commit and links, every other field empty or absent. -/
def sampleNode (id : NodeId) (commit : Num) (links : JsObj Num) : Node :=
  { id := id, name := "", commit := commit, x := 0, y := 0, links := links,
    activation := none, color := none, starred := none, acute := none, ownerId := none }

/-! ## acute.js: the commit ledger kept in local storage -/

/-- The local-storage item `commitHistory`: absent, a string `JSON.parse` rejects, or
the text of an object mapping node id to (day to accumulated change). -/
inductive Stored where
  | missing
  | corrupt
  | valid (history : JsObj (JsObj Num))
deriving DecidableEq

/-- The body of the `try` block of `trackCommitChange` on the parsed object `history`
(acute.js lines 17-22). -/
def recordChange (today : String) (nodeId : NodeId) (change : Num)
    (history : JsObj (JsObj Num)) : JsObj (JsObj Num) :=
  let history1 := if (JsObj.get history nodeId).isNone then JsObj.set history nodeId [] else history
  let days := (JsObj.get history1 nodeId).getD []
  JsObj.set history1 nodeId (JsObj.set days today ((JsObj.get days today).getD 0 + change))

/-- The function `trackCommitChange` of acute.js; `today` is the value of
`getTodayDateString()` at the call.  When `JSON.parse` throws, the `catch` only logs and
nothing is written. -/
def trackCommitChange (today : String) (nodeId : NodeId) (oldCommit newCommit : Num)
    (st : Stored) : Stored :=
  let change := newCommit - oldCommit
  if change = 0 then st
  else
    match st with
    | Stored.corrupt => Stored.corrupt
    | Stored.missing => Stored.valid (recordChange today nodeId change [])
    | Stored.valid history => Stored.valid (recordChange today nodeId change history)

/-! ## state.js: the store and the optimistic operations -/

/-- What `publish` was called with; the store only emits these two topics. -/
inductive Event where
  | stateChange
  | showError (msg : String)
deriving DecidableEq

/-- A reference to a node object. -/
abbrev Ref := ℕ

/-- What a handler finds when `publish` calls it: the event, and the values that
`getNodes()` and `getSelectedNodeId()` return at that moment (handlers run inside the call
of `publish`, before the statement after it). -/
structure Observation where
  event : Event
  nodes : List Node
  selectedNodeId : Option NodeId
deriving DecidableEq

/-- The module state of state.js (`nodes`, `selectedNodeId`) over a heap of node objects,
with the log of published events, what the handlers of each published event could read
from the store, the local-storage item of acute.js and the pending timer of the debounced
position save. -/
structure State where
  heap : Ref → Node
  next : Ref
  nodes : List Ref
  selectedNodeId : Option NodeId
  events : List Event
  observed : List Observation
  commitHistory : Stored
  savePending : Bool

/-- One relation captured by `deleteNode` (state.js line 157). -/
structure RelatedLink where
  sourceId : NodeId
  targetId : NodeId
  weight : Num
deriving DecidableEq

/-- The data captured by the closure of an operation whose remote call is in flight. -/
inductive Pending where
  | addNode (tempId : NodeId)
  | deleteNode (id : NodeId) (deletedNode : Ref) (originalIndex : ℕ)
      (relatedLinks : List RelatedLink)
  | updateNodeContent (id : NodeId) (node : Ref) (oldName : String) (oldCommit : Num)
      (newName : String) (newCommit : Num)
  | updateNodeColor (id : NodeId) (node : Ref) (originalColor : Option String)
  | toggleNodeStar (id : NodeId) (node : Ref) (originalStarred : Option Bool)
  | toggleNodeAcute (id : NodeId) (node : Ref) (originalAcute : Option Bool)
  | updateLink (sourceId : NodeId) (node : Ref) (originalLinks : JsObj Num)
      (newLinks : JsObj Num)

/-- The node collection as values: what `getNodes()` shows. -/
def State.collection (s : State) : List Node := s.nodes.map s.heap

/-- The call `publish(topic, data)` as seen from the store: the event is appended to the
log, and its handlers run on the store as it is at the call. -/
def publish (e : Event) (s : State) : State :=
  { s with
    events := s.events ++ [e]
    observed := s.observed ++ [⟨e, s.collection, s.selectedNodeId⟩] }

/-- The expression `nodes.find(n => n.id === id)`. -/
def findNode (id : NodeId) (s : State) : Option Ref :=
  s.nodes.find? (fun r => (s.heap r).id == id)

/-- Assignment through a reference: the object at `r` is replaced by `f` of it. -/
def State.modify (r : Ref) (f : Node → Node) (s : State) : State :=
  { s with heap := Function.update s.heap r (f (s.heap r)) }

/-- A loop `refs.forEach(node => ...)` whose body mutates the visited object in place. -/
def forEachNode (refs : List Ref) (f : Node → Node) (heap : Ref → Node) : Ref → Node :=
  refs.foldl (fun h r => Function.update h r (f (h r))) heap

/-- The function `setNodes`-side defaulting of the optional fields (state.js lines 53-56). -/
def fillDefaults (node : Node) : Node :=
  { node with
    color := some (node.color.getD "#000000")
    starred := some (node.starred.getD false)
    acute := some (node.acute.getD false)
    activation := some (node.activation.getD 0) }

/-- Placing the objects of a fresh array in the heap, from reference `next` on. -/
def allocAll (objs : List Node) (heap : Ref → Node) (next : Ref) : Ref → Node :=
  (objs.foldl (fun hn o => (Function.update hn.1 hn.2 o, hn.2 + 1)) (heap, next)).1

/-- The function `setNodes` of state.js.  Its callers pass arrays of fresh objects (parsed
JSON, the deep copy made by `calculateAndPropagateActivation`, or the empty array). -/
def setNodes (newNodes : List Node) (s : State) : State :=
  publish Event.stateChange
    { s with
      heap := allocAll (newNodes.map fillDefaults) s.heap s.next
      next := s.next + newNodes.length
      nodes := List.range' s.next newNodes.length }

/-- The function `selectNode` of state.js. -/
def selectNode (id : NodeId) (s : State) : State :=
  publish Event.stateChange { s with selectedNodeId := some id }

/-- The function `deselectNode` of state.js. -/
def deselectNode (s : State) : State :=
  publish Event.stateChange { s with selectedNodeId := none }

/-- The temporary id built by `addNode` from `Date.now()` (state.js line 92). -/
def tempIdOf (now : ℕ) : NodeId := "temp_" ++ toString now

/-- The synchronous part of `addNode` (state.js lines 92-108); `now` is `Date.now()`. -/
def addNode (now : ℕ) (x y : Num) (s : State) : State × Option Pending :=
  let tempId := tempIdOf now
  let newNode : Node :=
    { id := tempId, name := "새로운 목표", commit := 0, x := x, y := y, links := [],
      activation := some 0, color := some "#000000", starred := some false,
      acute := some false, ownerId := none }
  let s1 : State :=
    { s with
      heap := Function.update s.heap s.next newNode
      next := s.next + 1
      nodes := s.nodes ++ [s.next] }
  (publish Event.stateChange (selectNode tempId s1), some (Pending.addNode tempId))

/-- The link-stripping body of `deleteNode` (state.js lines 163-165). -/
def stripLink (id : NodeId) (node : Node) : Node :=
  if truthy (JsObj.get node.links id) then { node with links := JsObj.del node.links id } else node

/-- The list `relatedLinks` collected by `deleteNode` (state.js lines 155-159). -/
def collectRelatedLinks (id : NodeId) (nodes : List Node) : List RelatedLink :=
  nodes.filterMap (fun node =>
    if truthy (JsObj.get node.links id) then
      some { sourceId := node.id, targetId := id, weight := (JsObj.get node.links id).getD 0 }
    else none)

/-- The synchronous part of `deleteNode` (state.js lines 145-168); `confirmed` is the
answer of the `confirm` dialog. -/
def deleteNode (confirmed : Bool) (id : NodeId) (s : State) : State × Option Pending :=
  if confirmed = false then (s, none)
  else
    let nodeIndex := s.nodes.findIdx (fun r => (s.heap r).id == id)
    if h : nodeIndex < s.nodes.length then
      let deletedNode := s.next
      let heap1 := Function.update s.heap deletedNode (s.heap s.nodes[nodeIndex])
      let relatedLinks := collectRelatedLinks id (s.nodes.map heap1)
      let nodes1 := s.nodes.eraseIdx nodeIndex
      let s1 : State :=
        { s with
          heap := forEachNode nodes1 (stripLink id) heap1
          next := s.next + 1
          nodes := nodes1 }
      (publish Event.stateChange (deselectNode s1),
        some (Pending.deleteNode id deletedNode nodeIndex relatedLinks))
    else (s, none)

/-- The synchronous part of `updateNodeContent` (state.js lines 202-211); `today` is the
day on which it runs. -/
def updateNodeContent (today : String) (id : NodeId) (newName : String) (newCommit : Num)
    (s : State) : State × Option Pending :=
  match findNode id s with
  | none => (s, none)
  | some node =>
    let oldName := (s.heap node).name
    let oldCommit := (s.heap node).commit
    let s1 := s.modify node (fun n => { n with name := newName, commit := newCommit })
    let s2 : State :=
      { s1 with commitHistory := trackCommitChange today id oldCommit newCommit s1.commitHistory }
    (publish Event.stateChange s2,
      some (Pending.updateNodeContent id node oldName oldCommit newName newCommit))

/-- Modelled from the spec: `debounce` of utils/helpers.js, which is not among the sources.
A trigger (re)starts the single pending timer of the position save. -/
def saveNodePositions (s : State) : State := { s with savePending := true }

/-- The function `updateNodePosition` of state.js. -/
def updateNodePosition (id : NodeId) (x y : Num) (s : State) : State :=
  match findNode id s with
  | none => s
  | some node =>
    saveNodePositions (publish Event.stateChange (s.modify node (fun n => { n with x := x, y := y })))

/-- The flush of `debouncedSave` (state.js lines 236-243) once its remote call has
succeeded (`ok`) or failed. -/
def debouncedSaveDone (ok : Bool) (s : State) : State :=
  let s1 : State := { s with savePending := false }
  if ok then s1 else publish (Event.showError "Failed to save node positions.") s1

/-- The synchronous part of `updateNodeColor` (state.js lines 250-255). -/
def updateNodeColor (id : NodeId) (newColor : String) (s : State) : State × Option Pending :=
  match findNode id s with
  | none => (s, none)
  | some node =>
    let originalColor := (s.heap node).color
    (publish Event.stateChange (s.modify node (fun n => { n with color := some newColor })),
      some (Pending.updateNodeColor id node originalColor))

/-- The synchronous part of `toggleNodeStar` (state.js lines 269-274). -/
def toggleNodeStar (id : NodeId) (s : State) : State × Option Pending :=
  match findNode id s with
  | none => (s, none)
  | some node =>
    let originalStarred := (s.heap node).starred
    (publish Event.stateChange
        (s.modify node (fun n => { n with starred := some (!(originalStarred.getD false)) })),
      some (Pending.toggleNodeStar id node originalStarred))

/-- The synchronous part of `toggleNodeAcute` (state.js lines 288-293). -/
def toggleNodeAcute (id : NodeId) (s : State) : State × Option Pending :=
  match findNode id s with
  | none => (s, none)
  | some node =>
    let originalAcute := (s.heap node).acute
    (publish Event.stateChange
        (s.modify node (fun n => { n with acute := some (!(originalAcute.getD false)) })),
      some (Pending.toggleNodeAcute id node originalAcute))

/-- The synchronous part of `updateLink` (state.js lines 307-320); weight `none` is `null`. -/
def updateLink (sourceId targetId : NodeId) (weight : Option Num) (s : State) :
    State × Option Pending :=
  match findNode sourceId s with
  | none => (s, none)
  | some node =>
    let originalLinks := (s.heap node).links
    let newLinks :=
      match weight with
      | none => JsObj.del originalLinks targetId
      | some w => JsObj.set originalLinks targetId w
    (publish Event.stateChange (s.modify node (fun n => { n with links := newLinks })),
      some (Pending.updateLink sourceId node originalLinks newLinks))

/-- The call `Object.assign(nodeInState, savedNode)`: every property the response carries
overwrites the one of the local object. -/
def objectAssign (target source : Node) : Node :=
  { id := source.id, name := source.name, commit := source.commit, x := source.x, y := source.y,
    links := source.links,
    activation := source.activation.orElse (fun _ => target.activation),
    color := source.color.orElse (fun _ => target.color),
    starred := source.starred.orElse (fun _ => target.starred),
    acute := source.acute.orElse (fun _ => target.acute),
    ownerId := source.ownerId.orElse (fun _ => target.ownerId) }

/-- The response of the server to the create request of `addNode` (server.js lines
135-147): the posted fields, activation 0, the owner and the id the store assigned. -/
def serverCreated (id : NodeId) (owner : String) (posted : Node) : Node :=
  { id := id, name := posted.name, commit := posted.commit, x := posted.x, y := posted.y,
    links := posted.links, activation := some 0,
    color := some (posted.color.getD "#000000"),
    starred := some (posted.starred.getD false),
    acute := some (posted.acute.getD false),
    ownerId := some owner }

/-- One step of the loop that puts the stripped links back (state.js lines 176-179). -/
def restoreLink (s : State) (link : RelatedLink) : State :=
  match findNode link.sourceId s with
  | none => s
  | some sourceNode =>
    s.modify sourceNode (fun n => { n with links := JsObj.set n.links link.targetId link.weight })

/-- The continuation of an operation after its remote call succeeded; `savedNode` is the
parsed response, which only `addNode` reads (state.js lines 123-130). -/
def Pending.onSuccess (p : Pending) (savedNode : Node) (s : State) : State :=
  match p with
  | Pending.addNode tempId =>
    match findNode tempId s with
    | none => s
    | some nodeInState =>
      let s1 := s.modify nodeInState (fun n => objectAssign n savedNode)
      let s2 := if s1.selectedNodeId = some tempId then selectNode savedNode.id s1 else s1
      publish Event.stateChange s2
  | _ => s

/-- The `catch` block of an operation: the compensation run after its remote call failed;
`today` is the day on which it runs. -/
def Pending.onFailure (p : Pending) (today : String) (s : State) : State :=
  match p with
  | Pending.addNode tempId =>
    let s1 : State := { s with nodes := s.nodes.filter (fun r => (s.heap r).id != tempId) }
    let s2 := if s1.selectedNodeId = some tempId then deselectNode s1 else s1
    publish Event.stateChange (publish (Event.showError "Failed to add node. Reverting.") s2)
  | Pending.deleteNode _ deletedNode originalIndex relatedLinks =>
    let s1 : State :=
      { s with nodes := s.nodes.take originalIndex ++ deletedNode :: s.nodes.drop originalIndex }
    let s2 := relatedLinks.foldl restoreLink s1
    publish Event.stateChange (publish (Event.showError "Failed to delete node. Reverting.") s2)
  | Pending.updateNodeContent id node oldName oldCommit _ newCommit =>
    let s1 := s.modify node (fun n => { n with name := oldName, commit := oldCommit })
    let s2 : State :=
      { s1 with commitHistory := trackCommitChange today id newCommit oldCommit s1.commitHistory }
    publish Event.stateChange (publish (Event.showError "Failed to update content. Reverting.") s2)
  | Pending.updateNodeColor _ node originalColor =>
    let s1 := s.modify node (fun n => { n with color := originalColor })
    publish Event.stateChange (publish (Event.showError "Failed to update color. Reverting.") s1)
  | Pending.toggleNodeStar _ node originalStarred =>
    let s1 := s.modify node (fun n => { n with starred := originalStarred })
    publish Event.stateChange (publish (Event.showError "Failed to toggle star. Reverting.") s1)
  | Pending.toggleNodeAcute _ node originalAcute =>
    let s1 := s.modify node (fun n => { n with acute := originalAcute })
    publish Event.stateChange (publish (Event.showError "Failed to toggle acute. Reverting.") s1)
  | Pending.updateLink _ node originalLinks _ =>
    let s1 := s.modify node (fun n => { n with links := originalLinks })
    publish Event.stateChange (publish (Event.showError "Failed to update link. Reverting.") s1)

/-- The compensation of an operation that is in flight, and nothing for an operation that
returned before issuing a remote call. -/
def failOf (p : Option Pending) (today : String) (s : State) : State :=
  match p with
  | none => s
  | some q => q.onFailure today s

/-- The success continuation of an operation that is in flight, if any. -/
def succeedOf (p : Option Pending) (savedNode : Node) (s : State) : State :=
  match p with
  | none => s
  | some q => q.onSuccess savedNode s

/-- The allocation invariant of the heap: every reference of the array was handed out. -/
def State.RefsBelow (s : State) : Prop := ∀ r ∈ s.nodes, r < s.next

/-- The data-model invariant: the ids of the collection are pairwise distinct. -/
def State.UniqueIds (s : State) : Prop := (s.collection.map (fun n => n.id)).Nodup

/-- Two nodes agree in every field, their link objects as maps (same value at every key). -/
def Node.SameAs (a b : Node) : Prop :=
  a.id = b.id ∧ a.name = b.name ∧ a.commit = b.commit ∧ a.x = b.x ∧ a.y = b.y ∧
    a.activation = b.activation ∧ a.color = b.color ∧ a.starred = b.starred ∧
    a.acute = b.acute ∧ a.ownerId = b.ownerId ∧ ∀ k, JsObj.get a.links k = JsObj.get b.links k

instance (s : State) : Decidable s.RefsBelow := by
  unfold State.RefsBelow
  infer_instance

instance (s : State) : Decidable s.UniqueIds := by
  unfold State.UniqueIds
  infer_instance

/-- The effect of one step of the restoring loop on a node object: only the object whose
id is the source of the link gets the link back. -/
def applyLink (n : Node) (link : RelatedLink) : Node :=
  if n.id = link.sourceId then
    { n with links := JsObj.set n.links link.targetId link.weight }
  else n

/-- A run of `updateLink` calls, each given as (source id, target id, weight or null), whose
remote calls are in flight or have succeeded. -/
def applyUpdateLinks (ops : List (NodeId × NodeId × Option Num)) (s : State) : State :=
  ops.foldl (fun st op => (updateLink op.1 op.2.1 op.2.2 st).1) s

/-- A node without its link object: all its other fields. -/
def Node.eraseLinks (n : Node) : Node := { n with links := [] }

/-- The store `t` arose from the store `d` by changes to link entries with a key other
than `id`, in objects of the array only. -/
def LinksEditedOff (id : NodeId) (d t : State) : Prop :=
  t.nodes = d.nodes ∧
    (∀ r, (t.heap r).eraseLinks = (d.heap r).eraseLinks ∧
      JsObj.get (t.heap r).links id = JsObj.get (d.heap r).links id) ∧
    ∀ r, r ∉ d.nodes → t.heap r = d.heap r

/-- The empty store of a freshly loaded module. -/
def State.init : State :=
  { heap := fun _ =>
      { id := "", name := "", commit := 0, x := 0, y := 0, links := [], activation := none,
        color := none, starred := none, acute := none, ownerId := none }
    next := 0
    nodes := []
    selectedNodeId := none
    events := []
    observed := []
    commitHistory := Stored.missing
    savePending := false }

/-- A store hydrated with node `a` (commit 1, a link of weight 2 to `b`) and node `b`. -/
def sampleState : State :=
  setNodes [sampleNode "a" 1 [("b", 2)], sampleNode "b" 0 []] State.init

/-- The store after two calls of `addNode` within the same millisecond (clock value 5). -/
def sameClockState : State := (addNode 5 1 1 (addNode 5 0 0 State.init).1).1

/-- A store hydrated with a link of weight 0 from `a` to `b`. -/
def zeroWeightState : State :=
  setNodes [sampleNode "a" 1 [("b", 0)], sampleNode "b" 0 []] State.init

/-- A store hydrated with two nodes of id `a`, both linking to `b`. -/
def repeatedIdState : State :=
  setNodes [sampleNode "a" 0 [("b", 1)], sampleNode "a" 0 [("b", 2)], sampleNode "b" 0 []]
    State.init

/-- A store hydrated with the single node `a` of commit 5; nothing is stored in the ledger. -/
def commitFiveState : State := setNodes [sampleNode "a" 5 []] State.init

/-- A store reached by operations of state.js alone in which two nodes carry the id
`temp_5` and both link to `b`: hydrate with `b`; two `addNode` calls at clock value 5 give
P and Q; `deleteNode("temp_5")` removes P; `updateLink("temp_5", "b", 1)` now reaches Q;
the delete fails and P is put back before Q; `updateLink("temp_5", "b", 2)` reaches P. -/
def reachedRepeatedIdState : State :=
  let c0 := setNodes [sampleNode "b" 0 []] State.init
  let c2 := (addNode 5 1 1 (addNode 5 0 0 c0).1).1
  let d := deleteNode true "temp_5" c2
  let c3 := (updateLink "temp_5" "b" (some 1) d.1).1
  let c4 := failOf d.2 "2025-01-01" c3
  (updateLink "temp_5" "b" (some 2) c4).1

/-! ### Further notions used by the statements on the store and the ledger -/

/-- The store `t` has the array of `a` and every object of the array has kept its id:
what lies between `a` and `t` are edits of fields other than the id, and selections. -/
def SameIds (a t : State) : Prop :=
  t.nodes = a.nodes ∧ ∀ r ∈ a.nodes, (t.heap r).id = (a.heap r).id

instance (a t : State) : Decidable (SameIds a t) := by
  unfold SameIds
  infer_instance

/-- The read of the ledger by the panels (acute.js line 116, history.js line 61):
`history[id] && history[id][date] ? history[id][date] : 0` on the parsed object. -/
def historyValue (history : JsObj (JsObj Num)) (nodeId : NodeId) (date : String) : Num :=
  match JsObj.get history nodeId with
  | none => 0
  | some days => (JsObj.get days date).getD 0

/-- The value the panels read for a node and a day from the stored item: `none` when
`JSON.parse` rejects the item, 0 for an absent item or an absent entry. -/
def ledgerValue (st : Stored) (nodeId : NodeId) (date : String) : Option Num :=
  match st with
  | Stored.corrupt => none
  | Stored.missing => some 0
  | Stored.valid history => some (historyValue history nodeId date)

/-- A run of `updateNodeContent` calls on the same id and day, each given as (name, commit). -/
def applyContentUpdates (today : String) (id : NodeId) (us : List (String × Num))
    (s : State) : State :=
  us.foldl (fun st u => (updateNodeContent today id u.1 u.2 st).1) s

/-- Every weight of the link object of the node is 1, 2 or 3. -/
def Node.WeightsOk (n : Node) : Prop := ∀ e ∈ n.links, e.2 = 1 ∨ e.2 = 2 ∨ e.2 = 3

/-- Every link weight in the collection is 1, 2 or 3. -/
def State.WeightsValid (s : State) : Prop := ∀ n ∈ s.collection, n.WeightsOk

instance (n : Node) : Decidable n.WeightsOk := by
  unfold Node.WeightsOk
  infer_instance

instance (s : State) : Decidable s.WeightsValid := by
  unfold State.WeightsValid
  infer_instance

/-- The node object `addNode` creates at clock value `now` and position `x`, `y`; its fields
are what the create request posts. -/
def newNodeOf (now : ℕ) (x y : Num) : Node :=
  { id := tempIdOf now, name := "새로운 목표", commit := 0, x := x, y := y, links := [],
    activation := some 0, color := some "#000000", starred := some false,
    acute := some false, ownerId := none }

/-! ## pubsub.js

A callback is a function object: it has an identity, by which `unsubscribe` compares, and
a behaviour.  A call acts on the state `W` of the rest of the program and may throw.  The
callbacks embedded here do not change the registry while `publish` runs; `forEach` visits
the array as it was when `publish` started in any case. -/

/-- A callback: the identity of the function object and what a call with some data does
to the state of the rest of the program, together with the error it throws, if any. -/
structure Callback (D W : Type) where
  fn : ℕ
  call : D → W → W × Option String

/-- The own properties of the module variable `events` of pubsub.js: event name to array
of callbacks.  The object is created by an empty object literal, so it also has the
properties that every object inherits, see `PubSub.lookup`. -/
abbrev Registry (D W : Type) := JsObj (List (Callback D W))

/-- What a call of `publish` leaves: the state of the rest of the program, the calls made in
order (function and argument), the errors passed to `console.error`, and the error that
leaves `publish` towards its caller, if any. -/
structure PublishRun (D W : Type) where
  world : W
  invoked : List (ℕ × D)
  reported : List String
  thrown : Option String

/-- The value of the expression `events[eventName]`. -/
inductive Slot (D W : Type) where
  | missing
  | callbacks (cbs : List (Callback D W))
  | inherited

/-- The property names that an object literal inherits from `Object.prototype`.  The value
found there is a function (for `__proto__` the prototype object): truthy, and without a
method `push` or `forEach`. -/
def inheritedNames : List String :=
  ["constructor", "hasOwnProperty", "isPrototypeOf", "propertyIsEnumerable",
    "toLocaleString", "toString", "valueOf", "__defineGetter__", "__defineSetter__",
    "__lookupGetter__", "__lookupSetter__", "__proto__"]

namespace PubSub

variable {D W : Type}

/-- The expression `events[eventName]`: an own property, else an inherited one, else
`undefined`. -/
def lookup (events : Registry D W) (eventName : String) : Slot D W :=
  match JsObj.get events eventName with
  | some cbs => Slot.callbacks cbs
  | none => if eventName ∈ inheritedNames then Slot.inherited else Slot.missing

/-- The function `subscribe` of pubsub.js (lines 11-16): the new registry, or the
`TypeError` of `events[eventName].push` when the name is an inherited one. -/
def subscribe (eventName : String) (callback : Callback D W) (events : Registry D W) :
    Except String (Registry D W) :=
  let events1 :=
    match lookup events eventName with
    | Slot.missing => JsObj.set events eventName []
    | _ => events
  match lookup events1 eventName with
  | Slot.callbacks cbs => Except.ok (JsObj.set events1 eventName (cbs ++ [callback]))
  | _ => Except.error "TypeError: events[eventName].push is not a function"

/-- The method `unsubscribe` of the handle that `subscribe(eventName, callback)` returned
(pubsub.js lines 18-20); the handle exists once `subscribe` has returned, so the array
exists. -/
def unsubscribe (eventName : String) (callback : Callback D W) (events : Registry D W) :
    Registry D W :=
  JsObj.set events eventName
    (((JsObj.get events eventName).getD []).filter (fun cb => cb.fn != callback.fn))

/-- The body of the `forEach` of `publish` (lines 31-37) on the next callback: the call
inside `try`, the error reported in `catch`, which lets nothing out of the body; had an
error left an earlier pass, `forEach` would have been abandoned. -/
def invoke (data : D) (run : PublishRun D W) (callback : Callback D W) : PublishRun D W :=
  match run.thrown with
  | some _ => run
  | none =>
    { world := (callback.call data run.world).1
      invoked := run.invoked ++ [(callback.fn, data)]
      reported :=
        match (callback.call data run.world).2 with
        | none => run.reported
        | some error => run.reported ++ [error]
      thrown := none }

/-- The function `publish` of pubsub.js (lines 24-39), started in state `w`. -/
def publish (eventName : String) (data : D) (events : Registry D W) (w : W) :
    PublishRun D W :=
  match lookup events eventName with
  | Slot.missing => { world := w, invoked := [], reported := [], thrown := none }
  | Slot.inherited =>
    { world := w, invoked := [], reported := []
      thrown := some "TypeError: events[eventName].forEach is not a function" }
  | Slot.callbacks callbacks =>
    callbacks.foldl (invoke data) { world := w, invoked := [], reported := [], thrown := none }

/-- A run of `subscribe` calls, each given as (event name, callback); a call that throws
leaves the registry as it was. -/
def subscribeAll (subs : List (String × Callback D W)) (events : Registry D W) :
    Registry D W :=
  subs.foldl
    (fun ev sub =>
      match subscribe sub.1 sub.2 ev with
      | Except.ok ev1 => ev1
      | Except.error _ => ev)
    events

/-- The effect of one callback called with `data`. -/
def effect (data : D) (w : W) (callback : Callback D W) : W := (callback.call data w).1

end PubSub

/-- A callback of identity `fn` that does nothing. -/
def quietCallback (fn : ℕ) : Callback Unit Unit :=
  { fn := fn, call := fun _ w => (w, none) }

/-- A callback of identity `fn` that throws. -/
def throwingCallback (fn : ℕ) : Callback Unit Unit :=
  { fn := fn, call := fun _ w => (w, some "boom") }

/-- A callback of identity `fn` that appends `fn` to a log. -/
def loggingCallback (fn : ℕ) : Callback Unit (List ℕ) :=
  { fn := fn, call := fun _ w => (w ++ [fn], none) }

/-- A callback of identity `fn` that appends `fn` to a log and then throws. -/
def failingCallback (fn : ℕ) : Callback Unit (List ℕ) :=
  { fn := fn, call := fun _ w => (w ++ [fn], some "boom") }

/-! ### activation.js: the activation of a node as a function of the set of nodes -/

/-- The activation of node `n` after `k` rounds, computed from the nodes `ns` as a
collection: every round adds to it what all nodes of `ns` send to the id of `n`, and
`commit / ic`. -/
def activationOf (ic : ℕ) (alpha : Num) (ns : List Node) : ℕ → Node → Num
  | 0, _ => 0
  | k + 1, n =>
    activationOf ic alpha ns k n
      + (ns.map (fun s => sentTo ic alpha ns s (activationOf ic alpha ns k s) n.id)).sum
      + n.commit / ic

/-- The click handler of the activation button (controls.js lines 33-35):
`setNodes(calculateAndPropagateActivation(getNodes()))`. -/
def handleCalcActivationClick (s : State) : State :=
  setNodes (calculateAndPropagateActivation s.collection) s

/-! ## JavaScript numbers

A Number of the code is an IEEE 754 binary64 value.  Every finite double is an integer
multiple of `2^-1074`, the least positive double: `F64.fin k` stands for `k * 2^-1074`.  The
two zeros are one value here: the code divides by `ic` only, and no other operation tells
them apart.  Every operation rounds its exact result to the nearest double, ties to the even
one, and gives an infinity when the rounded magnitude reaches `2^1024`. -/

/-- A JavaScript Number. -/
inductive F64 where
  | fin (k : ℤ)
  | inf (negative : Bool)
  | nan
deriving DecidableEq

namespace F64

/-- The number of binary digits of `n`, found by halving the range: exact for `n` below
`2^16384`, which the exact result of an operation on two doubles is (a larger `n` rounds to
an infinity all the same). -/
def bitLength (n : ℕ) : ℕ :=
  if n = 0 then 0
  else
    ([8192, 4096, 2048, 1024, 512, 256, 128, 64, 32, 16, 8, 4, 2, 1].foldl
      (fun (acc : ℕ × ℕ) s => if acc.1 >>> s = 0 then acc else (acc.1 >>> s, acc.2 + s))
      (n, 0)).2 + 1

/-- The magnitude, in units of `2^-1074`, of the double nearest to `n / d` units (`d`
positive), ties to even, the exponent unbounded above.  A value below `2^53` units has
spacing one unit (the subnormal numbers and the first binade of the normal ones); a value
with `b > 53` binary digits in its integer part has spacing `2^(b - 53)` units. -/
def roundMag (n d : ℕ) : ℕ :=
  let q := n / d
  let sh := bitLength q - 53
  let quantum := d <<< sh
  let m := n / quantum
  let r := n % quantum
  let m1 := if 2 * r < quantum then m else if quantum < 2 * r then m + 1
    else if m % 2 = 0 then m else m + 1
  m1 <<< sh

/-- The double nearest to the real number of magnitude `n / d` units and the given sign;
an infinity from `2^1024`, which is `2^2098` units, on. -/
def round (negative : Bool) (n d : ℕ) : F64 :=
  let m := roundMag n d
  if 1 <<< 2098 ≤ m then inf negative
  else fin (if negative then -(m : ℤ) else (m : ℤ))

/-- The double denoted by a decimal literal or integer of value `n / d`. -/
def ofRatio (n : ℤ) (d : ℕ) : F64 := round (decide (n < 0)) (n.natAbs <<< 1074) d

/-- The double of an integer. -/
def ofInt (n : ℤ) : F64 := ofRatio n 1

/-- The operator `+` on Numbers. -/
def add : F64 → F64 → F64
  | nan, _ => nan
  | _, nan => nan
  | inf s, inf t => if s = t then inf s else nan
  | inf s, fin _ => inf s
  | fin _, inf t => inf t
  | fin a, fin b => round (decide (a + b < 0)) (a + b).natAbs 1

/-- The operator `*` on Numbers. -/
def mul : F64 → F64 → F64
  | nan, _ => nan
  | _, nan => nan
  | inf s, inf t => inf (s != t)
  | inf s, fin b => if b = 0 then nan else inf (s != decide (b < 0))
  | fin a, inf t => if a = 0 then nan else inf (decide (a < 0) != t)
  | fin a, fin b => round (decide (a * b < 0)) (a * b).natAbs (1 <<< 1074)

/-- The operator `/` on Numbers; a zero divisor is taken as `+0`. -/
def div : F64 → F64 → F64
  | nan, _ => nan
  | _, nan => nan
  | inf _, inf _ => nan
  | inf s, fin b => inf (s != decide (b < 0))
  | fin _, inf _ => fin 0
  | fin a, fin b =>
    if b = 0 then (if a = 0 then nan else inf (decide (a < 0)))
    else round (decide (a < 0) != decide (b < 0)) (a.natAbs <<< 1074) b.natAbs

/-- The comparison `x >= 0`. -/
def Nonneg : F64 → Prop
  | fin k => 0 ≤ k
  | inf negative => negative = false
  | nan => False

instance (x : F64) : Decidable x.Nonneg := by
  cases x <;> unfold Nonneg <;> infer_instance

/-- A finite Number above zero. -/
def Pos : F64 → Prop
  | fin k => 0 < k
  | _ => False

instance (x : F64) : Decidable x.Pos := by
  cases x <;> unfold Pos <;> infer_instance

end F64

/-! ### activation.js in doubles

The function `calculateAndPropagateActivation` once more, on the fields it reads and
writes, with the Numbers and operators of the code in place of exact arithmetic. -/

namespace InDoubles

/-- The fields of a node object that `calculateAndPropagateActivation` reads or writes. -/
structure Node where
  id : NodeId
  commit : F64
  links : JsObj F64
  activation : F64
deriving DecidableEq

/-- The constant `config.activation.iterations` as a Number. -/
def ic : F64 := F64.ofInt 4

/-- The constant `config.activation.propagationRate`: the literal `0.2`. -/
def alpha : F64 := F64.ofRatio 1 5

/-- The reset `node.activation = 0` (activation.js line 12). -/
def resetActivation (node : Node) : Node := { node with activation := F64.ofInt 0 }

/-- The object `increments` at the start of a round (activation.js line 15). -/
def initIncrements (newNodes : List Node) : NodeId → F64 :=
  newNodes.foldl (fun acc node => Function.update acc node.id (F64.ofInt 0))
    (fun _ => F64.ofInt 0)

/-- The `increment` of one link (activation.js line 22). -/
def linkIncrement (sourceNode : Node) (weight : F64) : F64 :=
  F64.div
    (F64.mul weight (F64.add sourceNode.commit (F64.mul sourceNode.activation alpha))) ic

/-- The `for ... in sourceNode.links` loop (activation.js lines 18-25). -/
def addLinkIncrements (newNodes : List Node) (increments : NodeId → F64)
    (sourceNode : Node) : NodeId → F64 :=
  sourceNode.links.foldl
    (fun inc e =>
      if newNodes.any (fun n => n.id == e.1) then
        Function.update inc e.1 (F64.add (inc e.1) (linkIncrement sourceNode e.2))
      else inc)
    increments

/-- One pass of the outer loop (activation.js lines 15-32); the two `+=` of lines 28 and
30 are two additions, each rounded. -/
def propagationRound (newNodes : List Node) : List Node :=
  let increments := newNodes.foldl (addLinkIncrements newNodes) (initIncrements newNodes)
  newNodes.map (fun node =>
    { node with
      activation :=
        F64.add (F64.add node.activation (increments node.id)) (F64.div node.commit ic) })

/-- The function `calculateAndPropagateActivation` of activation.js in doubles; the deep
copy is the identity on finite Numbers. -/
def calculateAndPropagateActivation (nodes : List Node) : List Node :=
  propagationRound^[config.activation.iterations] (nodes.map resetActivation)

end InDoubles

/-! ### activation.js on the heap

The same function with its objects in the heap, so that what it writes and where is
visible: the deep copy allocates fresh objects and every later statement writes to those. -/

/-- One pass of the outer loop (activation.js lines 15-32) on the objects `newNodes` of the
heap: the increments are computed reading the objects, then `newNodes.forEach` writes each
`node.activation` in place. -/
def propagationRoundIn (ic : ℕ) (alpha : Num) (newNodes : List Ref) (heap : Ref → Node) :
    Ref → Node :=
  let increments :=
    (newNodes.map heap).foldl (addLinkIncrements ic alpha (newNodes.map heap))
      (initIncrements (newNodes.map heap))
  forEachNode newNodes
    (fun node =>
      { node with activation := some (act node + increments node.id + node.commit / ic) })
    heap

/-- The body of `calculateAndPropagateActivation` on the heap, called with the array `nodes`
when `next` is the next free reference: `JSON.parse(JSON.stringify(nodes))` allocates a
fresh object per element (line 9), `newNodes.forEach` resets them in place (line 12), and
the rounds write to them.  The result is the heap after the call, the next free reference
and the returned array `newNodes`. -/
def propagateIn (ic : ℕ) (alpha : Num) (nodes : List Ref) (heap : Ref → Node) (next : Ref) :
    (Ref → Node) × Ref × List Ref :=
  let newNodes := List.range' next nodes.length
  let heap1 := allocAll (nodes.map heap) heap next
  let heap2 := forEachNode newNodes resetActivation heap1
  ((propagationRoundIn ic alpha newNodes)^[ic] heap2, next + nodes.length, newNodes)

/-- The function `calculateAndPropagateActivation` of activation.js on the heap. -/
def calculateAndPropagateActivationIn (nodes : List Ref) (heap : Ref → Node) (next : Ref) :
    (Ref → Node) × Ref × List Ref :=
  propagateIn config.activation.iterations config.activation.propagationRate nodes heap next

/-- The statements of the `catch` block of an operation that precede its
`publish('showError', ...)`: the captured inverse, written to the store (state.js lines
132-135, 174-180, 217-219, 261, 280, 298, 324). -/
def Pending.inverse (p : Pending) (today : String) (s : State) : State :=
  match p with
  | Pending.addNode tempId =>
    let s1 : State := { s with nodes := s.nodes.filter (fun r => (s.heap r).id != tempId) }
    if s1.selectedNodeId = some tempId then deselectNode s1 else s1
  | Pending.deleteNode _ deletedNode originalIndex relatedLinks =>
    relatedLinks.foldl restoreLink
      { s with nodes := s.nodes.take originalIndex ++ deletedNode :: s.nodes.drop originalIndex }
  | Pending.updateNodeContent id node oldName oldCommit _ newCommit =>
    let s1 := s.modify node (fun n => { n with name := oldName, commit := oldCommit })
    { s1 with commitHistory := trackCommitChange today id newCommit oldCommit s1.commitHistory }
  | Pending.updateNodeColor _ node originalColor =>
    s.modify node (fun n => { n with color := originalColor })
  | Pending.toggleNodeStar _ node originalStarred =>
    s.modify node (fun n => { n with starred := originalStarred })
  | Pending.toggleNodeAcute _ node originalAcute =>
    s.modify node (fun n => { n with acute := originalAcute })
  | Pending.updateLink _ node originalLinks _ =>
    s.modify node (fun n => { n with links := originalLinks })

/-! ## activation.js: lemmas and theorems -/

theorem initIncrements_apply (ns : List Node) (t : NodeId) : initIncrements ns t = 0 := by
  unfold initIncrements
  suffices h : ∀ (acc : NodeId → Num), (∀ u, acc u = 0) →
      (ns.foldl (fun acc node => Function.update acc node.id 0) acc) t = 0 from h _ (fun _ => rfl)
  induction ns with
  | nil => intro acc h; simpa using h t
  | cons n ns ih =>
    intro acc h
    rw [List.foldl_cons]
    apply ih
    intro u
    by_cases hu : u = n.id
    · subst hu; simp
    · simp [Function.update_noteq hu, h u]

theorem foldl_links_apply (ic : ℕ) (alpha : Num) (all : List Node) (s : Node)
    (l : JsObj Num) (inc : NodeId → Num) (t : NodeId) :
    (l.foldl
      (fun inc e =>
        if all.any (fun n => n.id == e.1) then
          Function.update inc e.1 (inc e.1 + linkIncrement ic alpha s e.2)
        else inc) inc) t
      = inc t + ((l.filter (fun e => e.1 == t && all.any (fun n => n.id == e.1))).map
          (fun e => (e.2 * (s.commit + act s * alpha)) / ic)).sum := by
  induction l generalizing inc with
  | nil => simp
  | cons e l ih =>
    rw [List.foldl_cons, ih]
    by_cases hg : all.any (fun n => n.id == e.1) = true
    · by_cases ht : e.1 = t
      · subst ht
        simp [hg, linkIncrement, List.filter_cons, add_assoc]
      · have ht2 : t ≠ e.1 := fun h => ht h.symm
        simp [hg, ht, List.filter_cons, Function.update_noteq ht2]
    · simp [hg, List.filter_cons]

theorem addLinkIncrements_apply (ic : ℕ) (alpha : Num) (all : List Node) (s : Node)
    (inc : NodeId → Num) (t : NodeId) :
    addLinkIncrements ic alpha all inc s t = inc t + sentTo ic alpha all s (act s) t := by
  unfold addLinkIncrements sentTo
  exact foldl_links_apply ic alpha all s s.links inc t

theorem foldl_addLinkIncrements_apply (ic : ℕ) (alpha : Num) (all l : List Node)
    (inc : NodeId → Num) (t : NodeId) :
    (l.foldl (addLinkIncrements ic alpha all) inc) t
      = inc t + (l.map (fun s => sentTo ic alpha all s (act s) t)).sum := by
  induction l generalizing inc with
  | nil => simp
  | cons s l ih =>
    rw [List.foldl_cons, ih, addLinkIncrements_apply]
    simp [add_assoc]

theorem any_id_withActivations (ns : List Node) (a : List Num) (h : a.length = ns.length)
    (k : NodeId) :
    (withActivations ns a).any (fun n => n.id == k) = ns.any (fun n => n.id == k) := by
  unfold withActivations
  induction ns generalizing a with
  | nil => simp
  | cons n ns ih =>
    cases a with
    | nil => simp at h
    | cons v a =>
      simp only [List.zipWith_cons_cons, List.any_cons]
      rw [ih a (by simpa using h)]

theorem sentTo_congr_all (ic : ℕ) (alpha : Num) (all all2 : List Node)
    (h : ∀ k, all.any (fun n => n.id == k) = all2.any (fun n => n.id == k))
    (s : Node) (v : Num) (t : NodeId) :
    sentTo ic alpha all s v t = sentTo ic alpha all2 s v t := by
  unfold sentTo
  simp only [h]

theorem map_withActivations {β : Type} (f : Node → β) (ns : List Node) (a : List Num) :
    (withActivations ns a).map f
      = (ns.zip a).map (fun nv => f { nv.1 with activation := some nv.2 }) := by
  unfold withActivations
  induction ns generalizing a with
  | nil => simp
  | cons n ns ih =>
    cases a with
    | nil => simp
    | cons v a => simp [ih]

theorem withActivations_map (ns : List Node) (a : List Num) (g : Node × Num → Num) :
    withActivations ns ((ns.zip a).map g)
      = (ns.zip a).map (fun nv => { nv.1 with activation := some (g nv) }) := by
  unfold withActivations
  induction ns generalizing a with
  | nil => simp
  | cons n ns ih =>
    cases a with
    | nil => simp
    | cons v a => simp [ih]

theorem increments_withActivations (ic : ℕ) (alpha : Num) (ns : List Node)
    (a : List Num) (h : a.length = ns.length) (t : NodeId) :
    ((withActivations ns a).foldl (addLinkIncrements ic alpha (withActivations ns a))
        (initIncrements (withActivations ns a))) t
      = incomingTo ic alpha ns a t := by
  rw [foldl_addLinkIncrements_apply, initIncrements_apply, zero_add, map_withActivations]
  unfold incomingTo
  congr 1
  apply List.map_congr_left
  intro nv _
  rw [sentTo_congr_all ic alpha _ ns (any_id_withActivations ns a h)]
  simp [sentTo, act]

theorem propagationRound_withActivations (ic : ℕ) (alpha : Num) (ns : List Node)
    (a : List Num) (h : a.length = ns.length) :
    propagationRound ic alpha (withActivations ns a)
      = withActivations ns (activationStep ic alpha ns a) := by
  unfold propagationRound activationStep
  rw [map_withActivations, withActivations_map]
  apply List.map_congr_left
  intro nv _
  simp only [increments_withActivations ic alpha ns a h]
  simp [act]

theorem length_activationStep (ic : ℕ) (alpha : Num) (ns : List Node) (a : List Num)
    (h : a.length = ns.length) : (activationStep ic alpha ns a).length = ns.length := by
  simp [activationStep, h]

theorem length_iterate_activationStep (ic : ℕ) (alpha : Num) (ns : List Node) (k : ℕ)
    (a : List Num) (h : a.length = ns.length) :
    ((activationStep ic alpha ns)^[k] a).length = ns.length := by
  induction k generalizing a with
  | zero => simpa using h
  | succ k ih =>
    rw [Function.iterate_succ_apply]
    exact ih _ (length_activationStep ic alpha ns a h)

theorem iterate_propagationRound_withActivations (ic : ℕ) (alpha : Num) (ns : List Node)
    (k : ℕ) (a : List Num) (h : a.length = ns.length) :
    (propagationRound ic alpha)^[k] (withActivations ns a)
      = withActivations ns ((activationStep ic alpha ns)^[k] a) := by
  induction k generalizing a with
  | zero => rfl
  | succ k ih =>
    rw [Function.iterate_succ_apply, Function.iterate_succ_apply,
      propagationRound_withActivations ic alpha ns a h,
      ih _ (length_activationStep ic alpha ns a h)]

theorem map_resetActivation (ns : List Node) :
    ns.map resetActivation = withActivations ns (ns.map (fun _ => (0 : Num))) := by
  unfold withActivations
  induction ns with
  | nil => rfl
  | cons n ns ih => simp [resetActivation, ih]

/-- The result of `propagate` is the input with the iterated activation vector. -/
theorem propagate_eq (ic : ℕ) (alpha : Num) (ns : List Node) :
    propagate ic alpha ns
      = withActivations ns ((activationStep ic alpha ns)^[ic] (ns.map (fun _ => (0 : Num)))) := by
  unfold propagate
  rw [map_resetActivation, iterate_propagationRound_withActivations]
  simp

theorem sum_filter_key_of_nodup (l : JsObj Num) (t : String) (f : String × Num → Num)
    (h : JsObj.WF l) :
    ((l.filter (fun e => e.1 == t)).map f).sum
      = match JsObj.get l t with
        | some w => f (t, w)
        | none => 0 := by
  induction l with
  | nil => simp [JsObj.get]
  | cons e l ih =>
    obtain ⟨k, w⟩ := e
    have hnd : k ∉ JsObj.keys l ∧ JsObj.WF l := by
      simpa [JsObj.WF, JsObj.keys] using h
    by_cases hk : k = t
    · subst hk
      have hnone : l.filter (fun e => e.1 == k) = [] := by
        rw [List.filter_eq_nil_iff]
        intro e he hek
        apply hnd.1
        have : e.1 = k := by simpa using hek
        rw [← this]
        exact List.mem_map_of_mem Prod.fst he
      simp [JsObj.get, List.lookup_cons, List.filter_cons, hnone]
    · have hk2 : ¬ t = k := fun h => hk h.symm
      have hb : (t == k) = false := by simp [hk2]
      have := ih hnd.2
      simp only [JsObj.get] at this
      simp [JsObj.get, List.lookup_cons, List.filter_cons, hk, hb, this]

theorem sentTo_eq_spec (ic : ℕ) (alpha : Num) (all : List Node) (s : Node) (v : Num)
    (t : NodeId) (hwf : JsObj.WF s.links) (ht : all.any (fun n => n.id == t) = true) :
    sentTo ic alpha all s v t
      = match JsObj.get s.links t with
        | some w => w * (s.commit + alpha * v) / ic
        | none => 0 := by
  unfold sentTo
  have hf : s.links.filter (fun e => e.1 == t && all.any (fun n => n.id == e.1))
      = s.links.filter (fun e => e.1 == t) := by
    apply List.filter_congr
    intro e _
    by_cases he : e.1 = t
    · subst he; simp [ht]
    · simp [he]
  rw [hf, sum_filter_key_of_nodup _ _ _ hwf]
  cases JsObj.get s.links t with
  | none => rfl
  | some w => simp [mul_comm]

theorem mem_of_mem_zip_left {α β : Type} {l : List α} {l2 : List β} {p : α × β}
    (h : p ∈ l.zip l2) : p.1 ∈ l :=
  (List.of_mem_zip h).1

theorem activationStep_eq_specStep (ic : ℕ) (alpha : Num) (ns : List Node) (a : List Num)
    (hwf : ∀ n ∈ ns, JsObj.WF n.links) :
    activationStep ic alpha ns a = specStep ic alpha ns a := by
  unfold activationStep specStep
  apply List.map_congr_left
  intro nv hnv
  have hmem : nv.1 ∈ ns := mem_of_mem_zip_left hnv
  have hany : ns.any (fun n => n.id == nv.1.id) = true := by
    rw [List.any_eq_true]
    exact ⟨nv.1, hmem, by simp⟩
  have : incomingTo ic alpha ns a nv.1.id = specIncoming ic alpha ns a nv.1.id := by
    unfold incomingTo specIncoming
    congr 1
    apply List.map_congr_left
    intro sv hsv
    exact sentTo_eq_spec ic alpha ns sv.1 sv.2 nv.1.id (hwf _ (mem_of_mem_zip_left hsv)) hany
  rw [this]

theorem iterate_activationStep_eq_spec (ic : ℕ) (alpha : Num) (ns : List Node)
    (hwf : ∀ n ∈ ns, JsObj.WF n.links) (k : ℕ) :
    (activationStep ic alpha ns)^[k] (ns.map (fun _ => (0 : Num)))
      = specActivations ic alpha ns k := by
  induction k with
  | zero => rfl
  | succ k ih =>
    rw [Function.iterate_succ_apply', ih, activationStep_eq_specStep ic alpha ns _ hwf]
    rfl

theorem map_activation_withActivations (ns : List Node) (a : List Num)
    (h : a.length = ns.length) :
    (withActivations ns a).map (fun n => n.activation) = a.map some := by
  unfold withActivations
  induction ns generalizing a with
  | nil =>
    cases a with
    | nil => rfl
    | cons v a => simp at h
  | cons n ns ih =>
    cases a with
    | nil => simp at h
    | cons v a =>
      simp only [List.zipWith_cons_cons, List.map_cons]
      rw [ih a (by simpa using h)]

/-- The activations returned by `calculateAndPropagateActivation`, as the iterated vector. -/
theorem activations_eq (ns : List Node) :
    (calculateAndPropagateActivation ns).map (fun n => n.activation)
      = ((activationStep 4 (1 / 5) ns)^[4] (ns.map (fun _ => (0 : Num)))).map some := by
  unfold calculateAndPropagateActivation
  rw [propagate_eq]
  exact map_activation_withActivations ns _
    (length_iterate_activationStep _ _ ns _ _ (by simp))

/-- C1, amended: over exact arithmetic, for every node list (link objects without repeated
keys, as JavaScript objects are), the activations returned by
`calculateAndPropagateActivation` are the vector `a_4` of the recurrence `a_0 = 0`,
`a_(k+1)(t) = a_k(t) + (sum over the nodes s with a link to t of weight w of
w * (commit s + alpha * a_k(s)) / 4) + commit t / 4` with `alpha = 1/5`, every round reading
only `a_k`.  Unique ids are not needed. -/
theorem C1_activation_recurrence (ns : List Node) (hwf : ∀ n ∈ ns, JsObj.WF n.links) :
    (calculateAndPropagateActivation ns).map (fun n => n.activation)
      = (specActivations 4 (1 / 5) ns 4).map some := by
  rw [activations_eq, iterate_activationStep_eq_spec 4 (1 / 5) ns hwf 4]

theorem C1_activation_recurrence_witness :
    (∀ n ∈ [sampleNode "a" 10 [("b", 2)], sampleNode "b" 0 []], JsObj.WF n.links) ∧
      (calculateAndPropagateActivation
          [sampleNode "a" 10 [("b", 2)], sampleNode "b" 0 []]).map (fun n => n.activation)
        = (specActivations 4 (1 / 5)
            [sampleNode "a" 10 [("b", 2)], sampleNode "b" 0 []] 4).map some :=
  ⟨by decide, C1_activation_recurrence _ (by decide)⟩

theorem sentTo_eq_zero (ic : ℕ) (alpha : Num) (all : List Node) (s : Node) (v : Num)
    (t : NodeId) (h : JsObj.has s.links t = false) : sentTo ic alpha all s v t = 0 := by
  unfold sentTo
  have : s.links.filter (fun e => e.1 == t && all.any (fun n => n.id == e.1)) = [] := by
    rw [List.filter_eq_nil_iff]
    intro e he
    have h2 : ∀ x ∈ s.links, ¬ x.1 = t := by simpa [JsObj.has] using h
    simp [h2 e he]
  rw [this]
  rfl

theorem incomingTo_eq_zero (ic : ℕ) (alpha : Num) (ns : List Node) (a : List Num)
    (t : NodeId) (h : ∀ s ∈ ns, JsObj.has s.links t = false) :
    incomingTo ic alpha ns a t = 0 := by
  unfold incomingTo
  apply List.sum_eq_zero
  intro x hx
  rw [List.mem_map] at hx
  obtain ⟨sv, hsv, rfl⟩ := hx
  exact sentTo_eq_zero ic alpha ns sv.1 sv.2 t (h _ (mem_of_mem_zip_left hsv))

theorem getElem?_activationStep (ic : ℕ) (alpha : Num) (ns : List Node) (a : List Num)
    (i : ℕ) (hi : i < ns.length) (v : Num) (hv : a[i]? = some v) :
    (activationStep ic alpha ns a)[i]?
      = some (v + incomingTo ic alpha ns a ns[i].id + ns[i].commit / ic) := by
  unfold activationStep
  have hz : (ns.zip a)[i]? = some (ns[i], v) := by
    rw [List.getElem?_zip_eq_some]
    exact ⟨by simp [hi], hv⟩
  simp [List.getElem?_map, hz]

theorem getElem?_iterate_isolated (ic : ℕ) (alpha : Num) (ns : List Node) (i : ℕ)
    (hi : i < ns.length) (h : ∀ s ∈ ns, JsObj.has s.links ns[i].id = false) (k : ℕ) :
    ((activationStep ic alpha ns)^[k] (ns.map (fun _ => (0 : Num))))[i]?
      = some (k * (ns[i].commit / ic)) := by
  induction k with
  | zero => simp [hi]
  | succ k ih =>
    rw [Function.iterate_succ_apply', getElem?_activationStep ic alpha ns _ i hi _ ih,
      incomingTo_eq_zero ic alpha ns _ _ h]
    congr 1
    push_cast
    ring

/-- C2: a node that is the target of no link of the list has, in the result of
`calculateAndPropagateActivation`, an activation equal to its commit. -/
theorem C2_isolated_activation_eq_commit (ns : List Node) (i : ℕ) (hi : i < ns.length)
    (h : ∀ s ∈ ns, JsObj.has s.links ns[i].id = false) :
    ((calculateAndPropagateActivation ns).map (fun n => n.activation))[i]?
      = some (some ns[i].commit) := by
  rw [activations_eq, List.getElem?_map, getElem?_iterate_isolated 4 (1 / 5) ns i hi h 4]
  simp
  ring

theorem C2_isolated_activation_eq_commit_witness :
    (∀ s ∈ [sampleNode "a" 10 [("b", 2)], sampleNode "b" 0 []],
        JsObj.has s.links (sampleNode "a" 10 [("b", 2)]).id = false) ∧
      ((calculateAndPropagateActivation
          [sampleNode "a" 10 [("b", 2)], sampleNode "b" 0 []]).map (fun n => n.activation))[0]?
        = some (some (sampleNode "a" 10 [("b", 2)]).commit) :=
  ⟨by decide,
    C2_isolated_activation_eq_commit [sampleNode "a" 10 [("b", 2)], sampleNode "b" 0 []] 0
      (by decide) (by decide)⟩

theorem activationStep_two_nodes (nA nB : Node) (w c a b : Num) (hid : nA.id ≠ nB.id)
    (hA : nA.commit = c) (hAl : nA.links = [(nB.id, w)])
    (hB : nB.commit = 0) (hBl : nB.links = []) :
    activationStep 4 (1 / 5) [nA, nB] [a, b]
      = [a + c / 4, b + w * (c + a * (1 / 5)) / 4] := by
  have hid2 : ¬ nB.id = nA.id := fun h => hid h.symm
  simp [activationStep, incomingTo, sentTo, hA, hAl, hB, hBl, hid, hid2, List.filter_cons]

/-- C3: on the two-node list A (commit `c > 0`, one link to B of weight `w` in 1, 2, 3)
and B (commit 0, no links), `calculateAndPropagateActivation` returns activation `c` for A
and the positive activation `43/40 * w * c` for B. -/
theorem C3_two_node_diffusion (nA nB : Node) (w c : Num)
    (hw : w = 1 ∨ w = 2 ∨ w = 3) (hc : 0 < c) (hid : nA.id ≠ nB.id)
    (hA : nA.commit = c) (hAl : nA.links = [(nB.id, w)])
    (hB : nB.commit = 0) (hBl : nB.links = []) :
    (calculateAndPropagateActivation [nA, nB]).map (fun n => n.activation)
        = [some c, some (43 / 40 * w * c)] ∧ 0 < 43 / 40 * w * c := by
  have hw0 : 0 < w := by
    rcases hw with h | h | h <;> rw [h] <;> norm_num
  refine ⟨?_, by positivity⟩
  rw [activations_eq]
  have hstep := fun a b => activationStep_two_nodes nA nB w c a b hid hA hAl hB hBl
  have h0 : [nA, nB].map (fun _ => (0 : Num)) = [0, 0] := rfl
  rw [h0, Function.iterate_succ_apply, Function.iterate_succ_apply, Function.iterate_succ_apply,
    Function.iterate_succ_apply, Function.iterate_zero_apply, hstep, hstep, hstep, hstep]
  simp only [List.map_cons, List.map_nil, List.cons.injEq, Option.some.injEq, and_true]
  constructor <;> ring

theorem C3_two_node_diffusion_witness :
    ((2 : Num) = 1 ∨ (2 : Num) = 2 ∨ (2 : Num) = 3) ∧ (0 : Num) < 10 ∧
      (calculateAndPropagateActivation
          [sampleNode "a" 10 [("b", 2)], sampleNode "b" 0 []]).map (fun n => n.activation)
        = [some 10, some (43 / 40 * 2 * 10)] ∧ (0 : Num) < 43 / 40 * 2 * 10 :=
  ⟨by decide, by norm_num,
    C3_two_node_diffusion (sampleNode "a" 10 [("b", 2)]) (sampleNode "b" 0 []) 2 10
      (by decide) (by norm_num) (by decide) rfl rfl rfl rfl⟩

theorem any_id_map_pruneDangling (ns all : List Node) (k : NodeId) :
    (ns.map (pruneDangling all)).any (fun n => n.id == k) = ns.any (fun n => n.id == k) := by
  induction ns with
  | nil => rfl
  | cons n ns ih => simp [pruneDangling, ih]

theorem sentTo_pruneDangling (ic : ℕ) (alpha : Num) (ns : List Node) (s : Node) (v : Num)
    (t : NodeId) :
    sentTo ic alpha (ns.map (pruneDangling ns)) (pruneDangling ns s) v t
      = sentTo ic alpha ns s v t := by
  rw [sentTo_congr_all ic alpha _ ns (any_id_map_pruneDangling ns ns)]
  unfold sentTo pruneDangling
  simp only [List.filter_filter]
  congr 2
  apply List.filter_congr
  intro e _
  cases h1 : (e.1 == t) <;> cases h2 : ns.any (fun n => n.id == e.1) <;> simp [h1, h2]

theorem activationStep_pruneDangling (ic : ℕ) (alpha : Num) (ns : List Node) (a : List Num) :
    activationStep ic alpha (ns.map (pruneDangling ns)) a = activationStep ic alpha ns a := by
  have hinc : ∀ t, incomingTo ic alpha (ns.map (pruneDangling ns)) a t
      = incomingTo ic alpha ns a t := by
    intro t
    unfold incomingTo
    rw [List.zip_map_left, List.map_map]
    congr 1
    apply List.map_congr_left
    intro sv _
    exact sentTo_pruneDangling ic alpha ns sv.1 sv.2 t
  unfold activationStep
  rw [List.zip_map_left, List.map_map]
  apply List.map_congr_left
  intro nv _
  simp [hinc, pruneDangling]

/-- C4: links whose target is no node of the list contribute nothing:
`calculateAndPropagateActivation` (a total function) returns the same activations for the
list and for the list with every such link removed. -/
theorem C4_dangling_links_ignored (ns : List Node) :
    (calculateAndPropagateActivation ns).map (fun n => n.activation)
      = (calculateAndPropagateActivation (ns.map (pruneDangling ns))).map
          (fun n => n.activation) := by
  rw [activations_eq, activations_eq]
  have hf : activationStep 4 (1 / 5) (ns.map (pruneDangling ns)) = activationStep 4 (1 / 5) ns :=
    funext (activationStep_pruneDangling 4 (1 / 5) ns)
  rw [hf, List.map_map]
  rfl

theorem map_clearActivation_withActivations (ns : List Node) (a : List Num)
    (h : a.length = ns.length) :
    (withActivations ns a).map clearActivation = ns.map clearActivation := by
  unfold withActivations
  induction ns generalizing a with
  | nil => simp
  | cons n ns ih =>
    cases a with
    | nil => simp at h
    | cons v a =>
      simp only [List.zipWith_cons_cons, List.map_cons]
      rw [ih a (by simpa using h)]
      rfl

theorem map_clearActivation_calculate (ns : List Node) :
    (calculateAndPropagateActivation ns).map clearActivation = ns.map clearActivation := by
  unfold calculateAndPropagateActivation
  rw [propagate_eq]
  exact map_clearActivation_withActivations ns _
    (length_iterate_activationStep _ _ ns _ _ (by simp))

theorem calculate_map_clearActivation (ns : List Node) :
    calculateAndPropagateActivation (ns.map clearActivation)
      = calculateAndPropagateActivation ns := by
  unfold calculateAndPropagateActivation propagate
  rw [List.map_map]
  rfl

/-- C5: the output of `calculateAndPropagateActivation` does not depend on the activations
of its input, and running it on its own output returns that output. -/
theorem C5_activation_input_ignored :
    (∀ ns ms : List Node, ns.map clearActivation = ms.map clearActivation →
        calculateAndPropagateActivation ns = calculateAndPropagateActivation ms) ∧
      ∀ ns : List Node,
        calculateAndPropagateActivation (calculateAndPropagateActivation ns)
          = calculateAndPropagateActivation ns := by
  constructor
  · intro ns ms h
    rw [← calculate_map_clearActivation ns, h, calculate_map_clearActivation]
  · intro ns
    rw [← calculate_map_clearActivation (calculateAndPropagateActivation ns),
      map_clearActivation_calculate, calculate_map_clearActivation]

theorem C5_activation_input_ignored_witness :
    [sampleNode "a" 10 [("b", 2)]].map clearActivation
        = [resetActivation (sampleNode "a" 10 [("b", 2)])].map clearActivation ∧
      calculateAndPropagateActivation [sampleNode "a" 10 [("b", 2)]]
        = calculateAndPropagateActivation [resetActivation (sampleNode "a" 10 [("b", 2)])] :=
  ⟨by decide, C5_activation_input_ignored.1 _ _ (by decide)⟩

/-- The result of `calculateAndPropagateActivation` has the length and order of its input
and every node agrees with the input node at its position in every field but
`activation`. -/
theorem calculate_frame (ns : List Node) :
    (calculateAndPropagateActivation ns).length = ns.length ∧
      (calculateAndPropagateActivation ns).map clearActivation = ns.map clearActivation := by
  have h := map_clearActivation_calculate ns
  refine ⟨?_, h⟩
  have := congrArg List.length h
  simpa using this

theorem sentTo_nonneg (ic : ℕ) (alpha : Num) (all : List Node) (s : Node) (v : Num)
    (t : NodeId) (ha : 0 ≤ alpha) (hc : 0 ≤ s.commit) (hw : ∀ e ∈ s.links, 0 ≤ e.2)
    (hv : 0 ≤ v) : 0 ≤ sentTo ic alpha all s v t := by
  unfold sentTo
  apply List.sum_nonneg
  intro x hx
  rw [List.mem_map] at hx
  obtain ⟨e, he, rfl⟩ := hx
  have hew : 0 ≤ e.2 := hw e (List.mem_filter.mp he).1
  positivity

theorem incomingTo_nonneg (ic : ℕ) (alpha : Num) (ns : List Node) (a : List Num)
    (t : NodeId) (ha : 0 ≤ alpha) (hc : ∀ n ∈ ns, 0 ≤ n.commit)
    (hw : ∀ n ∈ ns, ∀ e ∈ n.links, 0 ≤ e.2) (hv : ∀ v ∈ a, 0 ≤ v) :
    0 ≤ incomingTo ic alpha ns a t := by
  unfold incomingTo
  apply List.sum_nonneg
  intro x hx
  rw [List.mem_map] at hx
  obtain ⟨sv, hsv, rfl⟩ := hx
  have h1 := (List.of_mem_zip hsv).1
  have h2 := (List.of_mem_zip hsv).2
  exact sentTo_nonneg ic alpha ns sv.1 sv.2 t ha (hc _ h1) (hw _ h1) (hv _ h2)

theorem activationStep_nonneg (ic : ℕ) (alpha : Num) (ns : List Node) (a : List Num)
    (ha : 0 ≤ alpha) (hc : ∀ n ∈ ns, 0 ≤ n.commit)
    (hw : ∀ n ∈ ns, ∀ e ∈ n.links, 0 ≤ e.2) (hv : ∀ v ∈ a, 0 ≤ v) :
    ∀ v ∈ activationStep ic alpha ns a, 0 ≤ v := by
  intro v hmem
  unfold activationStep at hmem
  rw [List.mem_map] at hmem
  obtain ⟨nv, hnv, rfl⟩ := hmem
  have h1 := (List.of_mem_zip hnv).1
  have h2 := (List.of_mem_zip hnv).2
  have h3 := incomingTo_nonneg ic alpha ns a nv.1.id ha hc hw hv
  have h4 : 0 ≤ nv.1.commit := hc _ h1
  have h5 : 0 ≤ nv.2 := hv _ h2
  positivity

theorem iterate_activationStep_nonneg (ic : ℕ) (alpha : Num) (ns : List Node)
    (ha : 0 ≤ alpha) (hc : ∀ n ∈ ns, 0 ≤ n.commit)
    (hw : ∀ n ∈ ns, ∀ e ∈ n.links, 0 ≤ e.2) (k : ℕ) :
    ∀ v ∈ (activationStep ic alpha ns)^[k] (ns.map (fun _ => (0 : Num))), 0 ≤ v := by
  induction k with
  | zero =>
    intro v hv
    simp at hv
    rw [hv.2]
  | succ k ih =>
    rw [Function.iterate_succ_apply']
    exact activationStep_nonneg ic alpha ns _ ha hc hw ih

/-- Over exact arithmetic: a commit is any integer the user types, and the single node
with commit -1 and no links gets activation -1. -/
theorem negative_commit_exact :
    (∀ n ∈ [sampleNode "a" (-1) []],
        (∃ z : ℤ, n.commit = z) ∧ ∀ e ∈ n.links, e.2 = 1 ∨ e.2 = 2 ∨ e.2 = 3) ∧
      (calculateAndPropagateActivation [sampleNode "a" (-1) []]).map (fun n => n.activation)
        = [some (-1)] ∧ (-1 : Num) < 0 := by
  refine ⟨?_, ?_, by norm_num⟩
  · intro n hn
    simp only [List.mem_singleton] at hn
    subst hn
    exact ⟨⟨-1, by simp [sampleNode]⟩, by simp [sampleNode]⟩
  · rw [activations_eq]
    simp [Function.iterate_succ, activationStep, incomingTo, sentTo, sampleNode]
    norm_num

/-- Over exact arithmetic: when every commit is at least 0 and every link weight is at
least 0, every activation in the output of `calculateAndPropagateActivation` is a number
that is at least 0. -/
theorem calculate_nonneg_exact (ns : List Node) (hc : ∀ n ∈ ns, 0 ≤ n.commit)
    (hw : ∀ n ∈ ns, ∀ e ∈ n.links, 0 ≤ e.2) :
    ∀ o ∈ (calculateAndPropagateActivation ns).map (fun n => n.activation),
      ∃ v, o = some v ∧ 0 ≤ v := by
  intro o ho
  rw [activations_eq, List.mem_map] at ho
  obtain ⟨v, hv, rfl⟩ := ho
  exact ⟨v, rfl, iterate_activationStep_nonneg 4 (1 / 5) ns (by norm_num) hc hw 4 v hv⟩

/-! ## Lemmas on JavaScript objects -/

theorem JsObj.get_cons {α : Type} (k : String) (v : α) (o : JsObj α) (t : String) :
    JsObj.get ((k, v) :: o) t = if t = k then some v else JsObj.get o t := by
  unfold JsObj.get
  by_cases h : t = k
  · subst h; simp [List.lookup_cons]
  · have hb : (t == k) = false := by simp [h]
    simp [List.lookup_cons, hb, h]

theorem JsObj.has_cons {α : Type} (k : String) (v : α) (o : JsObj α) (t : String) :
    JsObj.has ((k, v) :: o) t = (k == t || JsObj.has o t) := by
  simp [JsObj.has]

theorem JsObj.has_eq_isSome_get {α : Type} (o : JsObj α) (k : String) :
    JsObj.has o k = (JsObj.get o k).isSome := by
  induction o with
  | nil => rfl
  | cons e o ih =>
    obtain ⟨k2, v⟩ := e
    rw [JsObj.get_cons, JsObj.has_cons, ih]
    by_cases h : k = k2
    · subst h; simp
    · have h2 : ¬ k2 = k := fun h3 => h h3.symm
      simp [h, h2]

theorem JsObj.del_cons {α : Type} (k2 : String) (v : α) (o : JsObj α) (k : String) :
    JsObj.del ((k2, v) :: o) k = if k2 = k then JsObj.del o k else (k2, v) :: JsObj.del o k := by
  by_cases h : k2 = k <;> simp [JsObj.del, List.filter_cons, h]

theorem JsObj.get_del_self {α : Type} (o : JsObj α) (k : String) :
    JsObj.get (JsObj.del o k) k = none := by
  induction o with
  | nil => rfl
  | cons e o ih =>
    obtain ⟨k2, v⟩ := e
    rw [JsObj.del_cons]
    by_cases h : k2 = k
    · rw [if_pos h, ih]
    · have h2 : ¬ k = k2 := fun h3 => h h3.symm
      rw [if_neg h, JsObj.get_cons, if_neg h2, ih]

theorem JsObj.get_del_of_ne {α : Type} (o : JsObj α) (k t : String) (h : t ≠ k) :
    JsObj.get (JsObj.del o k) t = JsObj.get o t := by
  induction o with
  | nil => rfl
  | cons e o ih =>
    obtain ⟨k2, v⟩ := e
    rw [JsObj.del_cons]
    by_cases h2 : k2 = k
    · subst h2
      rw [if_pos rfl, ih, JsObj.get_cons, if_neg h]
    · rw [if_neg h2, JsObj.get_cons, JsObj.get_cons, ih]

theorem JsObj.get_set_self {α : Type} (o : JsObj α) (k : String) (v : α) :
    JsObj.get (JsObj.set o k v) k = some v := by
  induction o with
  | nil => simp [JsObj.set, JsObj.get_cons]
  | cons e o ih =>
    obtain ⟨k2, w⟩ := e
    by_cases h : k2 = k
    · simp [JsObj.set, h, JsObj.get_cons]
    · have h2 : ¬ k = k2 := fun h3 => h h3.symm
      simp [JsObj.set, h, JsObj.get_cons, h2, ih]

theorem JsObj.get_set_of_ne {α : Type} (o : JsObj α) (k : String) (v : α) (t : String)
    (h : t ≠ k) : JsObj.get (JsObj.set o k v) t = JsObj.get o t := by
  induction o with
  | nil => simp [JsObj.set, JsObj.get_cons, h, JsObj.get]
  | cons e o ih =>
    obtain ⟨k2, w⟩ := e
    by_cases h2 : k2 = k
    · subst h2
      simp [JsObj.set, JsObj.get_cons, h]
    · simp [JsObj.set, h2, JsObj.get_cons, ih]

theorem JsObj.has_del_self {α : Type} (o : JsObj α) (k : String) :
    JsObj.has (JsObj.del o k) k = false := by
  rw [JsObj.has_eq_isSome_get, JsObj.get_del_self]
  rfl

theorem JsObj.get_eq_some_mem {α : Type} (o : JsObj α) (k : String) (v : α)
    (h : JsObj.get o k = some v) : (k, v) ∈ o := by
  induction o with
  | nil => simp [JsObj.get] at h
  | cons e o ih =>
    obtain ⟨k2, w⟩ := e
    rw [JsObj.get_cons] at h
    by_cases h2 : k = k2
    · subst h2
      simp only [if_true, Option.some.injEq] at h
      subst h
      exact List.mem_cons_self _ _
    · rw [if_neg h2] at h
      exact List.mem_cons_of_mem _ (ih h)

/-! ## Lemmas on the store -/

@[simp] theorem publish_heap (e : Event) (s : State) : (publish e s).heap = s.heap := rfl

@[simp] theorem publish_nodes (e : Event) (s : State) : (publish e s).nodes = s.nodes := rfl

@[simp] theorem publish_next (e : Event) (s : State) : (publish e s).next = s.next := rfl

@[simp] theorem publish_selectedNodeId (e : Event) (s : State) :
    (publish e s).selectedNodeId = s.selectedNodeId := rfl

@[simp] theorem publish_collection (e : Event) (s : State) :
    (publish e s).collection = s.collection := rfl

@[simp] theorem selectNode_collection (id : NodeId) (s : State) :
    (selectNode id s).collection = s.collection := rfl

@[simp] theorem deselectNode_collection (s : State) :
    (deselectNode s).collection = s.collection := rfl

theorem forEachNode_of_not_mem (refs : List Ref) (f : Node → Node) (heap : Ref → Node)
    (r : Ref) (h : r ∉ refs) : forEachNode refs f heap r = heap r := by
  unfold forEachNode
  induction refs generalizing heap with
  | nil => rfl
  | cons a refs ih =>
    rw [List.foldl_cons, ih _ (fun hm => h (List.mem_cons_of_mem _ hm))]
    have : r ≠ a := fun hra => h (hra ▸ List.mem_cons_self _ _)
    exact Function.update_noteq this _ _

theorem forEachNode_of_mem (refs : List Ref) (f : Node → Node) (heap : Ref → Node)
    (r : Ref) (hn : refs.Nodup) (h : r ∈ refs) : forEachNode refs f heap r = f (heap r) := by
  induction refs generalizing heap with
  | nil => simp at h
  | cons a refs ih =>
    have hnd : a ∉ refs ∧ refs.Nodup := List.nodup_cons.mp hn
    have hstep : forEachNode (a :: refs) f heap
        = forEachNode refs f (Function.update heap a (f (heap a))) := rfl
    rw [hstep]
    rcases List.mem_cons.mp h with hra | hr
    · subst hra
      rw [forEachNode_of_not_mem _ _ _ _ hnd.1, Function.update_same]
    · rw [ih _ hnd.2 hr]
      have : r ≠ a := fun hra => hnd.1 (hra ▸ hr)
      rw [Function.update_noteq this]

theorem State.UniqueIds.nodup_nodes {s : State} (h : s.UniqueIds) : s.nodes.Nodup := by
  unfold State.UniqueIds State.collection at h
  rw [List.map_map] at h
  exact List.Nodup.of_map _ h

theorem State.UniqueIds.eq_of_id_eq {s : State} (h : s.UniqueIds) {r r2 : Ref}
    (hr : r ∈ s.nodes) (hr2 : r2 ∈ s.nodes) (hid : (s.heap r).id = (s.heap r2).id) :
    r = r2 := by
  unfold State.UniqueIds State.collection at h
  rw [List.map_map] at h
  exact List.inj_on_of_nodup_map h hr hr2 hid

theorem findNode_some {id : NodeId} {s : State} {r : Ref} (h : findNode id s = some r) :
    r ∈ s.nodes ∧ (s.heap r).id = id := by
  unfold findNode at h
  exact ⟨List.mem_of_find?_eq_some h, by simpa using List.find?_some h⟩

theorem findNode_none {id : NodeId} {s : State} (h : findNode id s = none) :
    ∀ r ∈ s.nodes, (s.heap r).id ≠ id := by
  unfold findNode at h
  intro r hr
  have := List.find?_eq_none.mp h r hr
  simpa using this

theorem applyLink_id (n : Node) (link : RelatedLink) : (applyLink n link).id = n.id := by
  unfold applyLink
  split <;> rfl

theorem foldl_applyLink_id (L : List RelatedLink) (n : Node) :
    (L.foldl applyLink n).id = n.id := by
  induction L generalizing n with
  | nil => rfl
  | cons l L ih => rw [List.foldl_cons, ih, applyLink_id]

/-- One step of the restoring loop acts on the heap as `applyLink` on every object of the
array, provided the ids are pairwise distinct. -/
theorem restoreLink_eq (s : State) (link : RelatedLink) (hu : s.UniqueIds) :
    restoreLink s link
      = { s with heap := fun r => if r ∈ s.nodes then applyLink (s.heap r) link else s.heap r } := by
  unfold restoreLink
  cases hf : findNode link.sourceId s with
  | none =>
    have hne := findNode_none hf
    have : (fun r => if r ∈ s.nodes then applyLink (s.heap r) link else s.heap r) = s.heap := by
      funext r
      by_cases hr : r ∈ s.nodes
      · simp [hr, applyLink, hne r hr]
      · simp [hr]
    simp [this]
  | some r1 =>
    obtain ⟨hr1, hid1⟩ := findNode_some hf
    simp only [State.modify]
    congr 1
    funext r
    by_cases hr : r ∈ s.nodes
    · by_cases hrr : r = r1
      · subst hrr
        simp [hr, applyLink, hid1]
      · have hne : (s.heap r).id ≠ link.sourceId := by
          intro hh
          exact hrr (hu.eq_of_id_eq hr hr1 (hh.trans hid1.symm))
        simp [hr, applyLink, hne, Function.update_noteq hrr]
    · have hrr : r ≠ r1 := fun hh => hr (hh ▸ hr1)
      simp [hr, Function.update_noteq hrr]

theorem map_id_collection_congr {s s2 : State} (hn : s2.nodes = s.nodes)
    (hid : ∀ r ∈ s.nodes, (s2.heap r).id = (s.heap r).id) :
    s2.collection.map (fun n => n.id) = s.collection.map (fun n => n.id) := by
  unfold State.collection
  rw [hn, List.map_map, List.map_map]
  apply List.map_congr_left
  intro r hr
  exact hid r hr

theorem State.UniqueIds.congr {s s2 : State} (hu : s.UniqueIds) (hn : s2.nodes = s.nodes)
    (hid : ∀ r ∈ s.nodes, (s2.heap r).id = (s.heap r).id) : s2.UniqueIds := by
  unfold State.UniqueIds
  rw [map_id_collection_congr hn hid]
  exact hu

/-- The restoring loop acts on the heap as the fold of `applyLink` on every object of the
array, provided the ids are pairwise distinct. -/
theorem foldl_restoreLink_eq (L : List RelatedLink) (s : State) (hu : s.UniqueIds) :
    L.foldl restoreLink s
      = { s with
          heap := fun r => if r ∈ s.nodes then L.foldl applyLink (s.heap r) else s.heap r } := by
  induction L generalizing s with
  | nil =>
    have : (fun r => if r ∈ s.nodes then s.heap r else s.heap r) = s.heap := by
      funext r; simp
    simp [this]
  | cons l L ih =>
    rw [List.foldl_cons, restoreLink_eq s l hu]
    have hu1 : State.UniqueIds
        { s with heap := fun r => if r ∈ s.nodes then applyLink (s.heap r) l else s.heap r } := by
      refine hu.congr ?_ ?_
      · rfl
      · intro r hr
        simp [hr, applyLink_id]
    rw [ih _ hu1]
    simp only
    congr 1
    funext r
    by_cases hr : r ∈ s.nodes <;> simp [hr]

theorem deleteNode_of_lt (id : NodeId) (s : State)
    (h : s.nodes.findIdx (fun r => (s.heap r).id == id) < s.nodes.length) :
    deleteNode true id s
      = (publish Event.stateChange (deselectNode
          { s with
            heap := forEachNode (s.nodes.eraseIdx (s.nodes.findIdx (fun r => (s.heap r).id == id)))
              (stripLink id)
              (Function.update s.heap s.next
                (s.heap (s.nodes[s.nodes.findIdx (fun r => (s.heap r).id == id)])))
            next := s.next + 1
            nodes := s.nodes.eraseIdx (s.nodes.findIdx (fun r => (s.heap r).id == id)) }),
        some (Pending.deleteNode id s.next (s.nodes.findIdx (fun r => (s.heap r).id == id))
          (collectRelatedLinks id (s.nodes.map
            (Function.update s.heap s.next
              (s.heap (s.nodes[s.nodes.findIdx (fun r => (s.heap r).id == id)]))))))) := by
  unfold deleteNode
  simp only [Bool.true_eq_false, if_false, dif_pos h]

theorem deleteNode_of_not_lt (id : NodeId) (s : State)
    (h : ¬ s.nodes.findIdx (fun r => (s.heap r).id == id) < s.nodes.length) :
    deleteNode true id s = (s, none) := by
  unfold deleteNode
  simp only [Bool.true_eq_false, if_false, dif_neg h]

/-! ## state.js: `deleteNode` and the compensations -/

theorem stripLink_id (id : NodeId) (n : Node) : (stripLink id n).id = n.id := by
  unfold stripLink
  split <;> rfl

theorem stripLink_has (id : NodeId) (n : Node) (hw : ∀ e ∈ n.links, e.2 ≠ 0) :
    JsObj.has (stripLink id n).links id = false := by
  unfold stripLink
  by_cases ht : truthy (JsObj.get n.links id) = true
  · rw [if_pos ht]
    exact JsObj.has_del_self _ _
  · rw [if_neg ht, JsObj.has_eq_isSome_get]
    cases hg : JsObj.get n.links id with
    | none => rfl
    | some w =>
      exfalso
      apply ht
      have := hw _ (JsObj.get_eq_some_mem _ _ _ hg)
      simp [hg, truthy, this]

theorem heap_findIdx_id (id : NodeId) (s : State)
    (h : s.nodes.findIdx (fun r => (s.heap r).id == id) < s.nodes.length) :
    (s.heap (s.nodes[s.nodes.findIdx (fun r => (s.heap r).id == id)])).id = id := by
  have := List.findIdx_getElem (w := h)
  simpa using this

theorem findIdx_lt_of_mem_collection (id : NodeId) (s : State)
    (hin : ∃ n ∈ s.collection, n.id = id) :
    s.nodes.findIdx (fun r => (s.heap r).id == id) < s.nodes.length := by
  rw [List.findIdx_lt_length]
  obtain ⟨n, hn, hid⟩ := hin
  unfold State.collection at hn
  rw [List.mem_map] at hn
  obtain ⟨r, hr, rfl⟩ := hn
  exact ⟨r, hr, by simpa using hid⟩

theorem id_ne_of_mem_eraseIdx (id : NodeId) (s : State) (hu : s.UniqueIds)
    (h : s.nodes.findIdx (fun r => (s.heap r).id == id) < s.nodes.length) (r : Ref)
    (hr : r ∈ s.nodes.eraseIdx (s.nodes.findIdx (fun r => (s.heap r).id == id))) :
    (s.heap r).id ≠ id := by
  intro hid
  rw [List.mem_eraseIdx_iff_getElem] at hr
  obtain ⟨j, hj, hji, hjr⟩ := hr
  have hrn : r ∈ s.nodes := hjr ▸ List.getElem_mem hj
  have h0 := heap_findIdx_id id s h
  have hreq : r = s.nodes[s.nodes.findIdx (fun r => (s.heap r).id == id)] :=
    hu.eq_of_id_eq hrn (List.getElem_mem h) (hid.trans h0.symm)
  rw [← hjr] at hreq
  exact hji ((List.Nodup.getElem_inj_iff hu.nodup_nodes).mp hreq)

/-- The heap after the synchronous part of `deleteNode`, at a reference of the array. -/
theorem deleteNode_heap_of_mem (id : NodeId) (s : State) (hb : s.RefsBelow)
    (hn : s.nodes.Nodup)
    (h : s.nodes.findIdx (fun r => (s.heap r).id == id) < s.nodes.length) (r : Ref)
    (hr : r ∈ s.nodes.eraseIdx (s.nodes.findIdx (fun r => (s.heap r).id == id))) :
    (deleteNode true id s).1.heap r = stripLink id (s.heap r) := by
  rw [deleteNode_of_lt id s h]
  have hrn : r ∈ s.nodes := (List.eraseIdx_sublist _ _).subset hr
  have hne : r ≠ s.next := Nat.ne_of_lt (hb r hrn)
  simp only [publish_heap, deselectNode]
  rw [forEachNode_of_mem _ _ _ _ (List.Nodup.eraseIdx _ hn) hr, Function.update_noteq hne]

theorem deleteNode_nodes (id : NodeId) (s : State)
    (h : s.nodes.findIdx (fun r => (s.heap r).id == id) < s.nodes.length) :
    (deleteNode true id s).1.nodes
      = s.nodes.eraseIdx (s.nodes.findIdx (fun r => (s.heap r).id == id)) := by
  rw [deleteNode_of_lt id s h]
  rfl

theorem succeedOf_deleteNode (id : NodeId) (s : State) (saved : Node) :
    succeedOf (deleteNode true id s).2 saved (deleteNode true id s).1
      = (deleteNode true id s).1 := by
  by_cases h : s.nodes.findIdx (fun r => (s.heap r).id == id) < s.nodes.length
  · rw [deleteNode_of_lt id s h]
    rfl
  · rw [deleteNode_of_not_lt id s h]
    rfl

/-- C8, amended: in a collection with pairwise distinct ids and no link of weight 0, after
the synchronous part of `deleteNode(id)` (the dialog confirmed) for the id of one of its
nodes, and still after the remote delete has succeeded, no node of the collection has that
id and no link object of a surviving node has that id as a key. -/
theorem C8_delete_purges_references (s : State) (id : NodeId) (hb : s.RefsBelow)
    (hu : s.UniqueIds) (hw : ∀ n ∈ s.collection, ∀ e ∈ n.links, e.2 ≠ 0)
    (hin : ∃ n ∈ s.collection, n.id = id) :
    (∀ n ∈ (deleteNode true id s).1.collection, n.id ≠ id ∧ JsObj.has n.links id = false) ∧
      ∀ saved : Node,
        ∀ n ∈ (succeedOf (deleteNode true id s).2 saved (deleteNode true id s).1).collection,
          n.id ≠ id ∧ JsObj.has n.links id = false := by
  have h := findIdx_lt_of_mem_collection id s hin
  have main : ∀ n ∈ (deleteNode true id s).1.collection,
      n.id ≠ id ∧ JsObj.has n.links id = false := by
    intro n hn
    unfold State.collection at hn
    rw [List.mem_map] at hn
    obtain ⟨r, hr, rfl⟩ := hn
    rw [deleteNode_nodes id s h] at hr
    rw [deleteNode_heap_of_mem id s hb hu.nodup_nodes h r hr]
    have hrn : r ∈ s.nodes := (List.eraseIdx_sublist _ _).subset hr
    refine ⟨?_, stripLink_has id _ (hw _ (List.mem_map_of_mem _ hrn))⟩
    rw [stripLink_id]
    exact id_ne_of_mem_eraseIdx id s hu h r hr
  refine ⟨main, ?_⟩
  intro saved
  rw [succeedOf_deleteNode]
  exact main

theorem C8_delete_purges_references_witness :
    sampleState.RefsBelow ∧ sampleState.UniqueIds ∧
      (∀ n ∈ sampleState.collection, ∀ e ∈ n.links, e.2 ≠ 0) ∧
      (∃ n ∈ sampleState.collection, n.id = "b") ∧
      (∀ n ∈ (deleteNode true "b" sampleState).1.collection,
        n.id ≠ "b" ∧ JsObj.has n.links "b" = false) :=
  ⟨by decide, by decide, by decide, by decide,
    (C8_delete_purges_references sampleState "b" (by decide) (by decide) (by decide)
      (by decide)).1⟩

/-- C8, as the claim states it for every collection, fails in two ways.  Two `addNode`
calls at the same clock value leave two nodes with id `temp_5`, and `deleteNode` removes
only the first.  A link of weight 0 is falsy in the test of line 163, so it is not
stripped. -/
theorem C8_counterexample :
    ((∃ n ∈ sameClockState.collection, n.id = "temp_5") ∧
      ∃ n ∈ (deleteNode true "temp_5" sameClockState).1.collection, n.id = "temp_5") ∧
    ((∃ n ∈ zeroWeightState.collection, n.id = "b") ∧
      ∃ n ∈ (deleteNode true "b" zeroWeightState).1.collection,
        JsObj.has n.links "b" = true) := by
  decide

theorem onFailure_addNode_collection (tempId : NodeId) (today : String) (t : State) :
    ((Pending.addNode tempId).onFailure today t).collection
      = (t.nodes.filter (fun r => (t.heap r).id != tempId)).map t.heap := by
  simp only [Pending.onFailure, publish_collection]
  split <;> rfl

theorem addNode_pending (now : ℕ) (x y : Num) (s : State) :
    (addNode now x y s).2 = some (Pending.addNode (tempIdOf now)) := rfl

theorem addNode_nodes (now : ℕ) (x y : Num) (s : State) :
    (addNode now x y s).1.nodes = s.nodes ++ [s.next] := rfl

theorem addNode_heap_next (now : ℕ) (x y : Num) (s : State) :
    ((addNode now x y s).1.heap s.next).id = tempIdOf now := by
  simp [addNode, selectNode]

theorem addNode_heap_of_ne (now : ℕ) (x y : Num) (s : State) (r : Ref) (h : r ≠ s.next) :
    (addNode now x y s).1.heap r = s.heap r := by
  simp [addNode, selectNode, Function.update_noteq h]

/-- Rollback of `addNode`: when no node carries the temporary id before the call, the
compensation leaves the collection as it was. -/
theorem addNode_rollback (s : State) (now : ℕ) (x y : Num) (today : String)
    (hb : s.RefsBelow) (hfresh : ∀ n ∈ s.collection, n.id ≠ tempIdOf now) :
    (failOf (addNode now x y s).2 today (addNode now x y s).1).collection = s.collection := by
  have hne : ∀ r ∈ s.nodes, r ≠ s.next := fun r hr => Nat.ne_of_lt (hb r hr)
  have hkeep : ∀ r ∈ s.nodes,
      (((addNode now x y s).1.heap r).id != tempIdOf now) = true := by
    intro r hr
    rw [addNode_heap_of_ne now x y s r (hne r hr)]
    simpa using hfresh _ (List.mem_map_of_mem _ hr)
  rw [addNode_pending]
  simp only [failOf]
  rw [onFailure_addNode_collection, addNode_nodes, List.filter_append,
    List.filter_eq_self.mpr hkeep]
  simp only [List.filter_cons, addNode_heap_next, bne_self_eq_false, List.filter_nil,
    List.append_nil, Bool.false_eq_true, if_false]
  unfold State.collection
  apply List.map_congr_left
  intro r hr
  exact addNode_heap_of_ne now x y s r (hne r hr)

/-- Rollback of `updateNodeContent`: name and commit of the node are put back. -/
theorem updateNodeContent_rollback (s : State) (today0 today : String) (id : NodeId)
    (newName : String) (newCommit : Num) :
    (failOf (updateNodeContent today0 id newName newCommit s).2 today
        (updateNodeContent today0 id newName newCommit s).1).heap = s.heap ∧
      (failOf (updateNodeContent today0 id newName newCommit s).2 today
        (updateNodeContent today0 id newName newCommit s).1).nodes = s.nodes := by
  unfold updateNodeContent
  cases hf : findNode id s with
  | none => exact ⟨rfl, rfl⟩
  | some r =>
    refine ⟨?_, rfl⟩
    simp only [failOf, Pending.onFailure, publish, State.modify, Function.update_same,
      Function.update_idem]
    exact Function.update_eq_self r s.heap

/-- Rollback of `updateNodeColor`. -/
theorem updateNodeColor_rollback (s : State) (today : String) (id : NodeId)
    (newColor : String) :
    (failOf (updateNodeColor id newColor s).2 today (updateNodeColor id newColor s).1).heap
        = s.heap ∧
      (failOf (updateNodeColor id newColor s).2 today (updateNodeColor id newColor s).1).nodes
        = s.nodes := by
  unfold updateNodeColor
  cases hf : findNode id s with
  | none => exact ⟨rfl, rfl⟩
  | some r =>
    refine ⟨?_, rfl⟩
    simp only [failOf, Pending.onFailure, publish, State.modify, Function.update_same,
      Function.update_idem]
    exact Function.update_eq_self r s.heap

/-- Rollback of `toggleNodeStar`. -/
theorem toggleNodeStar_rollback (s : State) (today : String) (id : NodeId) :
    (failOf (toggleNodeStar id s).2 today (toggleNodeStar id s).1).heap = s.heap ∧
      (failOf (toggleNodeStar id s).2 today (toggleNodeStar id s).1).nodes = s.nodes := by
  unfold toggleNodeStar
  cases hf : findNode id s with
  | none => exact ⟨rfl, rfl⟩
  | some r =>
    refine ⟨?_, rfl⟩
    simp only [failOf, Pending.onFailure, publish, State.modify, Function.update_same,
      Function.update_idem]
    exact Function.update_eq_self r s.heap

/-- Rollback of `toggleNodeAcute`. -/
theorem toggleNodeAcute_rollback (s : State) (today : String) (id : NodeId) :
    (failOf (toggleNodeAcute id s).2 today (toggleNodeAcute id s).1).heap = s.heap ∧
      (failOf (toggleNodeAcute id s).2 today (toggleNodeAcute id s).1).nodes = s.nodes := by
  unfold toggleNodeAcute
  cases hf : findNode id s with
  | none => exact ⟨rfl, rfl⟩
  | some r =>
    refine ⟨?_, rfl⟩
    simp only [failOf, Pending.onFailure, publish, State.modify, Function.update_same,
      Function.update_idem]
    exact Function.update_eq_self r s.heap

/-- Rollback of `updateLink`: the link object of the source node is put back. -/
theorem updateLink_rollback (s : State) (today : String) (sourceId targetId : NodeId)
    (weight : Option Num) :
    (failOf (updateLink sourceId targetId weight s).2 today
        (updateLink sourceId targetId weight s).1).heap = s.heap ∧
      (failOf (updateLink sourceId targetId weight s).2 today
        (updateLink sourceId targetId weight s).1).nodes = s.nodes := by
  unfold updateLink
  cases hf : findNode sourceId s with
  | none => exact ⟨rfl, rfl⟩
  | some r =>
    refine ⟨?_, rfl⟩
    simp only [failOf, Pending.onFailure, publish, State.modify, Function.update_same,
      Function.update_idem]
    exact Function.update_eq_self r s.heap

theorem collection_eq_of_heap_nodes {s t : State} (h : t.heap = s.heap ∧ t.nodes = s.nodes) :
    t.collection = s.collection := by
  unfold State.collection
  rw [h.1, h.2]

theorem linksEditedOff_refl (id : NodeId) (d : State) : LinksEditedOff id d d :=
  ⟨rfl, fun _ => ⟨rfl, rfl⟩, fun _ _ => rfl⟩

theorem updateLink_linksEditedOff (id : NodeId) (d t : State) (h : LinksEditedOff id d t)
    (sourceId targetId : NodeId) (weight : Option Num) (ht : targetId ≠ id) :
    LinksEditedOff id d (updateLink sourceId targetId weight t).1 := by
  unfold updateLink
  cases hf : findNode sourceId t with
  | none => exact h
  | some r1 =>
    obtain ⟨hr1, _⟩ := findNode_some hf
    obtain ⟨hn, hh, ho⟩ := h
    have hid : id ≠ targetId := fun e => ht e.symm
    refine ⟨hn, ?_, ?_⟩
    · intro r
      by_cases hr : r = r1
      · subst hr
        simp only [publish_heap, State.modify, Function.update_same]
        refine ⟨(hh r).1, ?_⟩
        rw [← (hh r).2]
        cases weight with
        | none => exact JsObj.get_del_of_ne _ _ _ hid
        | some w => exact JsObj.get_set_of_ne _ _ _ _ hid
      · simp only [publish_heap, State.modify, Function.update_noteq hr]
        exact hh r
    · intro r hr
      have hne : r ≠ r1 := by
        intro e
        apply hr
        rw [← hn, e]
        exact hr1
      simp only [publish_heap, State.modify, Function.update_noteq hne]
      exact ho r hr

theorem applyUpdateLinks_linksEditedOff (id : NodeId) (d : State)
    (ops : List (NodeId × NodeId × Option Num)) (hops : ∀ op ∈ ops, op.2.1 ≠ id) (t : State)
    (h : LinksEditedOff id d t) : LinksEditedOff id d (applyUpdateLinks ops t) := by
  unfold applyUpdateLinks
  induction ops generalizing t with
  | nil => exact h
  | cons op ops ih =>
    rw [List.foldl_cons]
    apply ih (fun o ho => hops o (List.mem_cons_of_mem _ ho))
    exact updateLink_linksEditedOff id d t h _ _ _ (hops op (List.mem_cons_self _ _))

theorem take_eraseIdx_self {α : Type} (l : List α) (i : ℕ) :
    (l.eraseIdx i).take i = l.take i := by
  induction l generalizing i with
  | nil => simp
  | cons a l ih =>
    cases i with
    | zero => simp
    | succ i => simp [ih]

theorem drop_eraseIdx_self {α : Type} (l : List α) (i : ℕ) :
    (l.eraseIdx i).drop i = l.drop (i + 1) := by
  induction l generalizing i with
  | nil => simp
  | cons a l ih =>
    cases i with
    | zero => simp
    | succ i => simp [ih]

theorem reinsert_eq_map (l : List Ref) (i : ℕ) (c : Ref) (hn : l.Nodup) (h : i < l.length) :
    (l.eraseIdx i).take i ++ c :: (l.eraseIdx i).drop i
      = l.map (fun r => if r = l[i] then c else r) := by
  rw [take_eraseIdx_self, drop_eraseIdx_self]
  induction l generalizing i with
  | nil => simp at h
  | cons a l ih =>
    have hnd : a ∉ l ∧ l.Nodup := List.nodup_cons.mp hn
    cases i with
    | zero =>
      simp only [List.take_zero, List.nil_append, zero_add, List.drop_succ_cons, List.drop_zero,
        List.getElem_cons_zero, List.map_cons, if_true]
      congr 1
      symm
      conv_rhs => rw [← List.map_id l]
      apply List.map_congr_left
      intro r hr
      have : r ≠ a := fun e => hnd.1 (e ▸ hr)
      simp [this]
    | succ i =>
      have hi : i < l.length := by simpa using h
      have hne : a ≠ l[i] := fun e => hnd.1 (e ▸ List.getElem_mem hi)
      simp only [List.take_succ_cons, List.cons_append, List.drop_succ_cons,
        List.getElem_cons_succ, List.map_cons, if_neg hne]
      rw [ih i hnd.2 hi]

theorem applyLink_eraseLinks (n : Node) (link : RelatedLink) :
    (applyLink n link).eraseLinks = n.eraseLinks := by
  unfold applyLink
  split <;> rfl

theorem foldl_applyLink_eraseLinks (L : List RelatedLink) (m : Node) :
    (L.foldl applyLink m).eraseLinks = m.eraseLinks := by
  induction L generalizing m with
  | nil => rfl
  | cons l L ih => rw [List.foldl_cons, ih, applyLink_eraseLinks]

theorem foldl_applyLink_get_of_ne (L : List RelatedLink) (m : Node) (id k : NodeId)
    (hL : ∀ l ∈ L, l.targetId = id) (hk : k ≠ id) :
    JsObj.get (L.foldl applyLink m).links k = JsObj.get m.links k := by
  induction L generalizing m with
  | nil => rfl
  | cons l L ih =>
    rw [List.foldl_cons, ih _ (fun x hx => hL x (List.mem_cons_of_mem _ hx))]
    unfold applyLink
    split
    · have : l.targetId = id := hL l (List.mem_cons_self _ _)
      simp only [this]
      exact JsObj.get_set_of_ne _ _ _ _ hk
    · rfl

theorem foldl_applyLink_of_no_source (L : List RelatedLink) (m : Node)
    (hL : ∀ l ∈ L, l.sourceId ≠ m.id) : L.foldl applyLink m = m := by
  induction L generalizing m with
  | nil => rfl
  | cons l L ih =>
    have h1 : applyLink m l = m := by
      unfold applyLink
      rw [if_neg (fun e => hL l (List.mem_cons_self _ _) e.symm)]
    rw [List.foldl_cons, h1]
    exact ih m (fun x hx => hL x (List.mem_cons_of_mem _ hx))

theorem foldl_applyLink_get_same (L : List RelatedLink) (m : Node) (id : NodeId) (w : Num)
    (hL : ∀ l ∈ L, l.sourceId = m.id → l.targetId = id ∧ l.weight = w)
    (h : JsObj.get m.links id = some w ∨ ∃ l ∈ L, l.sourceId = m.id) :
    JsObj.get (L.foldl applyLink m).links id = some w := by
  induction L generalizing m with
  | nil =>
    rcases h with h | ⟨l, hl, _⟩
    · exact h
    · simp at hl
  | cons l L ih =>
    rw [List.foldl_cons]
    have hid : (applyLink m l).id = m.id := applyLink_id m l
    apply ih
    · intro x hx hs
      exact hL x (List.mem_cons_of_mem _ hx) (hs.trans hid)
    · by_cases hs : l.sourceId = m.id
      · left
        obtain ⟨ht, hw⟩ := hL l (List.mem_cons_self _ _) hs
        unfold applyLink
        rw [if_pos hs.symm, ht, hw]
        exact JsObj.get_set_self _ _ _
      · have h1 : applyLink m l = m := by
          unfold applyLink
          rw [if_neg (fun e => hs e.symm)]
        rw [h1]
        rcases h with h | ⟨x, hx, hxs⟩
        · exact Or.inl h
        · right
          rcases List.mem_cons.mp hx with e | hx2
          · exact absurd (e ▸ hxs) hs
          · exact ⟨x, hx2, hxs⟩

theorem mem_collectRelatedLinks (id : NodeId) (C : List Node) (l : RelatedLink) :
    l ∈ collectRelatedLinks id C ↔
      ∃ c ∈ C, truthy (JsObj.get c.links id) = true ∧
        l = { sourceId := c.id, targetId := id, weight := (JsObj.get c.links id).getD 0 } := by
  unfold collectRelatedLinks
  rw [List.mem_filterMap]
  constructor
  · rintro ⟨c, hc, h⟩
    by_cases ht : truthy (JsObj.get c.links id) = true
    · rw [if_pos ht] at h
      exact ⟨c, hc, ht, (Option.some.inj h).symm⟩
    · rw [if_neg ht] at h
      exact absurd h (by simp)
  · rintro ⟨c, hc, ht, rfl⟩
    exact ⟨c, hc, by rw [if_pos ht]⟩

/-- After the restoring loop the entry for `id` of a node is the one it had before the
delete, whether or not it had been stripped. -/
theorem restore_get_id (id : NodeId) (C : List Node) (hC : (C.map (fun n => n.id)).Nodup)
    (o : Node) (ho : o ∈ C) (m : Node) (hm : m.id = o.id)
    (hP : truthy (JsObj.get o.links id) = false →
      JsObj.get m.links id = JsObj.get o.links id) :
    JsObj.get ((collectRelatedLinks id C).foldl applyLink m).links id
      = JsObj.get o.links id := by
  have hinj : ∀ c ∈ C, c.id = o.id → c = o := fun c hc e => List.inj_on_of_nodup_map hC hc ho e
  by_cases ht : truthy (JsObj.get o.links id) = true
  · cases hg : JsObj.get o.links id with
    | none => rw [hg] at ht; simp [truthy] at ht
    | some w =>
      apply foldl_applyLink_get_same
      · intro l hl hs
        rw [mem_collectRelatedLinks] at hl
        obtain ⟨c, hc, _, rfl⟩ := hl
        have hco : c = o := hinj c hc (hs.trans hm)
        subst hco
        exact ⟨rfl, by simp [hg]⟩
      · right
        exact ⟨_, (mem_collectRelatedLinks id C _).mpr ⟨o, ho, ht, rfl⟩, hm.symm⟩
  · have htf : truthy (JsObj.get o.links id) = false := by simpa using ht
    rw [foldl_applyLink_of_no_source, hP htf]
    intro l hl hs
    rw [mem_collectRelatedLinks] at hl
    obtain ⟨c, hc, hct, rfl⟩ := hl
    have hco : c = o := hinj c hc (hs.trans hm)
    subst hco
    exact ht hct

theorem collectRelatedLinks_target (id : NodeId) (C : List Node) :
    ∀ l ∈ collectRelatedLinks id C, l.targetId = id := by
  intro l hl
  rw [mem_collectRelatedLinks] at hl
  obtain ⟨c, _, _, rfl⟩ := hl
  rfl

theorem stripLink_eraseLinks (id : NodeId) (n : Node) :
    (stripLink id n).eraseLinks = n.eraseLinks := by
  unfold stripLink
  split <;> rfl

theorem stripLink_of_not_truthy (id : NodeId) (n : Node)
    (h : truthy (JsObj.get n.links id) = false) : stripLink id n = n := by
  unfold stripLink
  rw [if_neg (by simp [h])]

theorem stripLink_get_of_ne (id : NodeId) (n : Node) (k : NodeId) (hk : k ≠ id) :
    JsObj.get (stripLink id n).links k = JsObj.get n.links k := by
  unfold stripLink
  split
  · exact JsObj.get_del_of_ne _ _ _ hk
  · rfl

theorem eraseLinks_id {a b : Node} (h : a.eraseLinks = b.eraseLinks) : a.id = b.id := by
  have := congrArg Node.id h
  simpa [Node.eraseLinks] using this

theorem map_update_of_refsBelow (s : State) (hb : s.RefsBelow) (v : Node) :
    s.nodes.map (Function.update s.heap s.next v) = s.collection := by
  unfold State.collection
  apply List.map_congr_left
  intro r hr
  exact Function.update_noteq (Nat.ne_of_lt (hb r hr)) _ _

theorem deleteNode_pending (id : NodeId) (s : State) (hb : s.RefsBelow)
    (h : s.nodes.findIdx (fun r => (s.heap r).id == id) < s.nodes.length) :
    (deleteNode true id s).2
      = some (Pending.deleteNode id s.next (s.nodes.findIdx (fun r => (s.heap r).id == id))
          (collectRelatedLinks id s.collection)) := by
  rw [deleteNode_of_lt id s h]
  simp only [map_update_of_refsBelow s hb]

theorem deleteNode_heap_copy (id : NodeId) (s : State) (hb : s.RefsBelow)
    (h : s.nodes.findIdx (fun r => (s.heap r).id == id) < s.nodes.length) :
    (deleteNode true id s).1.heap s.next
      = s.heap (s.nodes[s.nodes.findIdx (fun r => (s.heap r).id == id)]) := by
  rw [deleteNode_of_lt id s h]
  simp only [publish_heap, deselectNode]
  rw [forEachNode_of_not_mem, Function.update_same]
  intro hm
  exact Nat.lt_irrefl _ (hb _ ((List.eraseIdx_sublist _ _).subset hm))

theorem mem_eraseIdx_of_ne {l : List Ref} {i : ℕ} (h : i < l.length) {r : Ref} (hr : r ∈ l)
    (hne : r ≠ l[i]) : r ∈ l.eraseIdx i := by
  rw [List.mem_eraseIdx_iff_getElem]
  obtain ⟨j, hj, rfl⟩ := List.getElem_of_mem hr
  refine ⟨j, hj, ?_, rfl⟩
  intro e
  subst e
  exact hne rfl

theorem onFailure_deleteNode (id : NodeId) (c : Ref) (i : ℕ) (L : List RelatedLink)
    (today : String) (t : State) :
    ((Pending.deleteNode id c i L).onFailure today t).collection
      = (L.foldl restoreLink
          { t with nodes := t.nodes.take i ++ c :: t.nodes.drop i }).collection := rfl

/-- The collection after a failed `deleteNode`, when in between only link entries with
other keys were edited: position by position, the object of the original array (the copy
for the deleted node) after the restoring loop. -/
theorem delete_rollback_collection (s : State) (id : NodeId) (hb : s.RefsBelow)
    (hu : s.UniqueIds)
    (h : s.nodes.findIdx (fun r => (s.heap r).id == id) < s.nodes.length)
    (t : State) (hI : LinksEditedOff id (deleteNode true id s).1 t) (today : String) :
    (failOf (deleteNode true id s).2 today t).collection
      = s.nodes.map (fun r =>
          (collectRelatedLinks id s.collection).foldl applyLink
            (t.heap (if r = s.nodes[s.nodes.findIdx (fun r => (s.heap r).id == id)]
              then s.next else r))) ∧
    ∀ r ∈ s.nodes,
      (t.heap (if r = s.nodes[s.nodes.findIdx (fun r => (s.heap r).id == id)]
          then s.next else r)).eraseLinks = (s.heap r).eraseLinks ∧
      (truthy (JsObj.get (s.heap r).links id) = false →
        JsObj.get (t.heap (if r = s.nodes[s.nodes.findIdx (fun r => (s.heap r).id == id)]
          then s.next else r)).links id = JsObj.get (s.heap r).links id) ∧
      (r = s.nodes[s.nodes.findIdx (fun r => (s.heap r).id == id)] →
        t.heap s.next = s.heap r) ∧
      (r ≠ s.nodes[s.nodes.findIdx (fun r => (s.heap r).id == id)] → r ∈ t.nodes) := by
  obtain ⟨hn, hh, ho⟩ := hI
  rw [deleteNode_nodes id s h] at hn
  rw [deleteNode_nodes id s h] at ho
  have hnd := hu.nodup_nodes
  have hcopy : t.heap s.next
      = s.heap (s.nodes[s.nodes.findIdx (fun r => (s.heap r).id == id)]) := by
    rw [ho s.next, deleteNode_heap_copy id s hb h]
    intro hm
    exact Nat.lt_irrefl _ (hb _ ((List.eraseIdx_sublist _ _).subset hm))
  have hfacts : ∀ r ∈ s.nodes,
      (t.heap (if r = s.nodes[s.nodes.findIdx (fun r => (s.heap r).id == id)]
          then s.next else r)).eraseLinks = (s.heap r).eraseLinks ∧
      (truthy (JsObj.get (s.heap r).links id) = false →
        JsObj.get (t.heap (if r = s.nodes[s.nodes.findIdx (fun r => (s.heap r).id == id)]
          then s.next else r)).links id = JsObj.get (s.heap r).links id) ∧
      (r = s.nodes[s.nodes.findIdx (fun r => (s.heap r).id == id)] →
        t.heap s.next = s.heap r) ∧
      (r ≠ s.nodes[s.nodes.findIdx (fun r => (s.heap r).id == id)] → r ∈ t.nodes) := by
    intro r hr
    by_cases hr0 : r = s.nodes[s.nodes.findIdx (fun r => (s.heap r).id == id)]
    · rw [if_pos hr0, hcopy, ← hr0]
      exact ⟨rfl, fun _ => rfl, fun _ => rfl, fun e => absurd rfl e⟩
    · rw [if_neg hr0]
      have hmem := mem_eraseIdx_of_ne h hr hr0
      have hD := deleteNode_heap_of_mem id s hb hnd h r hmem
      refine ⟨?_, ?_, fun e => absurd e hr0, fun _ => hn ▸ hmem⟩
      · rw [(hh r).1, hD, stripLink_eraseLinks]
      · intro htr
        rw [(hh r).2, hD, stripLink_of_not_truthy id _ htr]
  refine ⟨?_, hfacts⟩
  rw [deleteNode_pending id s hb h]
  simp only [failOf]
  rw [onFailure_deleteNode, hn, reinsert_eq_map s.nodes _ s.next hnd h]
  have hu1 : State.UniqueIds
      { t with nodes := s.nodes.map (fun r =>
          if r = s.nodes[s.nodes.findIdx (fun r => (s.heap r).id == id)] then s.next else r) } := by
    unfold State.UniqueIds State.collection
    simp only [List.map_map]
    have : s.nodes.map ((fun n => n.id) ∘ t.heap ∘ fun r =>
          if r = s.nodes[s.nodes.findIdx (fun r => (s.heap r).id == id)] then s.next else r)
        = s.collection.map (fun n => n.id) := by
      unfold State.collection
      rw [List.map_map]
      apply List.map_congr_left
      intro r hr
      exact eraseLinks_id (hfacts r hr).1
    rw [this]
    exact hu
  rw [foldl_restoreLink_eq _ _ hu1]
  unfold State.collection
  simp only [List.map_map]
  apply List.map_congr_left
  intro r hr
  have hmem : (if r = s.nodes[s.nodes.findIdx (fun r => (s.heap r).id == id)] then s.next
      else r) ∈ s.nodes.map (fun r =>
        if r = s.nodes[s.nodes.findIdx (fun r => (s.heap r).id == id)] then s.next else r) :=
    List.mem_map_of_mem _ hr
  simp only [Function.comp, hmem, if_true]

theorem sameAs_of_eraseLinks {a b : Node} (h : a.eraseLinks = b.eraseLinks)
    (hl : ∀ k, JsObj.get a.links k = JsObj.get b.links k) : a.SameAs b := by
  have h1 := congrArg Node.id h
  have h2 := congrArg Node.name h
  have h3 := congrArg Node.commit h
  have h4 := congrArg Node.x h
  have h5 := congrArg Node.y h
  have h6 := congrArg Node.activation h
  have h7 := congrArg Node.color h
  have h8 := congrArg Node.starred h
  have h9 := congrArg Node.acute h
  have h10 := congrArg Node.ownerId h
  exact ⟨h1, h2, h3, h4, h5, h6, h7, h8, h9, h10, hl⟩

theorem sameAs_refl (a : Node) : a.SameAs a :=
  ⟨rfl, rfl, rfl, rfl, rfl, rfl, rfl, rfl, rfl, rfl, fun _ => rfl⟩

theorem forall₂_map_of_forall {α β γ : Type} (R : β → γ → Prop) (l : List α) (f : α → β)
    (g : α → γ) (h : ∀ a ∈ l, R (f a) (g a)) : List.Forall₂ R (l.map f) (l.map g) := by
  induction l with
  | nil => exact List.Forall₂.nil
  | cons a l ih =>
    exact List.Forall₂.cons (h a (List.mem_cons_self _ _))
      (ih (fun x hx => h x (List.mem_cons_of_mem _ hx)))

/-- The result of a failed `deleteNode` after interim edits of other link entries, node by
node against the collection before the delete. -/
theorem delete_rollback_after_edits (s : State) (id : NodeId)
    (ops : List (NodeId × NodeId × Option Num)) (today : String) (hb : s.RefsBelow)
    (hu : s.UniqueIds) (hin : ∃ n ∈ s.collection, n.id = id)
    (hops : ∀ op ∈ ops, op.2.1 ≠ id) :
    List.Forall₂
      (fun n o =>
        n.eraseLinks = o.eraseLinks ∧
        JsObj.get n.links id = JsObj.get o.links id ∧
        (o.id = id → ∀ k, JsObj.get n.links k = JsObj.get o.links k) ∧
        (o.id ≠ id →
          ∃ m ∈ (applyUpdateLinks ops (deleteNode true id s).1).collection,
            m.id = o.id ∧ ∀ k, k ≠ id → JsObj.get n.links k = JsObj.get m.links k))
      (failOf (deleteNode true id s).2 today
        (applyUpdateLinks ops (deleteNode true id s).1)).collection
      s.collection := by
  have h := findIdx_lt_of_mem_collection id s hin
  have hI := applyUpdateLinks_linksEditedOff id (deleteNode true id s).1 ops hops _
    (linksEditedOff_refl id _)
  obtain ⟨hcol, hfacts⟩ := delete_rollback_collection s id hb hu h _ hI today
  rw [hcol]
  unfold State.collection
  apply forall₂_map_of_forall
  intro r hr
  obtain ⟨hE, hP, hC, hM⟩ := hfacts r hr
  have h0 := heap_findIdx_id id s h
  have hmemo : s.heap r ∈ s.collection := List.mem_map_of_mem _ hr
  have htgt := collectRelatedLinks_target id (s.nodes.map s.heap)
  refine ⟨?_, ?_, ?_, ?_⟩
  · rw [foldl_applyLink_eraseLinks]
    exact hE
  · exact restore_get_id id s.collection hu (s.heap r) hmemo _ (eraseLinks_id hE) hP
  · intro hid k
    have hr0 : r = s.nodes[s.nodes.findIdx (fun r => (s.heap r).id == id)] :=
      hu.eq_of_id_eq hr (List.getElem_mem h) (hid.trans h0.symm)
    by_cases hk : k = id
    · subst hk
      exact restore_get_id k s.collection hu (s.heap r) hmemo _ (eraseLinks_id hE) hP
    · rw [foldl_applyLink_get_of_ne _ _ id k htgt hk, if_pos hr0, hC hr0]
  · intro hid
    have hr0 : r ≠ s.nodes[s.nodes.findIdx (fun r => (s.heap r).id == id)] := by
      intro e
      apply hid
      rw [e]
      exact h0
    rw [if_neg hr0] at hE ⊢
    refine ⟨_, List.mem_map_of_mem _ (hM hr0), eraseLinks_id hE, ?_⟩
    intro k hk
    exact foldl_applyLink_get_of_ne _ _ id k htgt hk

theorem forall₂_sameAs_refl (l : List Node) : List.Forall₂ Node.SameAs l l := by
  induction l with
  | nil => exact List.Forall₂.nil
  | cons a l ih => exact List.Forall₂.cons (sameAs_refl a) ih

/-- Rollback of `deleteNode`: with pairwise distinct ids the compensation restores every
node at its position, the link objects as maps. -/
theorem deleteNode_rollback (s : State) (confirmed : Bool) (id : NodeId) (today : String)
    (hb : s.RefsBelow) (hu : s.UniqueIds) :
    List.Forall₂ Node.SameAs
      (failOf (deleteNode confirmed id s).2 today (deleteNode confirmed id s).1).collection
      s.collection := by
  cases confirmed with
  | false =>
    have : deleteNode false id s = (s, none) := by simp [deleteNode]
    rw [this]
    exact forall₂_sameAs_refl _
  | true =>
    by_cases h : s.nodes.findIdx (fun r => (s.heap r).id == id) < s.nodes.length
    · obtain ⟨hcol, hfacts⟩ := delete_rollback_collection s id hb hu h _
        (linksEditedOff_refl id _) today
      rw [hcol]
      unfold State.collection
      apply forall₂_map_of_forall
      intro r hr
      obtain ⟨hE, hP, hC, hM⟩ := hfacts r hr
      have hmemo : s.heap r ∈ s.collection := List.mem_map_of_mem _ hr
      have htgt := collectRelatedLinks_target id (s.nodes.map s.heap)
      apply sameAs_of_eraseLinks
      · rw [foldl_applyLink_eraseLinks]
        exact hE
      · intro k
        by_cases hk : k = id
        · subst hk
          exact restore_get_id k s.collection hu (s.heap r) hmemo _ (eraseLinks_id hE) hP
        · rw [foldl_applyLink_get_of_ne _ _ id k htgt hk]
          by_cases hr0 : r = s.nodes[s.nodes.findIdx (fun r => (s.heap r).id == id)]
          · rw [if_pos hr0, hC hr0]
          · rw [if_neg hr0]
            have hmem := hM hr0
            rw [deleteNode_nodes id s h] at hmem
            rw [deleteNode_heap_of_mem id s hb hu.nodup_nodes h r hmem]
            exact stripLink_get_of_ne id _ k hk
    · rw [deleteNode_of_not_lt id s h]
      exact forall₂_sameAs_refl _

/-- C9, amended: for each of `addNode`, `deleteNode`, `updateNodeContent`,
`updateNodeColor`, `toggleNodeStar`, `toggleNodeAcute` and `updateLink`, when the operation
is applied to a collection and its remote call then fails with nothing in between, the
collection after the compensation equals the collection before the operation: for `addNode`
provided no node already carries the temporary id, for `deleteNode` provided the ids are
pairwise distinct (link objects then agree as maps), for the five others always.  The
hypothesis `RefsBelow` is the allocation invariant of the heap. -/
theorem C9_rollback_restores_collection (s : State) (today : String) (hb : s.RefsBelow) :
    (∀ (now : ℕ) (x y : Num), (∀ n ∈ s.collection, n.id ≠ tempIdOf now) →
      (failOf (addNode now x y s).2 today (addNode now x y s).1).collection = s.collection) ∧
    (∀ (confirmed : Bool) (id : NodeId), s.UniqueIds →
      List.Forall₂ Node.SameAs
        (failOf (deleteNode confirmed id s).2 today (deleteNode confirmed id s).1).collection
        s.collection) ∧
    (∀ (today0 : String) (id : NodeId) (newName : String) (newCommit : Num),
      (failOf (updateNodeContent today0 id newName newCommit s).2 today
        (updateNodeContent today0 id newName newCommit s).1).collection = s.collection) ∧
    (∀ (id : NodeId) (newColor : String),
      (failOf (updateNodeColor id newColor s).2 today
        (updateNodeColor id newColor s).1).collection = s.collection) ∧
    (∀ id : NodeId,
      (failOf (toggleNodeStar id s).2 today (toggleNodeStar id s).1).collection
        = s.collection) ∧
    (∀ id : NodeId,
      (failOf (toggleNodeAcute id s).2 today (toggleNodeAcute id s).1).collection
        = s.collection) ∧
    (∀ (sourceId targetId : NodeId) (weight : Option Num),
      (failOf (updateLink sourceId targetId weight s).2 today
        (updateLink sourceId targetId weight s).1).collection = s.collection) :=
  ⟨fun now x y hfresh => addNode_rollback s now x y today hb hfresh,
    fun confirmed id hu => deleteNode_rollback s confirmed id today hb hu,
    fun today0 id newName newCommit =>
      collection_eq_of_heap_nodes (updateNodeContent_rollback s today0 today id newName newCommit),
    fun id newColor => collection_eq_of_heap_nodes (updateNodeColor_rollback s today id newColor),
    fun id => collection_eq_of_heap_nodes (toggleNodeStar_rollback s today id),
    fun id => collection_eq_of_heap_nodes (toggleNodeAcute_rollback s today id),
    fun sourceId targetId weight =>
      collection_eq_of_heap_nodes (updateLink_rollback s today sourceId targetId weight)⟩

theorem C9_rollback_restores_collection_witness :
    sampleState.RefsBelow ∧ (∀ n ∈ sampleState.collection, n.id ≠ tempIdOf 5) ∧
      sampleState.UniqueIds ∧
      (failOf (addNode 5 0 0 sampleState).2 "2025-01-01"
          (addNode 5 0 0 sampleState).1).collection = sampleState.collection ∧
      List.Forall₂ Node.SameAs
        (failOf (deleteNode true "b" sampleState).2 "2025-01-01"
          (deleteNode true "b" sampleState).1).collection
        sampleState.collection :=
  ⟨by decide, by decide, by decide,
    (C9_rollback_restores_collection sampleState "2025-01-01" (by decide)).1 5 0 0 (by decide),
    (C9_rollback_restores_collection sampleState "2025-01-01" (by decide)).2.1 true "b"
      (by decide)⟩

/-- C9, as the claim states it for any collection, fails.  A second `addNode` at the clock
value of a node that still carries its temporary id removes both nodes when it is
compensated (line 132 filters by id).  And in a collection with a repeated id, the
compensation of `deleteNode` puts both stripped links back on the first node with that id
(line 176 finds by id). -/
theorem C9_counterexample :
    ((addNode 5 0 0 State.init).1.collection.length = 1 ∧
      (failOf (addNode 5 1 1 (addNode 5 0 0 State.init).1).2 "2025-01-01"
        (addNode 5 1 1 (addNode 5 0 0 State.init).1).1).collection = []) ∧
    ((repeatedIdState.collection.map (fun n => n.links)) = [[("b", 1)], [("b", 2)], []] ∧
      (failOf (deleteNode true "b" repeatedIdState).2 "2025-01-01"
        (deleteNode true "b" repeatedIdState).1).collection.map (fun n => n.links)
        = [[("b", 2)], [], []]) := by
  decide

/-- C10, amended: in a collection with pairwise distinct ids, let `deleteNode(id)` be
applied to the id of one of its nodes, then any run of `updateLink` calls on entries that do
not target `id`, and let the remote delete then fail.  After the compensation the
collection has, position by position against the collection before the delete: the same
node in every field but the links; the entry for `id` of every link object as before the
delete (the stripped links are back with their weight); the deleted node, at its original
index, with all its link entries; and in every surviving node the entries for other keys as
the interim run left them. -/
theorem C10_delete_rollback_keeps_interim_edits (s : State) (id : NodeId)
    (ops : List (NodeId × NodeId × Option Num)) (today : String) (hb : s.RefsBelow)
    (hu : s.UniqueIds) (hin : ∃ n ∈ s.collection, n.id = id)
    (hops : ∀ op ∈ ops, op.2.1 ≠ id) :
    List.Forall₂
      (fun n o =>
        n.eraseLinks = o.eraseLinks ∧
        JsObj.get n.links id = JsObj.get o.links id ∧
        (o.id = id → ∀ k, JsObj.get n.links k = JsObj.get o.links k) ∧
        (o.id ≠ id →
          ∃ m ∈ (applyUpdateLinks ops (deleteNode true id s).1).collection,
            m.id = o.id ∧ ∀ k, k ≠ id → JsObj.get n.links k = JsObj.get m.links k))
      (failOf (deleteNode true id s).2 today
        (applyUpdateLinks ops (deleteNode true id s).1)).collection
      s.collection :=
  delete_rollback_after_edits s id ops today hb hu hin hops

theorem C10_delete_rollback_keeps_interim_edits_witness :
    sampleState.RefsBelow ∧ sampleState.UniqueIds ∧
      (∃ n ∈ sampleState.collection, n.id = "b") ∧
      (∀ op ∈ [(("a" : NodeId), ("c" : NodeId), some (3 : Num))], op.2.1 ≠ "b") ∧
      List.Forall₂
        (fun n o =>
          n.eraseLinks = o.eraseLinks ∧
          JsObj.get n.links "b" = JsObj.get o.links "b" ∧
          (o.id = "b" → ∀ k, JsObj.get n.links k = JsObj.get o.links k) ∧
          (o.id ≠ "b" →
            ∃ m ∈ (applyUpdateLinks [("a", "c", some 3)]
                (deleteNode true "b" sampleState).1).collection,
              m.id = o.id ∧ ∀ k, k ≠ "b" → JsObj.get n.links k = JsObj.get m.links k))
        (failOf (deleteNode true "b" sampleState).2 "2025-01-01"
          (applyUpdateLinks [("a", "c", some 3)] (deleteNode true "b" sampleState).1)).collection
        sampleState.collection :=
  ⟨by decide, by decide, by decide, by decide,
    C10_delete_rollback_keeps_interim_edits sampleState "b" [("a", "c", some 3)] "2025-01-01"
      (by decide) (by decide) (by decide) (by decide)⟩

/-- C10, as the claim states it, fails when two nodes carry the same id.  In
`reachedRepeatedIdState` the nodes P and Q (both `temp_5`) link to `b` with weights 2 and 1.
After `deleteNode("b")`, the interim `updateLink("temp_5", "x", 3)` and the failure of the
delete, the loop of line 175 has put both links on P, the first node found by id: P ends
with weight 1 for `b` instead of 2 and Q has lost its link. -/
theorem C10_counterexample :
    reachedRepeatedIdState.collection.map (fun n => (n.id, n.links))
        = [("b", []), ("temp_5", [("b", 2)]), ("temp_5", [("b", 1)])] ∧
      (failOf (deleteNode true "b" reachedRepeatedIdState).2 "2025-01-01"
        (applyUpdateLinks [("temp_5", "x", some 3)]
          (deleteNode true "b" reachedRepeatedIdState).1)).collection.map
            (fun n => (n.id, n.links))
        = [("b", []), ("temp_5", [("x", 3), ("b", 1)]), ("temp_5", [])] := by
  decide

/-! ## The allocation invariant holds in every store the operations reach -/

theorem refsBelow_init : State.init.RefsBelow := by
  intro r hr
  simp [State.init] at hr

theorem refsBelow_addNode (now : ℕ) (x y : Num) (s : State) (hb : s.RefsBelow) :
    (addNode now x y s).1.RefsBelow := by
  intro r hr
  have hn : (addNode now x y s).1.next = s.next + 1 := rfl
  rw [addNode_nodes, List.mem_append] at hr
  rw [hn]
  rcases hr with hr | hr
  · exact Nat.lt_succ_of_lt (hb r hr)
  · simp only [List.mem_singleton] at hr
    rw [hr]
    exact Nat.lt_succ_self _

theorem refsBelow_deleteNode (confirmed : Bool) (id : NodeId) (s : State) (hb : s.RefsBelow) :
    (deleteNode confirmed id s).1.RefsBelow := by
  cases confirmed with
  | false =>
    have : deleteNode false id s = (s, none) := by simp [deleteNode]
    rw [this]
    exact hb
  | true =>
    by_cases h : s.nodes.findIdx (fun r => (s.heap r).id == id) < s.nodes.length
    · intro r hr
      rw [deleteNode_nodes id s h] at hr
      have hn : (deleteNode true id s).1.next = s.next + 1 := by
        rw [deleteNode_of_lt id s h]
        rfl
      rw [hn]
      exact Nat.lt_succ_of_lt (hb r ((List.eraseIdx_sublist _ _).subset hr))
    · rw [deleteNode_of_not_lt id s h]
      exact hb

theorem refsBelow_setNodes (newNodes : List Node) (s : State) :
    (setNodes newNodes s).RefsBelow := by
  intro r hr
  have hnodes : (setNodes newNodes s).nodes = List.range' s.next newNodes.length := rfl
  have hnext : (setNodes newNodes s).next = s.next + newNodes.length := rfl
  rw [hnodes, List.mem_range'_1] at hr
  rw [hnext]
  exact hr.2

/-! ## state.js: confirmation of `addNode` -/

theorem find?_append_singleton_of_forall {α : Type} (p : α → Bool) (l : List α) (b : α)
    (hl : ∀ a ∈ l, p a = false) (hb : p b = true) : (l ++ [b]).find? p = some b := by
  induction l with
  | nil => simp [hb]
  | cons a l ih =>
    rw [List.cons_append, List.find?_cons, hl a (List.mem_cons_self _ _)]
    exact ih (fun c hc => hl c (List.mem_cons_of_mem _ hc))

theorem addNode_heap_next_eq (now : ℕ) (x y : Num) (s : State) :
    (addNode now x y s).1.heap s.next = newNodeOf now x y := by
  simp [addNode, selectNode, newNodeOf]

theorem onSuccess_addNode_of_find (tempId : NodeId) (saved : Node) (t : State) (r : Ref)
    (h : findNode tempId t = some r) :
    ((Pending.addNode tempId).onSuccess saved t).heap
        = Function.update t.heap r (objectAssign (t.heap r) saved) ∧
      ((Pending.addNode tempId).onSuccess saved t).nodes = t.nodes ∧
      ((Pending.addNode tempId).onSuccess saved t).selectedNodeId
        = if t.selectedNodeId = some tempId then some saved.id else t.selectedNodeId := by
  simp only [Pending.onSuccess, h]
  by_cases hs : t.selectedNodeId = some tempId
  · simp [State.modify, hs, selectNode]
  · simp [State.modify, hs]

theorem onSuccess_addNode_of_not_find (tempId : NodeId) (saved : Node) (t : State)
    (h : findNode tempId t = none) : (Pending.addNode tempId).onSuccess saved t = t := by
  simp only [Pending.onSuccess, h]

/-- After `addNode` into a collection without the temporary id, and edits that keep the
ids, the find of the confirmation reaches the new object. -/
theorem findNode_temp_after_addNode (s : State) (now : ℕ) (x y : Num) (t : State)
    (hb : s.RefsBelow) (hfresh : ∀ n ∈ s.collection, n.id ≠ tempIdOf now)
    (ht : SameIds (addNode now x y s).1 t) :
    findNode (tempIdOf now) t = some s.next := by
  obtain ⟨hn, hid⟩ := ht
  unfold findNode
  rw [hn, addNode_nodes]
  apply find?_append_singleton_of_forall
  · intro r hr
    have hmem : r ∈ (addNode now x y s).1.nodes := by
      rw [addNode_nodes]
      exact List.mem_append_left _ hr
    rw [hid r hmem, addNode_heap_of_ne now x y s r (Nat.ne_of_lt (hb r hr))]
    simpa using hfresh _ (List.mem_map_of_mem _ hr)
  · have hmem : s.next ∈ (addNode now x y s).1.nodes := by
      rw [addNode_nodes]
      exact List.mem_append_right _ (List.mem_singleton_self _)
    rw [hid _ hmem, addNode_heap_next]
    simp

/-- The ids of the collection after a confirmed `addNode`: the ids before, then the id of
the response. -/
theorem ids_after_confirmed_addNode (s : State) (now : ℕ) (x y : Num) (saved : Node)
    (t : State) (hb : s.RefsBelow) (hfresh : ∀ n ∈ s.collection, n.id ≠ tempIdOf now)
    (ht : SameIds (addNode now x y s).1 t) :
    (succeedOf (addNode now x y s).2 saved t).collection.map (fun n => n.id)
      = s.collection.map (fun n => n.id) ++ [saved.id] := by
  have hf := findNode_temp_after_addNode s now x y t hb hfresh ht
  obtain ⟨hheap, hnodes, _⟩ := onSuccess_addNode_of_find (tempIdOf now) saved t s.next hf
  obtain ⟨hn, hid⟩ := ht
  rw [addNode_pending]
  simp only [succeedOf, State.collection]
  rw [hheap, hnodes, hn, addNode_nodes, List.map_append, List.map_append, List.map_map,
    List.map_map]
  congr 1
  · rw [List.map_map]
    apply List.map_congr_left
    intro r hr
    have hne : r ≠ s.next := Nat.ne_of_lt (hb r hr)
    have hmem : r ∈ (addNode now x y s).1.nodes := by
      rw [addNode_nodes]
      exact List.mem_append_left _ hr
    simp only [Function.comp, Function.update_noteq hne]
    rw [hid r hmem, addNode_heap_of_ne now x y s r hne]
  · simp [objectAssign]

theorem sameIds_refl (a : State) : SameIds a a := ⟨rfl, fun _ _ => rfl⟩

/-- C11, amended: when no node of the collection carries the temporary id of the call,
`addNode(x, y)`, then edits that keep the ids and any selections, then a successful
confirmation whose response has an id `s` that is neither the temporary id nor the id of a
node of the collection, leave exactly one node with id `s` and no node with the temporary
id; the selection is `s` if it was the temporary id at confirmation time and is unchanged
otherwise. -/
theorem C11_temporary_id_reconciled (s : State) (now : ℕ) (x y : Num) (saved : Node)
    (t : State) (hb : s.RefsBelow) (hfresh : ∀ n ∈ s.collection, n.id ≠ tempIdOf now)
    (hs : ∀ n ∈ s.collection, n.id ≠ saved.id) (hne : saved.id ≠ tempIdOf now)
    (ht : SameIds (addNode now x y s).1 t) :
    ((succeedOf (addNode now x y s).2 saved t).collection.map (fun n => n.id)).count saved.id
        = 1 ∧
      (∀ n ∈ (succeedOf (addNode now x y s).2 saved t).collection, n.id ≠ tempIdOf now) ∧
      (succeedOf (addNode now x y s).2 saved t).selectedNodeId
        = if t.selectedNodeId = some (tempIdOf now) then some saved.id
          else t.selectedNodeId := by
  have hids := ids_after_confirmed_addNode s now x y saved t hb hfresh ht
  refine ⟨?_, ?_, ?_⟩
  · rw [hids, List.count_append]
    have h0 : (s.collection.map (fun n => n.id)).count saved.id = 0 := by
      rw [List.count_eq_zero]
      intro hmem
      rw [List.mem_map] at hmem
      obtain ⟨n, hn, hid⟩ := hmem
      exact hs n hn hid
    rw [h0]
    simp
  · intro n hn
    have hmem : n.id ∈ (succeedOf (addNode now x y s).2 saved t).collection.map
        (fun n => n.id) := List.mem_map_of_mem _ hn
    rw [hids, List.mem_append] at hmem
    rcases hmem with h | h
    · rw [List.mem_map] at h
      obtain ⟨m, hm, hid⟩ := h
      rw [← hid]
      exact hfresh m hm
    · simp only [List.mem_singleton] at h
      rw [h]
      exact hne
  · have hf := findNode_temp_after_addNode s now x y t hb hfresh ht
    rw [addNode_pending]
    exact (onSuccess_addNode_of_find (tempIdOf now) saved t s.next hf).2.2

theorem C11_temporary_id_reconciled_witness :
    sampleState.RefsBelow ∧ (∀ n ∈ sampleState.collection, n.id ≠ tempIdOf 5) ∧
      (∀ n ∈ sampleState.collection,
        n.id ≠ (serverCreated "srv1" "u1" (newNodeOf 5 10 20)).id) ∧
      (serverCreated "srv1" "u1" (newNodeOf 5 10 20)).id ≠ tempIdOf 5 ∧
      ((succeedOf (addNode 5 10 20 sampleState).2 (serverCreated "srv1" "u1" (newNodeOf 5 10 20))
          (addNode 5 10 20 sampleState).1).collection.map (fun n => n.id)).count
            (serverCreated "srv1" "u1" (newNodeOf 5 10 20)).id = 1 :=
  ⟨by decide, by decide, by decide, by decide,
    (C11_temporary_id_reconciled sampleState 5 10 20
      (serverCreated "srv1" "u1" (newNodeOf 5 10 20)) (addNode 5 10 20 sampleState).1
      (by decide) (by decide) (by decide) (by decide) (sameIds_refl _)).1⟩

/-- C11, as the claim states it for every collection, fails when a node of the collection
still carries the temporary id of an `addNode` made at the same clock value: the find of
line 123 reaches that older node, which takes the id `srv1`, and the node just added keeps
the temporary id. -/
theorem C11_counterexample :
    (addNode 5 0 0 State.init).1.collection.map (fun n => n.id) = ["temp_5"] ∧
      (succeedOf (addNode 5 1 1 (addNode 5 0 0 State.init).1).2
          (serverCreated "srv1" "u1" (newNodeOf 5 1 1))
          (addNode 5 1 1 (addNode 5 0 0 State.init).1).1).collection.map
            (fun n => (n.id, n.x))
        = [("srv1", 1), ("temp_5", 1)] := by
  decide

/-! ## state.js: the ids after `addNode` -/

theorem ids_after_addNode (s : State) (now : ℕ) (x y : Num) (hb : s.RefsBelow) :
    (addNode now x y s).1.collection.map (fun n => n.id)
      = s.collection.map (fun n => n.id) ++ [tempIdOf now] := by
  unfold State.collection
  rw [addNode_nodes, List.map_append, List.map_append, List.map_map]
  congr 1
  · rw [List.map_map]
    apply List.map_congr_left
    intro r hr
    simp only [Function.comp]
    rw [addNode_heap_of_ne now x y s r (Nat.ne_of_lt (hb r hr))]
  · simp [addNode_heap_next]

/-- The ids stay pairwise distinct under `addNode` exactly when no node carries the
temporary id built from the clock value. -/
theorem addNode_uniqueIds_iff (s : State) (now : ℕ) (x y : Num) (hb : s.RefsBelow) :
    (addNode now x y s).1.UniqueIds ↔
      s.UniqueIds ∧ ∀ n ∈ s.collection, n.id ≠ tempIdOf now := by
  unfold State.UniqueIds
  rw [ids_after_addNode s now x y hb, List.nodup_append]
  constructor
  · rintro ⟨h1, _, h3⟩
    refine ⟨h1, ?_⟩
    intro n hn hid
    exact h3 (List.mem_map_of_mem _ hn) (by simp [hid])
  · rintro ⟨h1, h2⟩
    refine ⟨h1, List.nodup_singleton _, ?_⟩
    intro a ha hb2
    simp only [List.mem_singleton] at hb2
    rw [List.mem_map] at ha
    obtain ⟨n, hn, hid⟩ := ha
    exact h2 n hn (hid.trans hb2)

/-- C12, evaluated at the failing input: from the empty store, the first `addNode` at clock
value 5 leaves pairwise distinct ids, and a second `addNode` at the same clock value leaves
two nodes with the id `temp_5`. -/
theorem C12_same_clock_repeats_id :
    State.init.UniqueIds ∧ (addNode 5 0 0 State.init).1.UniqueIds ∧
      (addNode 5 1 1 (addNode 5 0 0 State.init).1).1.collection.map (fun n => n.id)
        = ["temp_5", "temp_5"] ∧
      ¬ (addNode 5 1 1 (addNode 5 0 0 State.init).1).1.UniqueIds := by
  decide

/-! ## state.js: `deleteNode` and the selection -/

theorem deleteNode_selectedNodeId (id : NodeId) (s : State)
    (hin : ∃ n ∈ s.collection, n.id = id) :
    (deleteNode true id s).1.selectedNodeId = none := by
  rw [deleteNode_of_lt id s (findIdx_lt_of_mem_collection id s hin)]
  rfl

/-- C15, evaluated at the failing input: with node `a` selected, `deleteNode("b")` leaves
nothing selected, since line 167 calls `deselectNode()` without comparing `id` to the
selection (the compensation of `addNode`, line 133, does compare). -/
theorem C15_delete_other_node_deselects :
    (selectNode "a" sampleState).selectedNodeId = some "a" ∧
      (selectNode "a" sampleState).collection.map (fun n => n.id) = ["a", "b"] ∧
      (deleteNode true "b" (selectNode "a" sampleState)).1.selectedNodeId = none := by
  decide

/-! ## state.js: `updateLink` -/

theorem find?_congr_of_forall {α : Type} (p q : α → Bool) (l : List α)
    (h : ∀ a ∈ l, p a = q a) : l.find? p = l.find? q := by
  induction l with
  | nil => rfl
  | cons a l ih =>
    rw [List.find?_cons, List.find?_cons, h a (List.mem_cons_self _ _),
      ih (fun b hb => h b (List.mem_cons_of_mem _ hb))]

theorem findNode_of_mem_collection (id : NodeId) (s : State)
    (hin : ∃ n ∈ s.collection, n.id = id) : ∃ r, findNode id s = some r := by
  cases hf : findNode id s with
  | some r => exact ⟨r, rfl⟩
  | none =>
    exfalso
    obtain ⟨n, hn, hid⟩ := hin
    unfold State.collection at hn
    rw [List.mem_map] at hn
    obtain ⟨r, hr, rfl⟩ := hn
    exact findNode_none hf r hr hid

theorem updateLink_of_find (sourceId targetId : NodeId) (weight : Option Num) (s : State)
    (r : Ref) (h : findNode sourceId s = some r) :
    (updateLink sourceId targetId weight s).1
      = publish Event.stateChange
          (s.modify r (fun n =>
            { n with links :=
                match weight with
                | none => JsObj.del (s.heap r).links targetId
                | some w => JsObj.set (s.heap r).links targetId w })) := by
  simp only [updateLink, h]

theorem updateLink_heap_self (sourceId targetId : NodeId) (weight : Option Num) (s : State)
    (r : Ref) (h : findNode sourceId s = some r) :
    (updateLink sourceId targetId weight s).1.heap r
      = { s.heap r with links :=
            match weight with
            | none => JsObj.del (s.heap r).links targetId
            | some w => JsObj.set (s.heap r).links targetId w } := by
  rw [updateLink_of_find sourceId targetId weight s r h]
  simp [State.modify]

theorem updateLink_heap_of_ne (sourceId targetId : NodeId) (weight : Option Num) (s : State)
    (r r2 : Ref) (h : findNode sourceId s = some r) (hne : r2 ≠ r) :
    (updateLink sourceId targetId weight s).1.heap r2 = s.heap r2 := by
  rw [updateLink_of_find sourceId targetId weight s r h]
  simp [State.modify, Function.update_noteq hne]

theorem updateLink_nodes (sourceId targetId : NodeId) (weight : Option Num) (s : State) :
    (updateLink sourceId targetId weight s).1.nodes = s.nodes := by
  unfold updateLink
  cases findNode sourceId s <;> rfl

theorem updateLink_selectedNodeId (sourceId targetId : NodeId) (weight : Option Num)
    (s : State) :
    (updateLink sourceId targetId weight s).1.selectedNodeId = s.selectedNodeId := by
  unfold updateLink
  cases findNode sourceId s <;> rfl

theorem findNode_updateLink (sourceId targetId : NodeId) (weight : Option Num) (s : State)
    (id : NodeId) :
    findNode id (updateLink sourceId targetId weight s).1 = findNode id s := by
  cases hf : findNode sourceId s with
  | none => simp [updateLink, hf]
  | some r =>
    unfold findNode
    rw [updateLink_nodes]
    apply find?_congr_of_forall
    intro r2 _
    by_cases hne : r2 = r
    · subst hne
      rw [updateLink_heap_self sourceId targetId weight s r2 hf]
    · rw [updateLink_heap_of_ne sourceId targetId weight s r r2 hf hne]

/-- C13: in a collection that has a node with id `sourceId`, `updateLink(sourceId,
targetId, w)` acts on the first such node `r` only and there on the entry for `targetId`
only: the entry becomes `w`, or is absent when `w` is null; every other entry of that link
object, every other field of the node, every other node object, the array and the
selection are unchanged.  Hence `updateLink(a, b, w)` followed by `updateLink(a, b, null)`
leaves the node without key `b`. -/
theorem C13_updateLink_frame (s : State) (sourceId targetId : NodeId) (weight : Option Num)
    (hin : ∃ n ∈ s.collection, n.id = sourceId) :
    ∃ r, findNode sourceId s = some r ∧ r ∈ s.nodes ∧ (s.heap r).id = sourceId ∧
      JsObj.get ((updateLink sourceId targetId weight s).1.heap r).links targetId = weight ∧
      (weight = none →
        JsObj.has ((updateLink sourceId targetId weight s).1.heap r).links targetId = false) ∧
      (∀ k, k ≠ targetId →
        JsObj.get ((updateLink sourceId targetId weight s).1.heap r).links k
          = JsObj.get (s.heap r).links k) ∧
      ((updateLink sourceId targetId weight s).1.heap r).eraseLinks = (s.heap r).eraseLinks ∧
      (∀ r2, r2 ≠ r → (updateLink sourceId targetId weight s).1.heap r2 = s.heap r2) ∧
      (updateLink sourceId targetId weight s).1.nodes = s.nodes ∧
      (updateLink sourceId targetId weight s).1.selectedNodeId = s.selectedNodeId ∧
      ∀ w : Num,
        JsObj.has ((updateLink sourceId targetId none
          (updateLink sourceId targetId (some w) s).1).1.heap r).links targetId = false := by
  obtain ⟨r, hf⟩ := findNode_of_mem_collection sourceId s hin
  obtain ⟨hr, hid⟩ := findNode_some hf
  refine ⟨r, hf, hr, hid, ?_, ?_, ?_, ?_, ?_, updateLink_nodes _ _ _ _,
    updateLink_selectedNodeId _ _ _ _, ?_⟩
  · rw [updateLink_heap_self sourceId targetId weight s r hf]
    cases weight with
    | none => exact JsObj.get_del_self _ _
    | some w => exact JsObj.get_set_self _ _ _
  · intro hw
    subst hw
    rw [updateLink_heap_self sourceId targetId none s r hf]
    exact JsObj.has_del_self _ _
  · intro k hk
    rw [updateLink_heap_self sourceId targetId weight s r hf]
    cases weight with
    | none => exact JsObj.get_del_of_ne _ _ _ hk
    | some w => exact JsObj.get_set_of_ne _ _ _ _ hk
  · rw [updateLink_heap_self sourceId targetId weight s r hf]
    rfl
  · intro r2 hne
    exact updateLink_heap_of_ne sourceId targetId weight s r r2 hf hne
  · intro w
    have hf2 : findNode sourceId (updateLink sourceId targetId (some w) s).1 = some r := by
      rw [findNode_updateLink, hf]
    rw [updateLink_heap_self sourceId targetId none _ r hf2]
    exact JsObj.has_del_self _ _

theorem C13_updateLink_frame_witness :
    (∃ n ∈ sampleState.collection, n.id = "a") ∧
      ∃ r, findNode "a" sampleState = some r ∧ r ∈ sampleState.nodes ∧
        (sampleState.heap r).id = "a" ∧
        JsObj.get ((updateLink "a" "b" (some 3) sampleState).1.heap r).links "b" = some 3 :=
  ⟨by decide,
    (C13_updateLink_frame sampleState "a" "b" (some 3) (by decide)).imp
      (fun _ h => ⟨h.1, h.2.1, h.2.2.1, h.2.2.2.1⟩)⟩

/-! ## state.js: what the confirmation of `addNode` writes -/

theorem objectAssign_serverCreated (n : Node) (id : NodeId) (owner : String) (posted : Node) :
    objectAssign n (serverCreated id owner posted) = serverCreated id owner posted := by
  simp [objectAssign, serverCreated]

/-- C16, amended: when the create request of `addNode` succeeds (no node carried the
temporary id before the call, ids kept in between), the array is unchanged, so the
temporary node keeps its index; that node becomes the copy the server returns, that is the
server-assigned id and owner and, in every other field, the value posted at apply time,
whatever was edited locally in between; every other node object is unchanged. -/
theorem C16_confirmation_takes_server_copy (s : State) (now : ℕ) (x y : Num) (sid : NodeId)
    (owner : String) (t : State) (hb : s.RefsBelow)
    (hfresh : ∀ n ∈ s.collection, n.id ≠ tempIdOf now)
    (ht : SameIds (addNode now x y s).1 t) :
    (succeedOf (addNode now x y s).2 (serverCreated sid owner (newNodeOf now x y)) t).nodes
        = t.nodes ∧
      (succeedOf (addNode now x y s).2 (serverCreated sid owner (newNodeOf now x y)) t).heap
          s.next = serverCreated sid owner (newNodeOf now x y) ∧
      ∀ r, r ≠ s.next →
        (succeedOf (addNode now x y s).2 (serverCreated sid owner (newNodeOf now x y)) t).heap r
          = t.heap r := by
  have hf := findNode_temp_after_addNode s now x y t hb hfresh ht
  obtain ⟨hheap, hnodes, _⟩ := onSuccess_addNode_of_find (tempIdOf now)
    (serverCreated sid owner (newNodeOf now x y)) t s.next hf
  rw [addNode_pending]
  simp only [succeedOf]
  refine ⟨hnodes, ?_, ?_⟩
  · rw [hheap, Function.update_same, objectAssign_serverCreated]
  · intro r hr
    rw [hheap, Function.update_noteq hr]

theorem C16_confirmation_takes_server_copy_witness :
    sampleState.RefsBelow ∧ (∀ n ∈ sampleState.collection, n.id ≠ tempIdOf 5) ∧
      SameIds (addNode 5 10 20 sampleState).1
        (updateNodePosition "temp_5" 30 40 (addNode 5 10 20 sampleState).1) ∧
      (succeedOf (addNode 5 10 20 sampleState).2 (serverCreated "srv1" "u1" (newNodeOf 5 10 20))
        (updateNodePosition "temp_5" 30 40 (addNode 5 10 20 sampleState).1)).heap
          sampleState.next = serverCreated "srv1" "u1" (newNodeOf 5 10 20) :=
  ⟨by decide, by decide, by decide,
    (C16_confirmation_takes_server_copy sampleState 5 10 20 "srv1" "u1"
      (updateNodePosition "temp_5" 30 40 (addNode 5 10 20 sampleState).1)
      (by decide) (by decide) (by decide)).2.1⟩

/-- C16, as the claim states it, fails: a node added at (10, 20) and moved to (30, 40) by
`updateNodePosition` before the confirmation is back at (10, 20) after it, because
`Object.assign` (line 125) copies every field of the response, which carries the posted
position. -/
theorem C16_counterexample :
    (updateNodePosition "temp_5" 30 40 (addNode 5 10 20 State.init).1).collection.map
        (fun n => (n.id, n.x, n.y)) = [("temp_5", 30, 40)] ∧
      (succeedOf (addNode 5 10 20 State.init).2 (serverCreated "srv1" "u1" (newNodeOf 5 10 20))
        (updateNodePosition "temp_5" 30 40 (addNode 5 10 20 State.init).1)).collection.map
          (fun n => (n.id, n.x, n.y)) = [("srv1", 10, 20)] := by
  decide

/-! ## acute.js: the ledger -/

theorem JsObj.get_nil {α : Type} (k : String) : JsObj.get ([] : JsObj α) k = none := rfl

theorem get_recordChange_self (today : String) (nodeId : NodeId) (change : Num)
    (history : JsObj (JsObj Num)) :
    JsObj.get (recordChange today nodeId change history) nodeId
      = some (JsObj.set ((JsObj.get history nodeId).getD []) today
          ((JsObj.get ((JsObj.get history nodeId).getD []) today).getD 0 + change)) := by
  unfold recordChange
  cases hg : JsObj.get history nodeId with
  | none => simp [JsObj.get_set_self]
  | some d => simp [JsObj.get_set_self, hg]

theorem get_recordChange_of_ne (today : String) (nodeId : NodeId) (change : Num)
    (history : JsObj (JsObj Num)) (n2 : NodeId) (h : n2 ≠ nodeId) :
    JsObj.get (recordChange today nodeId change history) n2 = JsObj.get history n2 := by
  unfold recordChange
  cases hg : JsObj.get history nodeId with
  | none => simp [JsObj.get_set_of_ne _ _ _ _ h]
  | some d => simp [JsObj.get_set_of_ne _ _ _ _ h]

theorem historyValue_recordChange_self (today : String) (nodeId : NodeId) (change : Num)
    (history : JsObj (JsObj Num)) :
    historyValue (recordChange today nodeId change history) nodeId today
      = historyValue history nodeId today + change := by
  unfold historyValue
  rw [get_recordChange_self]
  cases hg : JsObj.get history nodeId with
  | none =>
    simp only [Option.getD_none, JsObj.get_set_self, Option.getD_some, JsObj.get_nil]
  | some d => simp [JsObj.get_set_self]

theorem historyValue_recordChange_other (today : String) (nodeId : NodeId) (change : Num)
    (history : JsObj (JsObj Num)) (n2 : NodeId) (d2 : String)
    (h : n2 ≠ nodeId ∨ d2 ≠ today) :
    historyValue (recordChange today nodeId change history) n2 d2
      = historyValue history n2 d2 := by
  unfold historyValue
  by_cases hn : n2 = nodeId
  · subst hn
    have hd : d2 ≠ today := by
      rcases h with h | h
      · exact absurd rfl h
      · exact h
    rw [get_recordChange_self]
    cases hg : JsObj.get history n2 with
    | none =>
      simp only [Option.getD_none, JsObj.get_set_of_ne _ _ _ _ hd, JsObj.get_nil]
    | some d => simp [JsObj.get_set_of_ne _ _ _ _ hd]
  · rw [get_recordChange_of_ne today nodeId change history n2 hn]

theorem trackCommitChange_same (today : String) (nodeId : NodeId) (c : Num) (st : Stored) :
    trackCommitChange today nodeId c c st = st := by
  simp [trackCommitChange]

theorem trackCommitChange_ne_corrupt (today : String) (nodeId : NodeId) (o c : Num)
    (st : Stored) (h : st ≠ Stored.corrupt) :
    trackCommitChange today nodeId o c st ≠ Stored.corrupt := by
  unfold trackCommitChange
  by_cases hz : c - o = 0
  · simpa [hz] using h
  · cases st with
    | corrupt => exact absurd rfl h
    | missing => simp [hz]
    | valid hist => simp [hz]

theorem historyValue_nil (nodeId : NodeId) (date : String) :
    historyValue [] nodeId date = 0 := rfl

/-- The value read for the node and the day after `trackCommitChange`, for an item that
parses or is absent: the value before plus the change. -/
theorem ledgerValue_trackCommitChange_self (today : String) (nodeId : NodeId) (o c : Num)
    (st : Stored) (h : st ≠ Stored.corrupt) :
    ledgerValue (trackCommitChange today nodeId o c st) nodeId today
      = (ledgerValue st nodeId today).map (fun v => v + (c - o)) := by
  unfold trackCommitChange
  by_cases hz : c - o = 0
  · cases st with
    | corrupt => exact absurd rfl h
    | missing => simp [hz, ledgerValue]
    | valid hist => simp [hz, ledgerValue]
  · cases st with
    | corrupt => exact absurd rfl h
    | missing =>
      simp only [hz, if_false, ledgerValue, Option.map_some', historyValue_recordChange_self,
        historyValue_nil]
    | valid hist =>
      simp only [hz, if_false, ledgerValue, Option.map_some', historyValue_recordChange_self]

/-- The value read for any other node or day is untouched by `trackCommitChange`. -/
theorem ledgerValue_trackCommitChange_other (today : String) (nodeId : NodeId) (o c : Num)
    (st : Stored) (n2 : NodeId) (d2 : String) (h : n2 ≠ nodeId ∨ d2 ≠ today) :
    ledgerValue (trackCommitChange today nodeId o c st) n2 d2 = ledgerValue st n2 d2 := by
  unfold trackCommitChange
  by_cases hz : c - o = 0
  · simp [hz]
  · cases st with
    | corrupt => simp [hz]
    | missing =>
      simp only [hz, if_false, ledgerValue, historyValue_recordChange_other _ _ _ _ _ _ h,
        historyValue_nil]
    | valid hist =>
      simp only [hz, if_false, ledgerValue, historyValue_recordChange_other _ _ _ _ _ _ h]

/-- C17: `trackCommitChange` with equal old and new commit leaves the stored item as it is;
for an item that parses (or is absent), two changes `c1 - o1` and `c2 - o2` recorded for the
same node on the same day leave, as the value read for that node and day, the value read
before (0 if absent) plus both changes; the value read for every other node and for every
other day is unchanged. -/
theorem C17_ledger_additive (st : Stored) (today : String) (nodeId : NodeId)
    (c o1 c1 o2 c2 : Num) :
    trackCommitChange today nodeId c c st = st ∧
      (st ≠ Stored.corrupt →
        ledgerValue (trackCommitChange today nodeId o2 c2
            (trackCommitChange today nodeId o1 c1 st)) nodeId today
          = (ledgerValue st nodeId today).map (fun v => v + (c1 - o1) + (c2 - o2))) ∧
      ∀ (n2 : NodeId) (d2 : String), n2 ≠ nodeId ∨ d2 ≠ today →
        ledgerValue (trackCommitChange today nodeId o2 c2
            (trackCommitChange today nodeId o1 c1 st)) n2 d2
          = ledgerValue st n2 d2 := by
  refine ⟨trackCommitChange_same today nodeId c st, ?_, ?_⟩
  · intro h
    rw [ledgerValue_trackCommitChange_self today nodeId o2 c2 _
        (trackCommitChange_ne_corrupt today nodeId o1 c1 st h),
      ledgerValue_trackCommitChange_self today nodeId o1 c1 st h, Option.map_map]
    rfl
  · intro n2 d2 h
    rw [ledgerValue_trackCommitChange_other today nodeId o2 c2 _ n2 d2 h,
      ledgerValue_trackCommitChange_other today nodeId o1 c1 st n2 d2 h]

theorem C17_ledger_additive_witness :
    Stored.missing ≠ Stored.corrupt ∧
      ledgerValue (trackCommitChange "2025-01-01" "a" 8 3
          (trackCommitChange "2025-01-01" "a" 5 8 Stored.missing)) "a" "2025-01-01"
        = (ledgerValue Stored.missing "a" "2025-01-01").map
            (fun v => v + ((8 : Num) - 5) + ((3 : Num) - 8)) :=
  ⟨by decide,
    (C17_ledger_additive Stored.missing "2025-01-01" "a" 0 5 8 8 3).2.1 (by decide)⟩

/-! ## state.js: `updateNodeContent` and the ledger -/

theorem updateNodeContent_of_find (today : String) (id : NodeId) (newName : String)
    (newCommit : Num) (s : State) (r : Ref) (h : findNode id s = some r) :
    (updateNodeContent today id newName newCommit s).1.heap
        = Function.update s.heap r { s.heap r with name := newName, commit := newCommit } ∧
      (updateNodeContent today id newName newCommit s).1.nodes = s.nodes ∧
      (updateNodeContent today id newName newCommit s).1.commitHistory
        = trackCommitChange today id (s.heap r).commit newCommit s.commitHistory ∧
      (updateNodeContent today id newName newCommit s).2
        = some (Pending.updateNodeContent id r (s.heap r).name (s.heap r).commit newName
            newCommit) := by
  simp [updateNodeContent, h, State.modify, publish]

theorem findNode_updateNodeContent (today : String) (id : NodeId) (newName : String)
    (newCommit : Num) (s : State) (r : Ref) (h : findNode id s = some r) :
    findNode id (updateNodeContent today id newName newCommit s).1 = some r := by
  obtain ⟨hheap, hnodes, _, _⟩ := updateNodeContent_of_find today id newName newCommit s r h
  rw [← h]
  unfold findNode
  rw [hheap, hnodes]
  apply find?_congr_of_forall
  intro r2 _
  by_cases hne : r2 = r
  · subst hne
    rw [Function.update_same]
  · rw [Function.update_noteq hne]

/-- After a run of `updateNodeContent` calls on one id and one day, the value read for
that node and day is the value before plus (commit after - commit before). -/
theorem ledger_after_content_updates (today : String) (id : NodeId)
    (us : List (String × Num)) (s : State) (r : Ref) (h : findNode id s = some r)
    (hc : s.commitHistory ≠ Stored.corrupt) :
    ledgerValue (applyContentUpdates today id us s).commitHistory id today
      = (ledgerValue s.commitHistory id today).map
          (fun v => v + (((applyContentUpdates today id us s).heap r).commit
            - (s.heap r).commit)) := by
  induction us generalizing s with
  | nil =>
    simp only [applyContentUpdates, List.foldl_nil, sub_self, add_zero]
    cases ledgerValue s.commitHistory id today <;> rfl
  | cons u us ih =>
    obtain ⟨hheap, _, hch, _⟩ := updateNodeContent_of_find today id u.1 u.2 s r h
    have h1 := findNode_updateNodeContent today id u.1 u.2 s r h
    have hc1 : (updateNodeContent today id u.1 u.2 s).1.commitHistory ≠ Stored.corrupt := by
      rw [hch]
      exact trackCommitChange_ne_corrupt today id _ _ _ hc
    have hstep : applyContentUpdates today id (u :: us) s
        = applyContentUpdates today id us (updateNodeContent today id u.1 u.2 s).1 := rfl
    rw [hstep, ih _ h1 hc1, hch, ledgerValue_trackCommitChange_self today id _ _ _ hc,
      Option.map_map]
    have hcommit : ((updateNodeContent today id u.1 u.2 s).1.heap r).commit = u.2 := by
      rw [hheap, Function.update_same]
    rw [hcommit]
    congr 1
    funext v
    simp only [Function.comp]
    ring

theorem commit_after_content_update (today : String) (id : NodeId) (newName : String)
    (newCommit : Num) (s : State) (r : Ref) (h : findNode id s = some r) :
    ((updateNodeContent today id newName newCommit s).1.heap r).commit = newCommit := by
  rw [(updateNodeContent_of_find today id newName newCommit s r h).1, Function.update_same]

/-- C18: for a node of the collection and a stored item that parses (or is absent), each
`updateNodeContent(id, name, commit)` adds (new commit - old commit) to the value read for
that node and today, so after any run of such updates on the same day that value is the
value before plus (final commit - initial commit); from commit 5 and value 0, the update to
8 gives 3 and the further update to 3 gives -2. -/
theorem C18_content_updates_telescope (s : State) (today : String) (id : NodeId)
    (us : List (String × Num)) (hin : ∃ n ∈ s.collection, n.id = id)
    (hc : s.commitHistory ≠ Stored.corrupt) :
    ∃ r, findNode id s = some r ∧
      (∀ (name : String) (commit : Num),
        ledgerValue (updateNodeContent today id name commit s).1.commitHistory id today
          = (ledgerValue s.commitHistory id today).map
              (fun v => v + (commit - (s.heap r).commit))) ∧
      ledgerValue (applyContentUpdates today id us s).commitHistory id today
        = (ledgerValue s.commitHistory id today).map
            (fun v => v + (((applyContentUpdates today id us s).heap r).commit
              - (s.heap r).commit)) ∧
      (∀ (name : String) (commit : Num),
        ((applyContentUpdates today id (us ++ [(name, commit)]) s).heap r).commit = commit) ∧
      ((s.heap r).commit = 5 → ledgerValue s.commitHistory id today = some 0 →
        ∀ name1 name2 : String,
          ledgerValue (updateNodeContent today id name1 8 s).1.commitHistory id today
              = some 3 ∧
            ledgerValue (updateNodeContent today id name2 3
                (updateNodeContent today id name1 8 s).1).1.commitHistory id today
              = some (-2)) := by
  obtain ⟨r, hf⟩ := findNode_of_mem_collection id s hin
  have hsingle : ∀ (name : String) (commit : Num),
      ledgerValue (updateNodeContent today id name commit s).1.commitHistory id today
        = (ledgerValue s.commitHistory id today).map
            (fun v => v + (commit - (s.heap r).commit)) := by
    intro name commit
    rw [(updateNodeContent_of_find today id name commit s r hf).2.2.1,
      ledgerValue_trackCommitChange_self today id _ _ _ hc]
  refine ⟨r, hf, hsingle, ledger_after_content_updates today id us s r hf hc, ?_, ?_⟩
  · intro name commit
    have hfold : applyContentUpdates today id (us ++ [(name, commit)]) s
        = (updateNodeContent today id name commit (applyContentUpdates today id us s)).1 := by
      simp [applyContentUpdates, List.foldl_append]
    have hfr : ∀ (l : List (String × Num)) (t : State), findNode id t = some r →
        findNode id (applyContentUpdates today id l t) = some r := by
      intro l
      induction l with
      | nil => intro t ht; exact ht
      | cons u l ih =>
        intro t ht
        exact ih _ (findNode_updateNodeContent today id u.1 u.2 t r ht)
    rw [hfold]
    exact commit_after_content_update today id name commit _ r (hfr us s hf)
  · intro h5 h0 name1 name2
    have h1 := hsingle name1 8
    rw [h0, h5] at h1
    have hf1 := findNode_updateNodeContent today id name1 8 s r hf
    have hc1 : (updateNodeContent today id name1 8 s).1.commitHistory ≠ Stored.corrupt := by
      rw [(updateNodeContent_of_find today id name1 8 s r hf).2.2.1]
      exact trackCommitChange_ne_corrupt today id _ _ _ hc
    have h2 : ledgerValue (updateNodeContent today id name2 3
        (updateNodeContent today id name1 8 s).1).1.commitHistory id today
          = (ledgerValue (updateNodeContent today id name1 8 s).1.commitHistory id today).map
              (fun v => v + (3 - ((updateNodeContent today id name1 8 s).1.heap r).commit)) := by
      rw [(updateNodeContent_of_find today id name2 3 _ r hf1).2.2.1,
        ledgerValue_trackCommitChange_self today id _ _ _ hc1]
    rw [h2, h1, commit_after_content_update today id name1 8 s r hf]
    constructor
    · simp only [Option.map_some', Option.some.injEq]
      norm_num
    · simp only [Option.map_some', Option.some.injEq]
      norm_num

theorem C18_content_updates_telescope_witness :
    (∃ n ∈ commitFiveState.collection, n.id = "a") ∧
      commitFiveState.commitHistory ≠ Stored.corrupt ∧
      ∃ r, findNode "a" commitFiveState = some r ∧
        ∀ (name : String) (commit : Num),
          ledgerValue (updateNodeContent "2025-01-01" "a" name commit
              commitFiveState).1.commitHistory "a" "2025-01-01"
            = (ledgerValue commitFiveState.commitHistory "a" "2025-01-01").map
                (fun v => v + (commit - (commitFiveState.heap r).commit)) :=
  ⟨by decide, by decide,
    (C18_content_updates_telescope commitFiveState "2025-01-01" "a" [] (by decide)
      (by decide)).imp (fun _ h => ⟨h.1, h.2.1⟩)⟩

theorem failed_content_update_commitHistory (today0 today : String) (id : NodeId)
    (newName : String) (newCommit : Num) (s : State) (r : Ref) (h : findNode id s = some r) :
    (failOf (updateNodeContent today0 id newName newCommit s).2 today
        (updateNodeContent today0 id newName newCommit s).1).commitHistory
      = trackCommitChange today id newCommit (s.heap r).commit
          (trackCommitChange today0 id (s.heap r).commit newCommit s.commitHistory) := by
  simp [updateNodeContent, h, failOf, Pending.onFailure, State.modify, publish]

theorem ledgerValue_track_back (today : String) (id : NodeId) (o c : Num) (st : Stored)
    (n : NodeId) (d : String) :
    ledgerValue (trackCommitChange today id c o (trackCommitChange today id o c st)) n d
      = ledgerValue st n d := by
  by_cases hnd : n ≠ id ∨ d ≠ today
  · rw [ledgerValue_trackCommitChange_other today id c o _ n d hnd,
      ledgerValue_trackCommitChange_other today id o c st n d hnd]
  · have hn : n = id := by
      by_contra hne
      exact hnd (Or.inl hne)
    have hd : d = today := by
      by_contra hne
      exact hnd (Or.inr hne)
    subst hn
    subst hd
    by_cases hc : st = Stored.corrupt
    · subst hc
      simp [trackCommitChange, ledgerValue]
    · rw [ledgerValue_trackCommitChange_self d n c o _
          (trackCommitChange_ne_corrupt d n o c st hc),
        ledgerValue_trackCommitChange_self d n o c st hc, Option.map_map]
      cases ledgerValue st n d with
      | none => rfl
      | some v => simp

/-- C19, amended: when the apply and the compensation of a failed
`updateNodeContent(id, name, commit)` run on the same calendar day, with nothing in between,
every node object (so the name and the commit of the node) and the array are as before the
operation, and the value read from the ledger for every node and every day is the value
read before the operation. -/
theorem C19_content_rollback_same_day (s : State) (today : String) (id : NodeId)
    (newName : String) (newCommit : Num) :
    (failOf (updateNodeContent today id newName newCommit s).2 today
        (updateNodeContent today id newName newCommit s).1).heap = s.heap ∧
      (failOf (updateNodeContent today id newName newCommit s).2 today
        (updateNodeContent today id newName newCommit s).1).nodes = s.nodes ∧
      ∀ (n : NodeId) (d : String),
        ledgerValue (failOf (updateNodeContent today id newName newCommit s).2 today
            (updateNodeContent today id newName newCommit s).1).commitHistory n d
          = ledgerValue s.commitHistory n d := by
  obtain ⟨h1, h2⟩ := updateNodeContent_rollback s today today id newName newCommit
  refine ⟨h1, h2, ?_⟩
  intro n d
  cases hf : findNode id s with
  | none => simp [updateNodeContent, hf, failOf]
  | some r =>
    rw [failed_content_update_commitHistory today today id newName newCommit s r hf]
    exact ledgerValue_track_back today id _ _ _ n d

/-- C19, as the claim states it for every pair of days, fails: the compensation books the
inverse change on the day on which it runs (`getTodayDateString()` inside
`trackCommitChange`).  Commit 5 set to 8 on 2025-01-01 and compensated on 2025-01-02 leaves
+3 on the first day and -3 on the second, where the ledger read 0 and 0 before. -/
theorem C19_counterexample :
    ledgerValue commitFiveState.commitHistory "a" "2025-01-01" = some 0 ∧
      ledgerValue commitFiveState.commitHistory "a" "2025-01-02" = some 0 ∧
      ledgerValue (failOf (updateNodeContent "2025-01-01" "a" "n" 8 commitFiveState).2
          "2025-01-02"
          (updateNodeContent "2025-01-01" "a" "n" 8 commitFiveState).1).commitHistory
          "a" "2025-01-01" = some 3 ∧
      ledgerValue (failOf (updateNodeContent "2025-01-01" "a" "n" 8 commitFiveState).2
          "2025-01-02"
          (updateNodeContent "2025-01-01" "a" "n" 8 commitFiveState).1).commitHistory
          "a" "2025-01-02" = some (-3) := by
  have hf : findNode "a" commitFiveState = some 0 := by decide
  have hc : (commitFiveState.heap 0).commit = 5 := by decide
  have hm : commitFiveState.commitHistory = Stored.missing := by decide
  have hd : ("2025-01-01" : String) ≠ "2025-01-02" := by decide
  rw [failed_content_update_commitHistory "2025-01-01" "2025-01-02" "a" "n" 8 commitFiveState 0
    hf, hc, hm]
  refine ⟨rfl, rfl, ?_, ?_⟩
  · rw [ledgerValue_trackCommitChange_other "2025-01-02" "a" 8 5 _ "a" "2025-01-01"
        (Or.inr hd),
      ledgerValue_trackCommitChange_self "2025-01-01" "a" 5 8 _ (by decide)]
    simp only [ledgerValue, Option.map_some', Option.some.injEq]
    norm_num
  · rw [ledgerValue_trackCommitChange_self "2025-01-02" "a" 8 5 _
        (trackCommitChange_ne_corrupt _ _ _ _ _ (by decide)),
      ledgerValue_trackCommitChange_other "2025-01-01" "a" 5 8 _ "a" "2025-01-02"
        (Or.inr hd.symm)]
    simp only [ledgerValue, Option.map_some', Option.some.injEq]
    norm_num

/-- C20, amended: `trackCommitChange` is total (it never throws).  When the stored item is
absent, recording a non-zero change for a node today leaves an item that parses and reads
that change for the node and today.  When the stored item does not parse, the `catch` of
line 26 only logs: the item is left as it is, not reset. -/
theorem C20_missing_or_corrupt_ledger (today : String) (nodeId : NodeId) (o c : Num)
    (hd : c - o ≠ 0) :
    (∃ history, trackCommitChange today nodeId o c Stored.missing = Stored.valid history) ∧
      ledgerValue (trackCommitChange today nodeId o c Stored.missing) nodeId today
        = some (c - o) ∧
      trackCommitChange today nodeId o c Stored.corrupt = Stored.corrupt := by
  refine ⟨?_, ?_, ?_⟩
  · exact ⟨recordChange today nodeId (c - o) [], by simp [trackCommitChange, hd]⟩
  · rw [ledgerValue_trackCommitChange_self today nodeId o c _ (by decide)]
    simp [ledgerValue]
  · simp [trackCommitChange, hd]

theorem C20_missing_or_corrupt_ledger_witness :
    (1 : Num) - 0 ≠ 0 ∧
      ledgerValue (trackCommitChange "2025-01-01" "a" 0 1 Stored.missing) "a" "2025-01-01"
        = some ((1 : Num) - 0) :=
  ⟨by norm_num, (C20_missing_or_corrupt_ledger "2025-01-01" "a" 0 1 (by norm_num)).2.1⟩

/-- C20, as the claim states it, fails for data that cannot be parsed: after recording the
change 1 for node `a`, the stored item is still the unparseable one, so it is not a valid
ledger and no value can be read from it. -/
theorem C20_counterexample :
    trackCommitChange "2025-01-01" "a" 0 1 Stored.corrupt = Stored.corrupt ∧
      ledgerValue (trackCommitChange "2025-01-01" "a" 0 1 Stored.corrupt) "a" "2025-01-01"
        ≠ some 1 := by
  have h : trackCommitChange "2025-01-01" "a" 0 1 Stored.corrupt = Stored.corrupt := by
    simp [trackCommitChange]
  refine ⟨h, ?_⟩
  rw [h]
  simp [ledgerValue]

/-! ## state.js: the link weights -/

theorem weightsValid_iff (s : State) :
    s.WeightsValid ↔ ∀ r ∈ s.nodes, (s.heap r).WeightsOk := by
  unfold State.WeightsValid State.collection
  constructor
  · intro h r hr
    exact h _ (List.mem_map_of_mem _ hr)
  · intro h n hn
    rw [List.mem_map] at hn
    obtain ⟨r, hr, rfl⟩ := hn
    exact h r hr

theorem mem_set_weight {o : JsObj Num} {k : String} {w : Num} {e : String × Num}
    (he : e ∈ JsObj.set o k w) : e ∈ o ∨ e.2 = w := by
  induction o with
  | nil =>
    simp only [JsObj.set, List.mem_singleton] at he
    right
    rw [he]
  | cons a o ih =>
    simp only [JsObj.set] at he
    by_cases hk : a.1 = k
    · rw [if_pos hk] at he
      rcases List.mem_cons.mp he with h | h
      · right
        rw [h]
      · left
        exact List.mem_cons_of_mem _ h
    · rw [if_neg hk] at he
      rcases List.mem_cons.mp he with h | h
      · left
        rw [h]
        exact List.mem_cons_self _ _
      · rcases ih h with h2 | h2
        · left
          exact List.mem_cons_of_mem _ h2
        · right
          exact h2

theorem weightsOk_set (n : Node) (k : String) (w : Num) (hn : n.WeightsOk)
    (hw : w = 1 ∨ w = 2 ∨ w = 3) :
    Node.WeightsOk { n with links := JsObj.set n.links k w } := by
  intro e he
  rcases mem_set_weight he with h | h
  · exact hn e h
  · rw [h]
    exact hw

theorem weightsOk_del (n : Node) (k : String) (hn : n.WeightsOk) :
    Node.WeightsOk { n with links := JsObj.del n.links k } := by
  intro e he
  exact hn e (List.mem_filter.mp he).1

theorem weightsOk_stripLink (id : NodeId) (n : Node) (hn : n.WeightsOk) :
    (stripLink id n).WeightsOk := by
  unfold stripLink
  split
  · exact weightsOk_del n id hn
  · exact hn

theorem forEachNode_pointwise (P : Node → Prop) (f : Node → Node)
    (hf : ∀ n, P n → P (f n)) (refs : List Ref) (heap : Ref → Node) (r : Ref)
    (h : P (heap r)) : P (forEachNode refs f heap r) := by
  induction refs generalizing heap with
  | nil => exact h
  | cons a refs ih =>
    have hstep : forEachNode (a :: refs) f heap
        = forEachNode refs f (Function.update heap a (f (heap a))) := rfl
    rw [hstep]
    apply ih
    by_cases hra : r = a
    · subst hra
      rw [Function.update_same]
      exact hf _ h
    · rw [Function.update_noteq hra]
      exact h

theorem weightsOk_newNodeOf (now : ℕ) (x y : Num) : (newNodeOf now x y).WeightsOk := by
  intro e he
  simp [newNodeOf] at he

theorem restoreLink_weights (s : State) (link : RelatedLink)
    (hw : link.weight = 1 ∨ link.weight = 2 ∨ link.weight = 3)
    (h : ∀ r ∈ s.nodes, (s.heap r).WeightsOk) :
    (restoreLink s link).nodes = s.nodes ∧
      ∀ r ∈ s.nodes, ((restoreLink s link).heap r).WeightsOk := by
  unfold restoreLink
  cases hf : findNode link.sourceId s with
  | none => exact ⟨rfl, h⟩
  | some r1 =>
    refine ⟨rfl, ?_⟩
    intro r hr
    simp only [State.modify]
    by_cases hrr : r = r1
    · subst hrr
      rw [Function.update_same]
      exact weightsOk_set _ _ _ (h r hr) hw
    · rw [Function.update_noteq hrr]
      exact h r hr

theorem foldl_restoreLink_weights (L : List RelatedLink) (s : State)
    (hw : ∀ l ∈ L, l.weight = 1 ∨ l.weight = 2 ∨ l.weight = 3)
    (h : ∀ r ∈ s.nodes, (s.heap r).WeightsOk) :
    (L.foldl restoreLink s).nodes = s.nodes ∧
      ∀ r ∈ s.nodes, ((L.foldl restoreLink s).heap r).WeightsOk := by
  induction L generalizing s with
  | nil => exact ⟨rfl, h⟩
  | cons l L ih =>
    rw [List.foldl_cons]
    obtain ⟨hn1, hh1⟩ := restoreLink_weights s l (hw l (List.mem_cons_self _ _)) h
    have := ih (restoreLink s l) (fun x hx => hw x (List.mem_cons_of_mem _ hx))
      (by rw [hn1]; exact hh1)
    rw [hn1] at this
    exact this

theorem collectRelatedLinks_weights (id : NodeId) (C : List Node)
    (h : ∀ n ∈ C, n.WeightsOk) :
    ∀ l ∈ collectRelatedLinks id C, l.weight = 1 ∨ l.weight = 2 ∨ l.weight = 3 := by
  intro l hl
  rw [mem_collectRelatedLinks] at hl
  obtain ⟨c, hc, ht, rfl⟩ := hl
  cases hg : JsObj.get c.links id with
  | none => rw [hg] at ht; simp [truthy] at ht
  | some w =>
    simp only [Option.getD_some]
    exact h c hc _ (JsObj.get_eq_some_mem _ _ _ hg)

theorem weightsValid_congr {s t : State} (hh : t.heap = s.heap) (hn : t.nodes = s.nodes)
    (hv : s.WeightsValid) : t.WeightsValid := by
  rw [weightsValid_iff] at hv ⊢
  rw [hh, hn]
  exact hv

theorem weightsValid_modify (s : State) (r : Ref) (f : Node → Node) (hv : s.WeightsValid)
    (hf : (s.heap r).WeightsOk → (f (s.heap r)).WeightsOk) : (s.modify r f).WeightsValid := by
  rw [weightsValid_iff] at hv ⊢
  intro r2 hr2
  simp only [State.modify]
  by_cases h : r2 = r
  · subst h
    rw [Function.update_same]
    exact hf (hv r2 hr2)
  · rw [Function.update_noteq h]
    exact hv r2 hr2

theorem addNode_weightsValid (s : State) (now : ℕ) (x y : Num) (hv : s.WeightsValid) :
    (addNode now x y s).1.WeightsValid := by
  rw [weightsValid_iff] at hv ⊢
  intro r hr
  rw [addNode_nodes, List.mem_append] at hr
  by_cases h : r = s.next
  · subst h
    rw [addNode_heap_next_eq]
    exact weightsOk_newNodeOf now x y
  · rw [addNode_heap_of_ne now x y s r h]
    rcases hr with hr | hr
    · exact hv r hr
    · simp only [List.mem_singleton] at hr
      exact absurd hr h

theorem onFailure_addNode_weightsValid (tempId : NodeId) (today : String) (t : State)
    (hv : t.WeightsValid) : ((Pending.addNode tempId).onFailure today t).WeightsValid := by
  unfold State.WeightsValid at hv ⊢
  rw [onFailure_addNode_collection]
  intro n hn
  rw [List.mem_map] at hn
  obtain ⟨r, hr, rfl⟩ := hn
  exact hv _ (List.mem_map_of_mem _ (List.mem_filter.mp hr).1)

theorem onSuccess_addNode_weightsValid (tempId : NodeId) (saved : Node) (t : State)
    (hv : t.WeightsValid) (hs : saved.WeightsOk) :
    ((Pending.addNode tempId).onSuccess saved t).WeightsValid := by
  cases hf : findNode tempId t with
  | none =>
    rw [onSuccess_addNode_of_not_find tempId saved t hf]
    exact hv
  | some r =>
    obtain ⟨hheap, hnodes, _⟩ := onSuccess_addNode_of_find tempId saved t r hf
    have hm : (t.modify r (fun n => objectAssign n saved)).WeightsValid :=
      weightsValid_modify t r _ hv (fun _ => hs)
    exact weightsValid_congr (s := t.modify r (fun n => objectAssign n saved)) hheap hnodes hm

theorem deleteNode_heap_weights (id : NodeId) (s : State) (hv : s.WeightsValid)
    (h : s.nodes.findIdx (fun r => (s.heap r).id == id) < s.nodes.length) (r : Ref)
    (hr : r ∈ s.nodes ∨ r = s.next) :
    ((deleteNode true id s).1.heap r).WeightsOk := by
  rw [weightsValid_iff] at hv
  rw [deleteNode_of_lt id s h]
  simp only [publish_heap, deselectNode]
  apply forEachNode_pointwise Node.WeightsOk (stripLink id) (weightsOk_stripLink id)
  by_cases hn : r = s.next
  · subst hn
    rw [Function.update_same]
    exact hv _ (List.getElem_mem h)
  · rw [Function.update_noteq hn]
    rcases hr with hr | hr
    · exact hv r hr
    · exact absurd hr hn

theorem deleteNode_weightsValid (confirmed : Bool) (id : NodeId) (s : State)
    (hv : s.WeightsValid) : (deleteNode confirmed id s).1.WeightsValid := by
  cases confirmed with
  | false =>
    have : deleteNode false id s = (s, none) := by simp [deleteNode]
    rw [this]
    exact hv
  | true =>
    by_cases h : s.nodes.findIdx (fun r => (s.heap r).id == id) < s.nodes.length
    · rw [weightsValid_iff]
      intro r hr
      rw [deleteNode_nodes id s h] at hr
      exact deleteNode_heap_weights id s hv h r
        (Or.inl ((List.eraseIdx_sublist _ _).subset hr))
    · rw [deleteNode_of_not_lt id s h]
      exact hv

theorem deleteNode_fail_weightsValid (confirmed : Bool) (id : NodeId) (s : State)
    (today : String) (hv : s.WeightsValid) :
    (failOf (deleteNode confirmed id s).2 today (deleteNode confirmed id s).1).WeightsValid := by
  cases confirmed with
  | false =>
    have : deleteNode false id s = (s, none) := by simp [deleteNode]
    rw [this]
    exact hv
  | true =>
    by_cases h : s.nodes.findIdx (fun r => (s.heap r).id == id) < s.nodes.length
    · have hheap := deleteNode_heap_weights id s hv h
      have hnodes := deleteNode_nodes id s h
      have hL : ∀ l ∈ collectRelatedLinks id (s.nodes.map
            (Function.update s.heap s.next
              (s.heap (s.nodes[s.nodes.findIdx (fun r => (s.heap r).id == id)])))),
          l.weight = 1 ∨ l.weight = 2 ∨ l.weight = 3 := by
        apply collectRelatedLinks_weights
        intro n hn
        rw [List.mem_map] at hn
        obtain ⟨r, hr, rfl⟩ := hn
        rw [weightsValid_iff] at hv
        by_cases hne : r = s.next
        · subst hne
          rw [Function.update_same]
          exact hv _ (List.getElem_mem h)
        · rw [Function.update_noteq hne]
          exact hv r hr
      have hp : (deleteNode true id s).2
          = some (Pending.deleteNode id s.next (s.nodes.findIdx (fun r => (s.heap r).id == id))
              (collectRelatedLinks id (s.nodes.map
                (Function.update s.heap s.next
                  (s.heap (s.nodes[s.nodes.findIdx (fun r => (s.heap r).id == id)])))))) := by
        rw [deleteNode_of_lt id s h]
      rw [hp]
      simp only [failOf]
      unfold State.WeightsValid
      rw [onFailure_deleteNode]
      have hstart : ∀ r ∈ (deleteNode true id s).1.nodes.take
            (s.nodes.findIdx (fun r => (s.heap r).id == id))
            ++ s.next :: (deleteNode true id s).1.nodes.drop
              (s.nodes.findIdx (fun r => (s.heap r).id == id)),
          ((deleteNode true id s).1.heap r).WeightsOk := by
        intro r hr
        apply hheap
        rw [List.mem_append, List.mem_cons] at hr
        rcases hr with hr | hr | hr
        · left
          have := List.mem_of_mem_take hr
          rw [hnodes] at this
          exact (List.eraseIdx_sublist _ _).subset this
        · right
          exact hr
        · left
          have := List.mem_of_mem_drop hr
          rw [hnodes] at this
          exact (List.eraseIdx_sublist _ _).subset this
      obtain ⟨hn2, hh2⟩ := foldl_restoreLink_weights _
        { (deleteNode true id s).1 with
          nodes := (deleteNode true id s).1.nodes.take
              (s.nodes.findIdx (fun r => (s.heap r).id == id))
            ++ s.next :: (deleteNode true id s).1.nodes.drop
              (s.nodes.findIdx (fun r => (s.heap r).id == id)) } hL hstart
      intro n hn
      unfold State.collection at hn
      rw [hn2, List.mem_map] at hn
      obtain ⟨r, hr, rfl⟩ := hn
      exact hh2 r hr
    · rw [deleteNode_of_not_lt id s h]
      exact hv

theorem updateNodeContent_weightsValid (today : String) (id : NodeId) (newName : String)
    (newCommit : Num) (s : State) (hv : s.WeightsValid) :
    (updateNodeContent today id newName newCommit s).1.WeightsValid := by
  cases hf : findNode id s with
  | none =>
    simp only [updateNodeContent, hf]
    exact hv
  | some r =>
    obtain ⟨hheap, hnodes, _, _⟩ := updateNodeContent_of_find today id newName newCommit s r hf
    exact weightsValid_congr
      (s := s.modify r (fun n => { n with name := newName, commit := newCommit })) hheap hnodes
      (weightsValid_modify s r _ hv (fun h => h))

theorem updateNodeColor_weightsValid (id : NodeId) (newColor : String) (s : State)
    (hv : s.WeightsValid) : (updateNodeColor id newColor s).1.WeightsValid := by
  unfold updateNodeColor
  cases hf : findNode id s with
  | none => exact hv
  | some r =>
    exact weightsValid_congr (s := s.modify r (fun n => { n with color := some newColor }))
      rfl rfl (weightsValid_modify s r _ hv (fun h => h))

theorem toggleNodeStar_weightsValid (id : NodeId) (s : State) (hv : s.WeightsValid) :
    (toggleNodeStar id s).1.WeightsValid := by
  unfold toggleNodeStar
  cases hf : findNode id s with
  | none => exact hv
  | some r =>
    exact weightsValid_congr
      (s := s.modify r (fun n =>
        { n with starred := some (!((s.heap r).starred.getD false)) }))
      rfl rfl (weightsValid_modify s r _ hv (fun h => h))

theorem toggleNodeAcute_weightsValid (id : NodeId) (s : State) (hv : s.WeightsValid) :
    (toggleNodeAcute id s).1.WeightsValid := by
  unfold toggleNodeAcute
  cases hf : findNode id s with
  | none => exact hv
  | some r =>
    exact weightsValid_congr
      (s := s.modify r (fun n => { n with acute := some (!((s.heap r).acute.getD false)) }))
      rfl rfl (weightsValid_modify s r _ hv (fun h => h))

theorem updateNodePosition_weightsValid (id : NodeId) (x y : Num) (s : State)
    (hv : s.WeightsValid) : (updateNodePosition id x y s).WeightsValid := by
  unfold updateNodePosition
  cases hf : findNode id s with
  | none => exact hv
  | some r =>
    exact weightsValid_congr (s := s.modify r (fun n => { n with x := x, y := y }))
      rfl rfl (weightsValid_modify s r _ hv (fun h => h))

theorem updateLink_weightsValid (sourceId targetId : NodeId) (weight : Option Num)
    (s : State) (hv : s.WeightsValid)
    (hw : ∀ w, weight = some w → w = 1 ∨ w = 2 ∨ w = 3) :
    (updateLink sourceId targetId weight s).1.WeightsValid := by
  cases hf : findNode sourceId s with
  | none =>
    simp only [updateLink, hf]
    exact hv
  | some r =>
    cases weight with
    | none =>
      rw [updateLink_of_find sourceId targetId none s r hf]
      exact weightsValid_congr
        (s := s.modify r (fun n => { n with links := JsObj.del (s.heap r).links targetId }))
        rfl rfl (weightsValid_modify s r _ hv (fun h => weightsOk_del _ _ h))
    | some w =>
      rw [updateLink_of_find sourceId targetId (some w) s r hf]
      exact weightsValid_congr
        (s := s.modify r (fun n => { n with links := JsObj.set (s.heap r).links targetId w }))
        rfl rfl (weightsValid_modify s r _ hv (fun h => weightsOk_set _ _ _ h (hw w rfl)))

theorem updateLink_pending_isSome (sourceId targetId : NodeId) (weight : Option Num)
    (s : State) (r : Ref) (h : findNode sourceId s = some r) :
    (updateLink sourceId targetId weight s).2.isSome = true := by
  simp [updateLink, h]

/-- C14, amended: when every link weight of the collection is 1, 2 or 3, this still holds
after the synchronous part of every operation and after the compensation (or, for
`addNode`, the confirmation with a response whose weights are 1, 2, 3) run next, provided
that `updateLink` is called with null or with a weight that is 1, 2 or 3.  `updateLink`
itself checks nothing: called with any weight `w` for a node of the collection it stores
`w` and issues the remote call. -/
theorem C14_weights_preserved (s : State) (today : String) (hv : s.WeightsValid) :
    (∀ (now : ℕ) (x y : Num),
      (addNode now x y s).1.WeightsValid ∧
      (failOf (addNode now x y s).2 today (addNode now x y s).1).WeightsValid ∧
      ∀ saved : Node, saved.WeightsOk →
        (succeedOf (addNode now x y s).2 saved (addNode now x y s).1).WeightsValid) ∧
    (∀ (confirmed : Bool) (id : NodeId),
      (deleteNode confirmed id s).1.WeightsValid ∧
      (failOf (deleteNode confirmed id s).2 today (deleteNode confirmed id s).1).WeightsValid) ∧
    (∀ (today0 : String) (id : NodeId) (newName : String) (newCommit : Num),
      (updateNodeContent today0 id newName newCommit s).1.WeightsValid ∧
      (failOf (updateNodeContent today0 id newName newCommit s).2 today
        (updateNodeContent today0 id newName newCommit s).1).WeightsValid) ∧
    (∀ (id : NodeId) (newColor : String),
      (updateNodeColor id newColor s).1.WeightsValid ∧
      (failOf (updateNodeColor id newColor s).2 today
        (updateNodeColor id newColor s).1).WeightsValid) ∧
    (∀ id : NodeId,
      (toggleNodeStar id s).1.WeightsValid ∧
      (failOf (toggleNodeStar id s).2 today (toggleNodeStar id s).1).WeightsValid) ∧
    (∀ id : NodeId,
      (toggleNodeAcute id s).1.WeightsValid ∧
      (failOf (toggleNodeAcute id s).2 today (toggleNodeAcute id s).1).WeightsValid) ∧
    (∀ (id : NodeId) (x y : Num), (updateNodePosition id x y s).WeightsValid) ∧
    (∀ (sourceId targetId : NodeId) (weight : Option Num),
      (∀ w, weight = some w → w = 1 ∨ w = 2 ∨ w = 3) →
      (updateLink sourceId targetId weight s).1.WeightsValid ∧
      (failOf (updateLink sourceId targetId weight s).2 today
        (updateLink sourceId targetId weight s).1).WeightsValid) ∧
    (∀ (sourceId targetId : NodeId) (w : Num), (∃ n ∈ s.collection, n.id = sourceId) →
      (updateLink sourceId targetId (some w) s).2.isSome = true ∧
      ∃ r, findNode sourceId s = some r ∧
        JsObj.get ((updateLink sourceId targetId (some w) s).1.heap r).links targetId
          = some w) := by
  refine ⟨?_, ?_, ?_, ?_, ?_, ?_, ?_, ?_, ?_⟩
  · intro now x y
    have h1 := addNode_weightsValid s now x y hv
    refine ⟨h1, ?_, ?_⟩
    · rw [addNode_pending]
      exact onFailure_addNode_weightsValid _ today _ h1
    · intro saved hs
      rw [addNode_pending]
      exact onSuccess_addNode_weightsValid _ saved _ h1 hs
  · intro confirmed id
    exact ⟨deleteNode_weightsValid confirmed id s hv,
      deleteNode_fail_weightsValid confirmed id s today hv⟩
  · intro today0 id newName newCommit
    obtain ⟨h1, h2⟩ := updateNodeContent_rollback s today0 today id newName newCommit
    exact ⟨updateNodeContent_weightsValid today0 id newName newCommit s hv,
      weightsValid_congr h1 h2 hv⟩
  · intro id newColor
    obtain ⟨h1, h2⟩ := updateNodeColor_rollback s today id newColor
    exact ⟨updateNodeColor_weightsValid id newColor s hv, weightsValid_congr h1 h2 hv⟩
  · intro id
    obtain ⟨h1, h2⟩ := toggleNodeStar_rollback s today id
    exact ⟨toggleNodeStar_weightsValid id s hv, weightsValid_congr h1 h2 hv⟩
  · intro id
    obtain ⟨h1, h2⟩ := toggleNodeAcute_rollback s today id
    exact ⟨toggleNodeAcute_weightsValid id s hv, weightsValid_congr h1 h2 hv⟩
  · intro id x y
    exact updateNodePosition_weightsValid id x y s hv
  · intro sourceId targetId weight hw
    obtain ⟨h1, h2⟩ := updateLink_rollback s today sourceId targetId weight
    exact ⟨updateLink_weightsValid sourceId targetId weight s hv hw,
      weightsValid_congr h1 h2 hv⟩
  · intro sourceId targetId w hin
    obtain ⟨r, hf⟩ := findNode_of_mem_collection sourceId s hin
    refine ⟨updateLink_pending_isSome sourceId targetId (some w) s r hf, r, hf, ?_⟩
    rw [updateLink_heap_self sourceId targetId (some w) s r hf]
    exact JsObj.get_set_self _ _ _

theorem C14_weights_preserved_witness :
    sampleState.WeightsValid ∧
      (∀ w : Num, some (3 : Num) = some w → w = 1 ∨ w = 2 ∨ w = 3) ∧
      (updateLink "a" "b" (some 3) sampleState).1.WeightsValid ∧
      (deleteNode true "b" sampleState).1.WeightsValid :=
  ⟨by decide, by intro w h; right; right; exact (Option.some.inj h).symm,
    ((C14_weights_preserved sampleState "2025-01-01" (by decide)).2.2.2.2.2.2.2.1
      "a" "b" (some 3) (by intro w h; right; right; exact (Option.some.inj h).symm)).1,
    ((C14_weights_preserved sampleState "2025-01-01" (by decide)).2.1 true "b").1⟩

/-- C14, as the claim states it, fails: `updateLink` has no check of the weight.  Called
with weight 7 on a collection whose weights are all 1, 2 or 3, it stores 7 and issues the
remote call. -/
theorem C14_counterexample :
    sampleState.WeightsValid ∧
      (updateLink "a" "b" (some 7) sampleState).2.isSome = true ∧
      (updateLink "a" "b" (some 7) sampleState).1.collection.map (fun n => (n.id, n.links))
        = [("a", [("b", 7)]), ("b", [])] ∧
      ¬ (updateLink "a" "b" (some 7) sampleState).1.WeightsValid := by
  decide

/-! ## state.js: `setNodes` -/

theorem allocAll_cons (o : Node) (objs : List Node) (heap : Ref → Node) (next : Ref) :
    allocAll (o :: objs) heap next = allocAll objs (Function.update heap next o) (next + 1) :=
  rfl

theorem allocAll_of_lt (objs : List Node) (heap : Ref → Node) (next r : Ref)
    (h : r < next) : allocAll objs heap next r = heap r := by
  induction objs generalizing heap next with
  | nil => rfl
  | cons o objs ih =>
    rw [allocAll_cons, ih _ _ (Nat.lt_succ_of_lt h)]
    exact Function.update_noteq (Nat.ne_of_lt h) _ _

theorem map_allocAll (objs : List Node) (heap : Ref → Node) (next : Ref) :
    (List.range' next objs.length).map (allocAll objs heap next) = objs := by
  induction objs generalizing heap next with
  | nil => rfl
  | cons o objs ih =>
    rw [List.length_cons, List.range'_succ, List.map_cons, allocAll_cons, ih,
      allocAll_of_lt _ _ _ _ (Nat.lt_succ_self next), Function.update_same]

/-- The collection after `setNodes(newNodes)`: the objects passed, in their order, with the
defaults filled in. -/
theorem setNodes_collection (newNodes : List Node) (s : State) :
    (setNodes newNodes s).collection = newNodes.map fillDefaults := by
  have h := map_allocAll (newNodes.map fillDefaults) s.heap s.next
  rw [List.length_map] at h
  exact h

/-- C24: `setNodes(ns)` makes the collection the list `ns` in the same order with the
defaults filled in: a node lacking color, starred, acute or activation gets black, false,
false and 0, a field that is present keeps its value, and the other fields are untouched;
the selection is unchanged and exactly one event, a `stateChange`, is published. -/
theorem C24_setNodes_hydrates (ns : List Node) (s : State) :
    (setNodes ns s).collection = ns.map fillDefaults ∧
      (∀ n : Node,
        (fillDefaults n).color = some (n.color.getD "#000000") ∧
        (fillDefaults n).starred = some (n.starred.getD false) ∧
        (fillDefaults n).acute = some (n.acute.getD false) ∧
        (fillDefaults n).activation = some (n.activation.getD 0) ∧
        (∀ c, (fillDefaults { n with color := some c }).color = some c) ∧
        (∀ b, (fillDefaults { n with starred := some b }).starred = some b) ∧
        (∀ b, (fillDefaults { n with acute := some b }).acute = some b) ∧
        (∀ a, (fillDefaults { n with activation := some a }).activation = some a) ∧
        (fillDefaults n).id = n.id ∧ (fillDefaults n).name = n.name ∧
        (fillDefaults n).commit = n.commit ∧ (fillDefaults n).x = n.x ∧
        (fillDefaults n).y = n.y ∧ (fillDefaults n).links = n.links ∧
        (fillDefaults n).ownerId = n.ownerId) ∧
      (setNodes ns s).selectedNodeId = s.selectedNodeId ∧
      (setNodes ns s).events = s.events ++ [Event.stateChange] := by
  refine ⟨setNodes_collection ns s, ?_, rfl, rfl⟩
  intro n
  exact ⟨rfl, rfl, rfl, rfl, fun _ => rfl, fun _ => rfl, fun _ => rfl, fun _ => rfl,
    rfl, rfl, rfl, rfl, rfl, rfl, rfl⟩

/-! ## state.js: `updateNodePosition` and the batched save -/

theorem updateNodePosition_of_find (id : NodeId) (x y : Num) (s : State) (r : Ref)
    (h : findNode id s = some r) :
    updateNodePosition id x y s
      = saveNodePositions (publish Event.stateChange
          (s.modify r (fun n => { n with x := x, y := y }))) := by
  simp only [updateNodePosition, h]

/-- C25: `updateNodePosition(id, x, y)` on a node of the collection writes `x` and `y` of
that node object and nothing else: the other fields of the node, the other objects, the
array, the selection and the ledger are as before, and one `stateChange` is published.  When
the batched save fails, in whatever state it finds the store, no object, array, selection or
ledger entry changes and the only event published is the `showError`. -/
theorem C25_position_update_never_rolled_back (id : NodeId) (x y : Num) (s : State) (r : Ref)
    (h : findNode id s = some r) :
    (updateNodePosition id x y s).heap r = { s.heap r with x := x, y := y } ∧
      (∀ q, q ≠ r → (updateNodePosition id x y s).heap q = s.heap q) ∧
      (updateNodePosition id x y s).nodes = s.nodes ∧
      (updateNodePosition id x y s).selectedNodeId = s.selectedNodeId ∧
      (updateNodePosition id x y s).commitHistory = s.commitHistory ∧
      (updateNodePosition id x y s).events = s.events ++ [Event.stateChange] ∧
      (∀ u : State,
        (debouncedSaveDone false u).heap = u.heap ∧
        (debouncedSaveDone false u).nodes = u.nodes ∧
        (debouncedSaveDone false u).collection = u.collection ∧
        (debouncedSaveDone false u).selectedNodeId = u.selectedNodeId ∧
        (debouncedSaveDone false u).commitHistory = u.commitHistory ∧
        (debouncedSaveDone false u).events
          = u.events ++ [Event.showError "Failed to save node positions."]) := by
  rw [updateNodePosition_of_find id x y s r h]
  refine ⟨?_, ?_, rfl, rfl, rfl, rfl, ?_⟩
  · simp [saveNodePositions, publish, State.modify]
  · intro q hq
    simp [saveNodePositions, publish, State.modify, Function.update_noteq hq]
  · intro u
    exact ⟨rfl, rfl, rfl, rfl, rfl, rfl⟩

/-- The theorem of C25 on node `a` of the sample store. -/
theorem C25_position_update_never_rolled_back_witness :
    findNode "a" sampleState = some 0 ∧
      (updateNodePosition "a" 3 4 sampleState).heap 0
        = { sampleState.heap 0 with x := 3, y := 4 } ∧
      (updateNodePosition "a" 3 4 sampleState).events
        = sampleState.events ++ [Event.stateChange] :=
  ⟨by decide,
    (C25_position_update_never_rolled_back "a" 3 4 sampleState 0 (by decide)).1,
    (C25_position_update_never_rolled_back "a" 3 4 sampleState 0 (by decide)).2.2.2.2.2.1⟩

/-! ## state.js: the order of a compensation -/

theorem restoreLink_events (s : State) (link : RelatedLink) :
    (restoreLink s link).events = s.events := by
  unfold restoreLink
  cases findNode link.sourceId s with
  | none => rfl
  | some r => rfl

theorem foldl_restoreLink_events (L : List RelatedLink) (s : State) :
    (L.foldl restoreLink s).events = s.events := by
  induction L generalizing s with
  | nil => rfl
  | cons l L ih => rw [List.foldl_cons, ih, restoreLink_events]

/-! ## state.js: operations on an absent id -/

theorem findNode_eq_none_of_absent (id : NodeId) (s : State)
    (habs : ∀ n ∈ s.collection, n.id ≠ id) : findNode id s = none := by
  cases hf : findNode id s with
  | none => rfl
  | some r =>
    exfalso
    obtain ⟨hr, hid⟩ := findNode_some hf
    exact habs (s.heap r) (List.mem_map_of_mem _ hr) hid

theorem findIdx_not_lt_of_absent (id : NodeId) (s : State)
    (habs : ∀ n ∈ s.collection, n.id ≠ id) :
    ¬ s.nodes.findIdx (fun r => (s.heap r).id == id) < s.nodes.length := by
  intro h
  have hp := List.findIdx_getElem (w := h)
  have hid : (s.heap s.nodes[s.nodes.findIdx (fun r => (s.heap r).id == id)]).id = id := by
    simpa using hp
  exact habs _ (List.mem_map_of_mem _ (List.getElem_mem h)) hid

/-- C27: on an id that no node of the collection has, `updateNodeContent`,
`updateNodeColor`, `toggleNodeStar`, `toggleNodeAcute`, `updateLink` (absent source) and
`deleteNode` return at their guard: the store is the one before, with its collection,
selection, ledger and event log (no `showError`, no `stateChange`), and no remote call is
issued; `updateNodePosition` and the confirmation of an `addNode` whose temporary node is
gone leave the store as it is too. -/
theorem C27_absent_id_is_noop (id : NodeId) (s : State)
    (habs : ∀ n ∈ s.collection, n.id ≠ id) :
    (∀ today name commit, updateNodeContent today id name commit s = (s, none)) ∧
      (∀ color, updateNodeColor id color s = (s, none)) ∧
      toggleNodeStar id s = (s, none) ∧
      toggleNodeAcute id s = (s, none) ∧
      (∀ target weight, updateLink id target weight s = (s, none)) ∧
      (∀ x y, updateNodePosition id x y s = s) ∧
      (∀ confirmed, deleteNode confirmed id s = (s, none)) ∧
      (∀ saved, (Pending.addNode id).onSuccess saved s = s) := by
  have hf := findNode_eq_none_of_absent id s habs
  refine ⟨?_, ?_, ?_, ?_, ?_, ?_, ?_, ?_⟩
  · intro today name commit
    simp only [updateNodeContent, hf]
  · intro color
    simp only [updateNodeColor, hf]
  · simp only [toggleNodeStar, hf]
  · simp only [toggleNodeAcute, hf]
  · intro target weight
    simp only [updateLink, hf]
  · intro x y
    simp only [updateNodePosition, hf]
  · intro confirmed
    cases confirmed with
    | false => simp [deleteNode]
    | true => exact deleteNode_of_not_lt id s (findIdx_not_lt_of_absent id s habs)
  · intro saved
    exact onSuccess_addNode_of_not_find id saved s hf

/-- The theorem of C27 on the sample store and the id `zz`. -/
theorem C27_absent_id_is_noop_witness :
    (∀ n ∈ sampleState.collection, n.id ≠ "zz") ∧
      toggleNodeStar "zz" sampleState = (sampleState, none) ∧
      (∀ confirmed, deleteNode confirmed "zz" sampleState = (sampleState, none)) :=
  ⟨by decide, (C27_absent_id_is_noop "zz" sampleState (by decide)).2.2.1,
    (C27_absent_id_is_noop "zz" sampleState (by decide)).2.2.2.2.2.2.1⟩

/-! ## state.js: a compensation after the collection was replaced -/

/-- C28, evaluation: on the sample store the color of node `a` (black) is set to red, the
collection is replaced by the recomputed copy, and the remote call of the update fails.  The
compensation writes the captured object, which the collection no longer holds: node `a` of
the collection stays red. -/
theorem C28_compensation_misses_replaced_collection :
    sampleState.collection.map (fun n => (n.id, n.color))
        = [("a", some "#000000"), ("b", some "#000000")] ∧
      (failOf (updateNodeColor "a" "#ff0000" sampleState).2 "2024-01-01"
          (handleCalcActivationClick (updateNodeColor "a" "#ff0000" sampleState).1)).collection.map
          (fun n => (n.id, n.color))
        = [("a", some "#ff0000"), ("b", some "#000000")] := by
  decide

/-! ## state.js: two toggles in flight -/

theorem toggleNodeStar_of_find (id : NodeId) (s : State) (r : Ref)
    (h : findNode id s = some r) :
    toggleNodeStar id s
      = (publish Event.stateChange
          (s.modify r (fun n => { n with starred := some (!((s.heap r).starred.getD false)) })),
        some (Pending.toggleNodeStar id r (s.heap r).starred)) := by
  simp only [toggleNodeStar, h]

theorem findNode_toggleNodeStar (id : NodeId) (s : State) (r : Ref)
    (h : findNode id s = some r) : findNode id (toggleNodeStar id s).1 = some r := by
  rw [toggleNodeStar_of_find id s r h, ← h]
  unfold findNode
  apply find?_congr_of_forall
  intro r2 _
  by_cases hne : r2 = r
  · subst hne
    simp [publish, State.modify]
  · simp [publish, State.modify, Function.update_noteq hne]

/-- C30, counterexample: node `a` of the sample store is not starred; two toggles are
issued, both remote calls fail, and the compensation of the first runs before the
compensation of the second: the node ends starred. -/
theorem C30_counterexample :
    (sampleState.heap 0).id = "a" ∧ (sampleState.heap 0).starred = some false ∧
      findNode "a" sampleState = some 0 ∧
      ((failOf (toggleNodeStar "a" (toggleNodeStar "a" sampleState).1).2 "2024-01-01"
          (failOf (toggleNodeStar "a" sampleState).2 "2024-01-01"
            (toggleNodeStar "a" (toggleNodeStar "a" sampleState).1).1)).heap 0).starred
        = some true ∧
      ((failOf (toggleNodeStar "a" (toggleNodeStar "a" sampleState).1).2 "2024-01-01"
          (failOf (toggleNodeStar "a" sampleState).2 "2024-01-01"
            (toggleNodeStar "a" (toggleNodeStar "a" sampleState).1).1)).heap 0).starred
        ≠ (sampleState.heap 0).starred := by
  decide

/-- C30, amended: two `toggleNodeStar(id)` issued one after the other on node `r` capture
the value before the first toggle and its negation.  When both remote calls fail and the
compensation of the second toggle runs first, the store is back to the objects and array
before the first toggle; when the compensation of the first toggle runs first, the node
ends with the snapshot of the second toggle, the negation of the value before the first
toggle, its other fields and the other objects being as before the first toggle. -/
theorem C30_two_failed_toggles (id : NodeId) (s : State) (r : Ref) (d1 d2 : String)
    (h : findNode id s = some r) :
    (toggleNodeStar id s).2 = some (Pending.toggleNodeStar id r (s.heap r).starred) ∧
      (toggleNodeStar id (toggleNodeStar id s).1).2
        = some (Pending.toggleNodeStar id r (some (!((s.heap r).starred.getD false)))) ∧
      (failOf (toggleNodeStar id s).2 d1
          (failOf (toggleNodeStar id (toggleNodeStar id s).1).2 d2
            (toggleNodeStar id (toggleNodeStar id s).1).1)).heap = s.heap ∧
      (failOf (toggleNodeStar id s).2 d1
          (failOf (toggleNodeStar id (toggleNodeStar id s).1).2 d2
            (toggleNodeStar id (toggleNodeStar id s).1).1)).nodes = s.nodes ∧
      (failOf (toggleNodeStar id (toggleNodeStar id s).1).2 d2
          (failOf (toggleNodeStar id s).2 d1
            (toggleNodeStar id (toggleNodeStar id s).1).1)).heap
        = Function.update s.heap r
            { s.heap r with starred := some (!((s.heap r).starred.getD false)) } ∧
      (failOf (toggleNodeStar id (toggleNodeStar id s).1).2 d2
          (failOf (toggleNodeStar id s).2 d1
            (toggleNodeStar id (toggleNodeStar id s).1).1)).nodes = s.nodes := by
  have h2 := findNode_toggleNodeStar id s r h
  have e1 := toggleNodeStar_of_find id s r h
  have e2 := toggleNodeStar_of_find id (toggleNodeStar id s).1 r h2
  have hs1 : ((toggleNodeStar id s).1.heap r).starred
      = some (!((s.heap r).starred.getD false)) := by
    rw [e1]
    simp [publish, State.modify]
  rw [hs1] at e2
  refine ⟨by rw [e1], by rw [e2], ?_, ?_, ?_, ?_⟩
  · rw [e2]
    simp only [e1, failOf, Pending.onFailure, publish, State.modify, Function.update_same,
      Function.update_idem]
    exact Function.update_eq_self r s.heap
  · rw [e2]
    simp only [e1, failOf, Pending.onFailure, publish, State.modify]
  · rw [e2]
    simp only [e1, failOf, Pending.onFailure, publish, State.modify, Function.update_same,
      Function.update_idem]
  · rw [e2]
    simp only [e1, failOf, Pending.onFailure, publish, State.modify]

/-- The amended statement of C30 on node `a` of the sample store. -/
theorem C30_two_failed_toggles_witness :
    findNode "a" sampleState = some 0 ∧
      (failOf (toggleNodeStar "a" sampleState).2 "2024-01-01"
          (failOf (toggleNodeStar "a" (toggleNodeStar "a" sampleState).1).2 "2024-01-02"
            (toggleNodeStar "a" (toggleNodeStar "a" sampleState).1).1)).heap
        = sampleState.heap ∧
      (failOf (toggleNodeStar "a" (toggleNodeStar "a" sampleState).1).2 "2024-01-02"
          (failOf (toggleNodeStar "a" sampleState).2 "2024-01-01"
            (toggleNodeStar "a" (toggleNodeStar "a" sampleState).1).1)).heap
        = Function.update sampleState.heap 0
            { sampleState.heap 0 with
              starred := some (!((sampleState.heap 0).starred.getD false)) } :=
  ⟨by decide,
    (C30_two_failed_toggles "a" sampleState 0 "2024-01-01" "2024-01-02" (by decide)).2.2.1,
    (C30_two_failed_toggles "a" sampleState 0 "2024-01-01" "2024-01-02"
      (by decide)).2.2.2.2.1⟩

/-! ## activation.js: the order of the nodes -/

theorem zip_map_self {β : Type} (ns : List Node) (g : Node → β) :
    ns.zip (ns.map g) = ns.map (fun n => (n, g n)) := by
  induction ns with
  | nil => rfl
  | cons n ns ih => simp [ih]

theorem activationStep_map (ic : ℕ) (alpha : Num) (ns : List Node) (g : Node → Num) :
    activationStep ic alpha ns (ns.map g)
      = ns.map (fun n => g n + (ns.map (fun s => sentTo ic alpha ns s (g s) n.id)).sum
          + n.commit / ic) := by
  unfold activationStep incomingTo
  rw [zip_map_self, List.map_map]
  apply List.map_congr_left
  intro n _
  simp only [Function.comp_apply, List.map_map]
  rfl

/-- The vector after `k` rounds lists, node by node, the value `activationOf`. -/
theorem iterate_activationStep_eq (ic : ℕ) (alpha : Num) (ns : List Node) (k : ℕ) :
    (activationStep ic alpha ns)^[k] (ns.map (fun _ => (0 : Num)))
      = ns.map (activationOf ic alpha ns k) := by
  induction k with
  | zero => rfl
  | succ k ih =>
    rw [Function.iterate_succ_apply', ih, activationStep_map]
    rfl

theorem withActivations_map_self (ns : List Node) (g : Node → Num) :
    withActivations ns (ns.map g) = ns.map (fun n => { n with activation := some (g n) }) := by
  unfold withActivations
  induction ns with
  | nil => rfl
  | cons n ns ih => simp [ih]

/-- The result of `calculateAndPropagateActivation`, node by node. -/
theorem calculate_eq_map (ns : List Node) :
    calculateAndPropagateActivation ns
      = ns.map (fun n => { n with activation := some (activationOf 4 (1 / 5) ns 4 n) }) := by
  unfold calculateAndPropagateActivation
  rw [propagate_eq]
  show withActivations ns ((activationStep 4 (1 / 5) ns)^[4] (ns.map (fun _ => (0 : Num)))) = _
  rw [iterate_activationStep_eq, withActivations_map_self]

theorem any_eq_of_perm {ns ms : List Node} (hp : ns.Perm ms) (p : Node → Bool) :
    ns.any p = ms.any p := by
  rw [Bool.eq_iff_iff, List.any_eq_true, List.any_eq_true]
  constructor
  · rintro ⟨x, hx, h⟩
    exact ⟨x, hp.mem_iff.mp hx, h⟩
  · rintro ⟨x, hx, h⟩
    exact ⟨x, hp.mem_iff.mpr hx, h⟩

/-- The value `activationOf` of a node does not depend on the order of the list. -/
theorem activationOf_perm (ic : ℕ) (alpha : Num) {ns ms : List Node} (hp : ns.Perm ms)
    (k : ℕ) (n : Node) : activationOf ic alpha ns k n = activationOf ic alpha ms k n := by
  induction k generalizing n with
  | zero => rfl
  | succ k ih =>
    simp only [activationOf]
    rw [ih n]
    congr 2
    have h1 : ns.map (fun s => sentTo ic alpha ns s (activationOf ic alpha ns k s) n.id)
        = ns.map (fun s => sentTo ic alpha ms s (activationOf ic alpha ms k s) n.id) := by
      apply List.map_congr_left
      intro s _
      rw [ih s]
      exact sentTo_congr_all ic alpha ns ms (fun key => any_eq_of_perm hp _) s _ n.id
    rw [h1]
    exact (hp.map _).sum_eq

/-- C29: over exact arithmetic, for every node list with pairwise distinct ids and every
reordering of it, `calculateAndPropagateActivation` returns the same nodes with the same
activations, reordered in the same way: the two results are permutations of each other, and
a node of one result and a node of the other with the same id have the same activation. -/
theorem C29_activation_order_independent (ns ms : List Node)
    (hu : (ns.map (fun n => n.id)).Nodup) (hp : ns.Perm ms) :
    (calculateAndPropagateActivation ns).Perm (calculateAndPropagateActivation ms) ∧
      ∀ a ∈ calculateAndPropagateActivation ns, ∀ b ∈ calculateAndPropagateActivation ms,
        a.id = b.id → a.activation = b.activation := by
  have hf : (fun n : Node => { n with activation := some (activationOf 4 (1 / 5) ms 4 n) })
      = (fun n : Node => { n with activation := some (activationOf 4 (1 / 5) ns 4 n) }) := by
    funext n
    rw [activationOf_perm 4 (1 / 5) hp 4 n]
  rw [calculate_eq_map ns, calculate_eq_map ms, hf]
  refine ⟨hp.map _, ?_⟩
  intro a ha b hb hid
  rw [List.mem_map] at ha hb
  obtain ⟨n, hn, rfl⟩ := ha
  obtain ⟨m, hm, rfl⟩ := hb
  have hm2 : m ∈ ns := hp.mem_iff.mpr hm
  have hnm : n = m := List.inj_on_of_nodup_map hu hn hm2 hid
  rw [hnm]

/-- The theorem of C29 on the two orders of a list of two linked nodes. -/
theorem C29_activation_order_independent_witness :
    ([sampleNode "a" 1 [("b", 2)], sampleNode "b" 0 []].map (fun n => n.id)).Nodup ∧
      (calculateAndPropagateActivation
          [sampleNode "a" 1 [("b", 2)], sampleNode "b" 0 []]).Perm
        (calculateAndPropagateActivation
          [sampleNode "b" 0 [], sampleNode "a" 1 [("b", 2)]]) :=
  ⟨by decide,
    (C29_activation_order_independent [sampleNode "a" 1 [("b", 2)], sampleNode "b" 0 []]
      [sampleNode "b" 0 [], sampleNode "a" 1 [("b", 2)]] (by decide)
      (List.Perm.swap _ _ _)).1⟩

theorem restoreLink_observed (s : State) (link : RelatedLink) :
    (restoreLink s link).observed = s.observed := by
  unfold restoreLink
  cases findNode link.sourceId s with
  | none => rfl
  | some r => rfl

theorem foldl_restoreLink_observed (L : List RelatedLink) (s : State) :
    (L.foldl restoreLink s).observed = s.observed := by
  induction L generalizing s with
  | nil => rfl
  | cons l L ih => rw [List.foldl_cons, ih, restoreLink_observed]

theorem restoreLink_nodes (s : State) (link : RelatedLink) :
    (restoreLink s link).nodes = s.nodes := by
  unfold restoreLink
  cases findNode link.sourceId s with
  | none => rfl
  | some r => rfl

theorem foldl_restoreLink_nodes (L : List RelatedLink) (s : State) :
    (L.foldl restoreLink s).nodes = s.nodes := by
  induction L generalizing s with
  | nil => rfl
  | cons l L ih => rw [List.foldl_cons, ih, restoreLink_nodes]

/-- The `catch` block of an operation is its inverse followed by the two publishes. -/
theorem onFailure_eq_inverse (p : Pending) (today : String) (s : State) :
    ∃ msg, p.onFailure today s
      = publish Event.stateChange (publish (Event.showError msg) (p.inverse today s)) := by
  cases p with
  | addNode tempId => exact ⟨"Failed to add node. Reverting.", rfl⟩
  | deleteNode id deletedNode originalIndex relatedLinks =>
    exact ⟨"Failed to delete node. Reverting.", rfl⟩
  | updateNodeContent id node oldName oldCommit newName newCommit =>
    exact ⟨"Failed to update content. Reverting.", rfl⟩
  | updateNodeColor id node originalColor => exact ⟨"Failed to update color. Reverting.", rfl⟩
  | toggleNodeStar id node originalStarred => exact ⟨"Failed to toggle star. Reverting.", rfl⟩
  | toggleNodeAcute id node originalAcute => exact ⟨"Failed to toggle acute. Reverting.", rfl⟩
  | updateLink sourceId node originalLinks newLinks =>
    exact ⟨"Failed to update link. Reverting.", rfl⟩

/-- What the inverse itself publishes: nothing, or the `stateChange` of `deselectNode` in
the block of `addNode`, whose handlers already find the temporary node removed. -/
theorem inverse_observed (p : Pending) (today : String) (s : State) :
    (p.inverse today s).observed = s.observed ∧ (p.inverse today s).events = s.events ∨
      (p.inverse today s).observed
          = s.observed ++ [⟨Event.stateChange, (p.inverse today s).collection, none⟩] ∧
        (p.inverse today s).events = s.events ++ [Event.stateChange] ∧
        (p.inverse today s).selectedNodeId = none := by
  cases p with
  | addNode tempId =>
    by_cases hs : s.selectedNodeId = some tempId
    · right
      simp [Pending.inverse, hs, deselectNode, publish, State.collection]
    · left
      simp [Pending.inverse, hs]
  | deleteNode id deletedNode originalIndex relatedLinks =>
    left
    exact ⟨foldl_restoreLink_observed _ _, foldl_restoreLink_events _ _⟩
  | updateNodeContent id node oldName oldCommit newName newCommit => exact Or.inl ⟨rfl, rfl⟩
  | updateNodeColor id node originalColor => exact Or.inl ⟨rfl, rfl⟩
  | toggleNodeStar id node originalStarred => exact Or.inl ⟨rfl, rfl⟩
  | toggleNodeAcute id node originalAcute => exact Or.inl ⟨rfl, rfl⟩
  | updateLink sourceId node originalLinks newLinks => exact Or.inl ⟨rfl, rfl⟩

/-- C26: the `catch` block of each of the seven operations first writes the captured
inverse (`Pending.inverse`: the temporary node filtered out and deselected, the deleted
object spliced back and its relations restored, the old name, commit and ledger entry, the
old color, star, acute or link object), then publishes exactly one `showError`, then a
`stateChange`, and nothing else.  The handlers of the `showError` and of the final
`stateChange` read the collection and the selection that the inverse left, which are those
at the end of the block; the only event before the `showError` is the `stateChange` of
`deselectNode` in the block of `addNode`, published after the temporary node is removed. -/
theorem C26_compensation_order (p : Pending) (today : String) (s : State) :
    (∃ (msg : String) (pre : List Observation),
      (p.onFailure today s).observed
          = s.observed ++ pre
            ++ [⟨Event.showError msg, (p.inverse today s).collection,
                  (p.inverse today s).selectedNodeId⟩,
                ⟨Event.stateChange, (p.inverse today s).collection,
                  (p.inverse today s).selectedNodeId⟩] ∧
        (pre = [] ∨ pre = [⟨Event.stateChange, (p.inverse today s).collection, none⟩]) ∧
        (p.onFailure today s).events
          = s.events ++ pre.map (fun o => o.event)
            ++ [Event.showError msg, Event.stateChange]) ∧
      (p.onFailure today s).heap = (p.inverse today s).heap ∧
      (p.onFailure today s).nodes = (p.inverse today s).nodes ∧
      (p.onFailure today s).collection = (p.inverse today s).collection ∧
      (p.onFailure today s).selectedNodeId = (p.inverse today s).selectedNodeId ∧
      (p.onFailure today s).commitHistory = (p.inverse today s).commitHistory ∧
      (∀ tempId,
        ((Pending.addNode tempId).inverse today s).collection
            = s.collection.filter (fun n => n.id != tempId) ∧
          ((Pending.addNode tempId).inverse today s).selectedNodeId
            = if s.selectedNodeId = some tempId then none else s.selectedNodeId) ∧
      (∀ id deletedNode originalIndex relatedLinks,
        ((Pending.deleteNode id deletedNode originalIndex relatedLinks).inverse today s).nodes
            = s.nodes.take originalIndex ++ deletedNode :: s.nodes.drop originalIndex ∧
          ((Pending.deleteNode id deletedNode originalIndex relatedLinks).inverse today s).heap
            = (relatedLinks.foldl restoreLink
                { s with
                  nodes := s.nodes.take originalIndex
                    ++ deletedNode :: s.nodes.drop originalIndex }).heap) ∧
      (∀ id node oldName oldCommit newName newCommit,
        ((Pending.updateNodeContent id node oldName oldCommit newName newCommit).inverse
            today s).heap
            = Function.update s.heap node
                { s.heap node with name := oldName, commit := oldCommit } ∧
          ((Pending.updateNodeContent id node oldName oldCommit newName newCommit).inverse
            today s).commitHistory
            = trackCommitChange today id newCommit oldCommit s.commitHistory) ∧
      (∀ id node originalColor,
        ((Pending.updateNodeColor id node originalColor).inverse today s).heap
          = Function.update s.heap node { s.heap node with color := originalColor }) ∧
      (∀ id node originalStarred,
        ((Pending.toggleNodeStar id node originalStarred).inverse today s).heap
          = Function.update s.heap node { s.heap node with starred := originalStarred }) ∧
      (∀ id node originalAcute,
        ((Pending.toggleNodeAcute id node originalAcute).inverse today s).heap
          = Function.update s.heap node { s.heap node with acute := originalAcute }) ∧
      (∀ sourceId node originalLinks newLinks,
        ((Pending.updateLink sourceId node originalLinks newLinks).inverse today s).heap
          = Function.update s.heap node { s.heap node with links := originalLinks }) := by
  obtain ⟨msg, h0⟩ := onFailure_eq_inverse p today s
  refine ⟨?_, by rw [h0]; rfl, by rw [h0]; rfl, by rw [h0]; rfl, by rw [h0]; rfl,
    by rw [h0]; rfl, ?_, ?_, ?_, ?_, ?_, ?_, ?_⟩
  · rcases inverse_observed p today s with ⟨ho, he⟩ | ⟨ho, he, hsel⟩
    · refine ⟨msg, [], ?_, Or.inl rfl, ?_⟩
      · rw [h0]
        simp [publish, ho, State.collection]
      · rw [h0]
        simp [publish, he]
    · refine ⟨msg, [⟨Event.stateChange, (p.inverse today s).collection, none⟩], ?_,
        Or.inr rfl, ?_⟩
      · rw [h0]
        simp [publish, ho, State.collection]
      · rw [h0]
        simp [publish, he]
  · intro tempId
    by_cases hs : s.selectedNodeId = some tempId
    · simp [Pending.inverse, hs, deselectNode, publish, State.collection, List.filter_map,
        Function.comp_def]
    · simp [Pending.inverse, hs, State.collection, List.filter_map, Function.comp_def]
  · intro id deletedNode originalIndex relatedLinks
    refine ⟨?_, rfl⟩
    exact foldl_restoreLink_nodes _ _
  · intro id node oldName oldCommit newName newCommit
    exact ⟨rfl, rfl⟩
  · intro id node originalColor
    rfl
  · intro id node originalStarred
    rfl
  · intro id node originalAcute
    rfl
  · intro sourceId node originalLinks newLinks
    rfl

/-! ## pubsub.js: lemmas and theorems -/

theorem lookup_of_get_some {D W : Type} (ev : Registry D W) (t : String)
    (cbs : List (Callback D W)) (h : JsObj.get ev t = some cbs) :
    PubSub.lookup ev t = Slot.callbacks cbs := by
  simp only [PubSub.lookup, h]

theorem subscribe_of_inherited {D W : Type} (t : String) (cb : Callback D W)
    (ev : Registry D W) (hg : JsObj.get ev t = none) (hin : t ∈ inheritedNames) :
    PubSub.subscribe t cb ev
      = Except.error "TypeError: events[eventName].push is not a function" := by
  simp only [PubSub.subscribe, PubSub.lookup, hg, hin, if_true]

theorem subscribe_of_missing {D W : Type} (t : String) (cb : Callback D W)
    (ev : Registry D W) (hg : JsObj.get ev t = none) (hin : t ∉ inheritedNames) :
    PubSub.subscribe t cb ev = Except.ok (JsObj.set (JsObj.set ev t []) t ([] ++ [cb])) := by
  simp only [PubSub.subscribe, PubSub.lookup, hg, hin, if_false, JsObj.get_set_self]

theorem subscribe_of_get_some {D W : Type} (t : String) (cb : Callback D W)
    (ev : Registry D W) (cbs : List (Callback D W)) (hg : JsObj.get ev t = some cbs) :
    PubSub.subscribe t cb ev = Except.ok (JsObj.set ev t (cbs ++ [cb])) := by
  simp only [PubSub.subscribe, PubSub.lookup, hg]

theorem get_subscribeStep {D W : Type} (sub : String × Callback D W) (ev : Registry D W)
    (t : String) :
    (JsObj.get
        (match PubSub.subscribe sub.1 sub.2 ev with
          | Except.ok ev1 => ev1
          | Except.error _ => ev) t).getD []
      = (JsObj.get ev t).getD []
          ++ (if sub.1 = t ∧ ((JsObj.get ev t).isSome ∨ t ∉ inheritedNames)
              then [sub.2] else []) := by
  cases hg : JsObj.get ev sub.1 with
  | some cbs =>
    rw [subscribe_of_get_some sub.1 sub.2 ev cbs hg]
    by_cases h : sub.1 = t
    · subst h
      simp only [JsObj.get_set_self, Option.getD_some, hg, Option.isSome_some, true_or,
        and_self, if_true]
    · have h2 : t ≠ sub.1 := fun e => h e.symm
      simp only [JsObj.get_set_of_ne _ _ _ _ h2, h, false_and, if_false, List.append_nil]
  | none =>
    by_cases hin : sub.1 ∈ inheritedNames
    · rw [subscribe_of_inherited sub.1 sub.2 ev hg hin]
      by_cases h : sub.1 = t
      · subst h
        simp [hg, hin]
      · simp [h]
    · rw [subscribe_of_missing sub.1 sub.2 ev hg hin]
      by_cases h : sub.1 = t
      · subst h
        simp only [JsObj.get_set_self, Option.getD_some, hg, Option.getD_none,
          List.nil_append, hin, not_false_eq_true, or_true, and_self, if_true]
      · have h2 : t ≠ sub.1 := fun e => h e.symm
        simp only [JsObj.get_set_of_ne _ _ _ _ h2, h, false_and, if_false, List.append_nil]

theorem get_subscribeStep_inherited {D W : Type} (sub : String × Callback D W)
    (ev : Registry D W) (t : String) (hin : t ∈ inheritedNames)
    (hg : JsObj.get ev t = none) :
    JsObj.get
        (match PubSub.subscribe sub.1 sub.2 ev with
          | Except.ok ev1 => ev1
          | Except.error _ => ev) t = none := by
  by_cases h : sub.1 = t
  · subst h
    rw [subscribe_of_inherited sub.1 sub.2 ev hg hin]
    exact hg
  · have h2 : t ≠ sub.1 := fun e => h e.symm
    cases hs : JsObj.get ev sub.1 with
    | some cbs =>
      rw [subscribe_of_get_some sub.1 sub.2 ev cbs hs]
      simp only [JsObj.get_set_of_ne _ _ _ _ h2, hg]
    | none =>
      by_cases hin2 : sub.1 ∈ inheritedNames
      · rw [subscribe_of_inherited sub.1 sub.2 ev hs hin2]
        exact hg
      · rw [subscribe_of_missing sub.1 sub.2 ev hs hin2]
        simp only [JsObj.get_set_of_ne _ _ _ _ h2, hg]

/-- The array of a topic after a run of `subscribe` calls on a registry without inherited
names among its own keys: the callbacks of the calls that named the topic, in the order of
the calls, appended; nothing when the topic is an inherited name, as those calls threw. -/
theorem get_subscribeAll {D W : Type} (subs : List (String × Callback D W))
    (ev : Registry D W) (t : String)
    (hev : ∀ k ∈ inheritedNames, JsObj.get ev k = none) :
    (JsObj.get (PubSub.subscribeAll subs ev) t).getD []
        = (JsObj.get ev t).getD []
          ++ (subs.filter (fun sub => sub.1 == t && !inheritedNames.contains t)).map
              (fun sub => sub.2) ∧
      ∀ k ∈ inheritedNames, JsObj.get (PubSub.subscribeAll subs ev) k = none := by
  unfold PubSub.subscribeAll
  induction subs generalizing ev with
  | nil => simpa using hev
  | cons sub subs ih =>
    rw [List.foldl_cons]
    have hstep := fun k hk => get_subscribeStep_inherited sub ev k hk (hev k hk)
    obtain ⟨h1, h2⟩ := ih _ hstep
    refine ⟨?_, h2⟩
    rw [h1, get_subscribeStep]
    by_cases h : sub.1 = t
    · by_cases hin : t ∈ inheritedNames
      · simp [List.filter_cons, h, hin, hev t hin]
      · simp [List.filter_cons, h, hin]
    · simp [List.filter_cons, h]

theorem foldl_invoke {D W : Type} (data : D) (cbs : List (Callback D W))
    (run : PublishRun D W) (h : run.thrown = none) :
    (cbs.foldl (PubSub.invoke data) run).world = cbs.foldl (PubSub.effect data) run.world ∧
      (cbs.foldl (PubSub.invoke data) run).invoked
        = run.invoked ++ cbs.map (fun cb => (cb.fn, data)) ∧
      (cbs.foldl (PubSub.invoke data) run).thrown = none := by
  induction cbs generalizing run with
  | nil => simp [h]
  | cons cb cbs ih =>
    rw [List.foldl_cons, List.foldl_cons]
    have hi : PubSub.invoke data run cb
        = { world := (cb.call data run.world).1
            invoked := run.invoked ++ [(cb.fn, data)]
            reported :=
              match (cb.call data run.world).2 with
              | none => run.reported
              | some error => run.reported ++ [error]
            thrown := none } := by
      simp only [PubSub.invoke, h]
    obtain ⟨h1, h2, h3⟩ := ih (PubSub.invoke data run cb) (by rw [hi])
    refine ⟨?_, ?_, h3⟩
    · rw [h1, hi]
      rfl
    · rw [h2, hi]
      simp

/-- The calls `publish` makes and their effect: one call per entry of the array of the
event, in array order, each with the published data. -/
theorem publish_run {D W : Type} (t : String) (data : D) (ev : Registry D W) (w : W) :
    (PubSub.publish t data ev w).world
        = ((JsObj.get ev t).getD []).foldl (PubSub.effect data) w ∧
      (PubSub.publish t data ev w).invoked
        = ((JsObj.get ev t).getD []).map (fun cb => (cb.fn, data)) ∧
      (PubSub.publish t data ev w).thrown
        = if (JsObj.get ev t).isNone ∧ t ∈ inheritedNames
          then some "TypeError: events[eventName].forEach is not a function" else none := by
  unfold PubSub.publish PubSub.lookup
  cases hg : JsObj.get ev t with
  | none =>
    by_cases hin : t ∈ inheritedNames
    · simp [hin]
    · simp [hin]
  | some cbs =>
    obtain ⟨h1, h2, h3⟩ := foldl_invoke data cbs
      { world := w, invoked := [], reported := [], thrown := none } rfl
    simp only [Option.getD_some]
    refine ⟨h1, ?_, ?_⟩
    · rw [h2]
      rfl
    · rw [h3]
      simp

theorem publish_invoked {D W : Type} (t : String) (data : D) (ev : Registry D W) (w : W) :
    (PubSub.publish t data ev w).invoked
      = ((JsObj.get ev t).getD []).map (fun cb => (cb.fn, data)) :=
  (publish_run t data ev w).2.1

theorem foldl_invoke_reported_mono {D W : Type} (data : D) (cbs : List (Callback D W))
    (run : PublishRun D W) (e : String) (he : e ∈ run.reported) :
    e ∈ (cbs.foldl (PubSub.invoke data) run).reported := by
  induction cbs generalizing run with
  | nil => exact he
  | cons cb cbs ih =>
    rw [List.foldl_cons]
    apply ih
    unfold PubSub.invoke
    cases run.thrown with
    | some _ => exact he
    | none =>
      simp only
      cases (cb.call data run.world).2 with
      | none => exact he
      | some error => exact List.mem_append_left _ he

theorem invoke_reported_of_throw {D W : Type} (data : D) (h : Callback D W)
    (run : PublishRun D W) (error : String) (hrun : run.thrown = none)
    (hthrow : (h.call data run.world).2 = some error) :
    error ∈ (PubSub.invoke data run h).reported := by
  simp only [PubSub.invoke, hrun, hthrow]
  exact List.mem_append_right _ (List.mem_singleton.mpr rfl)

/-- C21: `publish(topic, data)` calls, within the call of `publish`, the callbacks in the
array of the topic: the state it leaves is the state it found with the effect of each entry
applied once, in array order, each called with `data`.  After any run of `subscribe` calls
on the empty registry that array holds exactly the subscriptions made to this topic, in the
order they were made, so every subscribed handler acts and no callback subscribed to another
topic only does.  A topic that is a name inherited from `Object.prototype` has no
subscription (`subscribe` throws there) and `publish` on it calls nothing and throws. -/
theorem C21_publish_invokes_subscribers {D W : Type} (subs : List (String × Callback D W))
    (ev : Registry D W) (topic : String) (data : D) (w : W) :
    (PubSub.publish topic data ev w).world
        = ((JsObj.get ev topic).getD []).foldl (PubSub.effect data) w ∧
      (PubSub.publish topic data ev w).invoked
        = ((JsObj.get ev topic).getD []).map (fun cb => (cb.fn, data)) ∧
      (PubSub.publish topic data (PubSub.subscribeAll subs []) w).world
        = ((subs.filter (fun sub => sub.1 == topic && !inheritedNames.contains topic)).map
            (fun sub => sub.2)).foldl (PubSub.effect data) w ∧
      (PubSub.publish topic data (PubSub.subscribeAll subs []) w).invoked
        = (subs.filter (fun sub => sub.1 == topic && !inheritedNames.contains topic)).map
            (fun sub => (sub.2.fn, data)) ∧
      (PubSub.publish topic data (PubSub.subscribeAll subs []) w).thrown
        = if topic ∈ inheritedNames
          then some "TypeError: events[eventName].forEach is not a function" else none := by
  obtain ⟨h1, h2, _⟩ := publish_run topic data ev w
  obtain ⟨h3, h4, h5⟩ := publish_run topic data (PubSub.subscribeAll subs []) w
  obtain ⟨h6, h7⟩ := get_subscribeAll subs ([] : Registry D W) topic
    (fun k _ => JsObj.get_nil k)
  rw [JsObj.get_nil, Option.getD_none, List.nil_append] at h6
  refine ⟨h1, h2, ?_, ?_, ?_⟩
  · rw [h3, h6]
  · rw [h4, h6, List.map_map]
    rfl
  · rw [h5]
    by_cases hin : topic ∈ inheritedNames
    · simp [hin, h7 topic hin]
    · simp [hin]

/-- C22: when a callback of the array of the topic throws in the state in which `publish`
calls it, every callback after it in the array is still called, in array order and with the
data: the state `publish` leaves is the state the throwing callback left with the effects of
the later callbacks applied in order.  The error is passed to `console.error` and no error
leaves `publish` towards its caller. -/
theorem C22_throwing_handler_isolated {D W : Type} (ev : Registry D W) (topic : String)
    (data : D) (w : W) (pre post : List (Callback D W)) (h : Callback D W) (error : String)
    (hev : JsObj.get ev topic = some (pre ++ h :: post))
    (hthrow : (h.call data (pre.foldl (PubSub.effect data) w)).2 = some error) :
    (PubSub.publish topic data ev w).world
        = post.foldl (PubSub.effect data)
            (h.call data (pre.foldl (PubSub.effect data) w)).1 ∧
      (PubSub.publish topic data ev w).invoked
        = pre.map (fun cb => (cb.fn, data)) ++ (h.fn, data)
            :: post.map (fun cb => (cb.fn, data)) ∧
      error ∈ (PubSub.publish topic data ev w).reported ∧
      (PubSub.publish topic data ev w).thrown = none := by
  obtain ⟨h1, h2, h3⟩ := publish_run topic data ev w
  refine ⟨?_, ?_, ?_, ?_⟩
  · rw [h1, hev, Option.getD_some, List.foldl_append, List.foldl_cons]
    rfl
  · rw [h2, hev]
    simp
  · unfold PubSub.publish
    rw [lookup_of_get_some ev topic _ hev]
    simp only
    rw [List.foldl_append, List.foldl_cons]
    apply foldl_invoke_reported_mono
    obtain ⟨hw, _, ht⟩ := foldl_invoke data pre
      { world := w, invoked := [], reported := [], thrown := none } rfl
    apply invoke_reported_of_throw data h _ error ht
    rw [hw]
    exact hthrow
  · rw [h3, hev]
    simp

/-- The theorem of C22 on three subscriptions that log their call, the second of which
throws after logging: the log shows the three calls in order. -/
theorem C22_throwing_handler_isolated_witness :
    JsObj.get (PubSub.subscribeAll
        [("stateChange", loggingCallback 1), ("stateChange", failingCallback 2),
          ("stateChange", loggingCallback 3)] []) "stateChange"
        = some ([loggingCallback 1] ++ failingCallback 2 :: [loggingCallback 3]) ∧
      ((failingCallback 2).call ()
          ([loggingCallback 1].foldl (PubSub.effect ()) [])).2 = some "boom" ∧
      (PubSub.publish "stateChange" () (PubSub.subscribeAll
        [("stateChange", loggingCallback 1), ("stateChange", failingCallback 2),
          ("stateChange", loggingCallback 3)] []) []).world = [1, 2, 3] ∧
      (PubSub.publish "stateChange" () (PubSub.subscribeAll
        [("stateChange", loggingCallback 1), ("stateChange", failingCallback 2),
          ("stateChange", loggingCallback 3)] []) []).thrown = none :=
  ⟨rfl, rfl,
    (C22_throwing_handler_isolated
      (PubSub.subscribeAll
        [("stateChange", loggingCallback 1), ("stateChange", failingCallback 2),
          ("stateChange", loggingCallback 3)] [])
      "stateChange" () [] [loggingCallback 1] [loggingCallback 3]
      (failingCallback 2) "boom" rfl rfl).1,
    (C22_throwing_handler_isolated
      (PubSub.subscribeAll
        [("stateChange", loggingCallback 1), ("stateChange", failingCallback 2),
          ("stateChange", loggingCallback 3)] [])
      "stateChange" () [] [loggingCallback 1] [loggingCallback 3]
      (failingCallback 2) "boom" rfl rfl).2.2.2⟩

/-- C23, counterexample: the same function is subscribed twice to a topic and the handle of
one of the two subscriptions is used once; the next publish calls nothing, where the claim
keeps one call of the function for the other subscription. -/
theorem C23_counterexample :
    (PubSub.publish "stateChange" ()
        (PubSub.subscribeAll [("stateChange", quietCallback 1),
          ("stateChange", quietCallback 1)] []) ()).invoked = [(1, ()), (1, ())] ∧
      (PubSub.publish "stateChange" ()
        (PubSub.unsubscribe "stateChange" (quietCallback 1)
          (PubSub.subscribeAll [("stateChange", quietCallback 1),
            ("stateChange", quietCallback 1)] [])) ()).invoked = [] ∧
      (PubSub.publish "stateChange" ()
        (PubSub.unsubscribe "stateChange" (quietCallback 1)
          (PubSub.subscribeAll [("stateChange", quietCallback 1),
            ("stateChange", quietCallback 1)] [])) ()).invoked ≠ [(1, ())] := by
  decide

/-- C23, amended: `unsubscribe()` on a handle of `subscribe(topic, handler)` removes every
subscription of that handler function to the topic, whichever subscription made the handle;
the subscriptions of other functions to the topic stay, in their order, the other topics
are untouched, later publishes call exactly what stays, and a second `unsubscribe()`
changes nothing. -/
theorem C23_unsubscribe_removes_function {D W : Type} (ev : Registry D W) (topic : String)
    (cb : Callback D W) (cbs : List (Callback D W))
    (hev : JsObj.get ev topic = some cbs) :
    JsObj.get (PubSub.unsubscribe topic cb ev) topic
        = some (cbs.filter (fun c => c.fn != cb.fn)) ∧
      (∀ t2, t2 ≠ topic → JsObj.get (PubSub.unsubscribe topic cb ev) t2 = JsObj.get ev t2) ∧
      (∀ data w, (PubSub.publish topic data (PubSub.unsubscribe topic cb ev) w).invoked
        = (cbs.filter (fun c => c.fn != cb.fn)).map (fun c => (c.fn, data))) ∧
      (∀ t2, JsObj.get (PubSub.unsubscribe topic cb (PubSub.unsubscribe topic cb ev)) t2
        = JsObj.get (PubSub.unsubscribe topic cb ev) t2) := by
  have h1 : JsObj.get (PubSub.unsubscribe topic cb ev) topic
      = some (cbs.filter (fun c => c.fn != cb.fn)) := by
    unfold PubSub.unsubscribe
    rw [JsObj.get_set_self, hev]
    rfl
  refine ⟨h1, ?_, ?_, ?_⟩
  · intro t2 h2
    unfold PubSub.unsubscribe
    exact JsObj.get_set_of_ne _ _ _ _ h2
  · intro data w
    rw [publish_invoked, h1]
    rfl
  · intro t2
    by_cases h2 : t2 = topic
    · subst h2
      rw [h1]
      unfold PubSub.unsubscribe
      rw [JsObj.get_set_self, JsObj.get_set_self, hev]
      simp [List.filter_filter]
    · conv_lhs => unfold PubSub.unsubscribe
      exact JsObj.get_set_of_ne _ _ _ _ h2

/-- The amended statement of C23 on the function subscribed twice. -/
theorem C23_unsubscribe_removes_function_witness :
    JsObj.get (PubSub.subscribeAll [("stateChange", quietCallback 1),
        ("stateChange", quietCallback 2), ("stateChange", quietCallback 1)] []) "stateChange"
        = some [quietCallback 1, quietCallback 2, quietCallback 1] ∧
      (∀ data w, (PubSub.publish "stateChange" data
          (PubSub.unsubscribe "stateChange" (quietCallback 1)
            (PubSub.subscribeAll [("stateChange", quietCallback 1),
              ("stateChange", quietCallback 2), ("stateChange", quietCallback 1)] [])) w).invoked
        = ([quietCallback 1, quietCallback 2, quietCallback 1].filter
            (fun c => c.fn != (quietCallback 1).fn)).map (fun c => (c.fn, data))) :=
  ⟨rfl, (C23_unsubscribe_removes_function
    (PubSub.subscribeAll [("stateChange", quietCallback 1),
      ("stateChange", quietCallback 2), ("stateChange", quietCallback 1)] [])
    "stateChange" (quietCallback 1)
    [quietCallback 1, quietCallback 2, quietCallback 1] rfl).2.2.1⟩

/-! ## activation.js on the heap: the input is left unchanged -/

theorem map_forEachNode (refs : List Ref) (f : Node → Node) (heap : Ref → Node)
    (hn : refs.Nodup) : refs.map (forEachNode refs f heap) = (refs.map heap).map f := by
  rw [List.map_map]
  apply List.map_congr_left
  intro r hr
  exact forEachNode_of_mem refs f heap r hn hr

theorem map_propagationRoundIn (ic : ℕ) (alpha : Num) (refs : List Ref) (heap : Ref → Node)
    (hn : refs.Nodup) :
    refs.map (propagationRoundIn ic alpha refs heap)
      = propagationRound ic alpha (refs.map heap) := by
  unfold propagationRoundIn propagationRound
  exact map_forEachNode refs _ heap hn

theorem map_iterate_propagationRoundIn (ic : ℕ) (alpha : Num) (refs : List Ref)
    (hn : refs.Nodup) (k : ℕ) (heap : Ref → Node) :
    refs.map ((propagationRoundIn ic alpha refs)^[k] heap)
      = (propagationRound ic alpha)^[k] (refs.map heap) := by
  induction k generalizing heap with
  | zero => rfl
  | succ k ih =>
    rw [Function.iterate_succ_apply, Function.iterate_succ_apply, ih,
      map_propagationRoundIn ic alpha refs heap hn]

theorem propagationRoundIn_of_not_mem (ic : ℕ) (alpha : Num) (refs : List Ref)
    (heap : Ref → Node) (r : Ref) (h : r ∉ refs) :
    propagationRoundIn ic alpha refs heap r = heap r := by
  unfold propagationRoundIn
  exact forEachNode_of_not_mem refs _ heap r h

theorem iterate_propagationRoundIn_of_not_mem (ic : ℕ) (alpha : Num) (refs : List Ref)
    (r : Ref) (h : r ∉ refs) (k : ℕ) (heap : Ref → Node) :
    (propagationRoundIn ic alpha refs)^[k] heap r = heap r := by
  induction k generalizing heap with
  | zero => rfl
  | succ k ih =>
    rw [Function.iterate_succ_apply, ih, propagationRoundIn_of_not_mem ic alpha refs heap r h]

/-- The objects returned by the function on the heap hold the values of the function on
values. -/
theorem propagateIn_values (ic : ℕ) (alpha : Num) (nodes : List Ref) (heap : Ref → Node)
    (next : Ref) :
    (propagateIn ic alpha nodes heap next).2.2.map (propagateIn ic alpha nodes heap next).1
      = propagate ic alpha (nodes.map heap) := by
  have hn : (List.range' next nodes.length).Nodup := List.nodup_range' _ _
  show (List.range' next nodes.length).map
      ((propagationRoundIn ic alpha (List.range' next nodes.length))^[ic]
        (forEachNode (List.range' next nodes.length) resetActivation
          (allocAll (nodes.map heap) heap next))) = _
  rw [map_iterate_propagationRoundIn ic alpha _ hn, map_forEachNode _ _ _ hn]
  have h := map_allocAll (nodes.map heap) heap next
  rw [List.length_map] at h
  rw [h]
  rfl

/-- Every object allocated before the call is as it was after the call. -/
theorem propagateIn_frame (ic : ℕ) (alpha : Num) (nodes : List Ref) (heap : Ref → Node)
    (next : Ref) (r : Ref) (hr : r < next) :
    (propagateIn ic alpha nodes heap next).1 r = heap r := by
  have hnot : r ∉ List.range' next nodes.length := by
    intro hm
    rw [List.mem_range'_1] at hm
    exact absurd hm.1 (Nat.not_le.mpr hr)
  show (propagationRoundIn ic alpha (List.range' next nodes.length))^[ic]
      (forEachNode (List.range' next nodes.length) resetActivation
        (allocAll (nodes.map heap) heap next)) r = _
  rw [iterate_propagationRoundIn_of_not_mem ic alpha _ r hnot,
    forEachNode_of_not_mem _ _ _ r hnot, allocAll_of_lt _ _ _ _ hr]

/-- C6: `calculateAndPropagateActivation`, run on the heap with an input array of objects
that exist, returns an array of fresh objects, as many as the input and in its order, whose
values are those of the function on values: every node has the id, commit, links and every
other field of the input node at its position, only `activation` possibly differing.  Every
object that existed before the call, the input nodes among them, has the value it had; the
input array is only read, by `JSON.stringify`. -/
theorem C6_activation_frame (nodes : List Ref) (heap : Ref → Node) (next : Ref)
    (hb : ∀ r ∈ nodes, r < next) :
    (calculateAndPropagateActivationIn nodes heap next).2.2.map
        (calculateAndPropagateActivationIn nodes heap next).1
        = calculateAndPropagateActivation (nodes.map heap) ∧
      (calculateAndPropagateActivationIn nodes heap next).2.2.length = nodes.length ∧
      ((calculateAndPropagateActivationIn nodes heap next).2.2.map
        (calculateAndPropagateActivationIn nodes heap next).1).map clearActivation
        = (nodes.map heap).map clearActivation ∧
      (∀ r, r < next → (calculateAndPropagateActivationIn nodes heap next).1 r = heap r) ∧
      nodes.map (calculateAndPropagateActivationIn nodes heap next).1 = nodes.map heap ∧
      (∀ r ∈ (calculateAndPropagateActivationIn nodes heap next).2.2, r ∉ nodes) ∧
      (calculateAndPropagateActivation (nodes.map heap)).length = nodes.length ∧
      (calculateAndPropagateActivation (nodes.map heap)).map clearActivation
        = (nodes.map heap).map clearActivation := by
  have hv : (calculateAndPropagateActivationIn nodes heap next).2.2.map
      (calculateAndPropagateActivationIn nodes heap next).1
      = calculateAndPropagateActivation (nodes.map heap) :=
    propagateIn_values _ _ nodes heap next
  have hf := calculate_frame (nodes.map heap)
  rw [List.length_map] at hf
  refine ⟨hv, ?_, ?_, ?_, ?_, ?_, hf.1, hf.2⟩
  · show (List.range' next nodes.length).length = nodes.length
    exact List.length_range' _ _ _
  · rw [hv]
    exact hf.2
  · intro r hr
    exact propagateIn_frame _ _ nodes heap next r hr
  · apply List.map_congr_left
    intro r hr
    exact propagateIn_frame _ _ nodes heap next r (hb r hr)
  · intro r hr hin
    have h1 : r ∈ List.range' next nodes.length := hr
    rw [List.mem_range'_1] at h1
    exact absurd h1.1 (Nat.not_le.mpr (hb r hin))

/-- The theorem of C6 on the two objects of the sample store. -/
theorem C6_activation_frame_witness :
    (∀ r ∈ sampleState.nodes, r < sampleState.next) ∧
      sampleState.nodes.map
          (calculateAndPropagateActivationIn sampleState.nodes sampleState.heap
            sampleState.next).1
        = sampleState.nodes.map sampleState.heap ∧
      (calculateAndPropagateActivationIn sampleState.nodes sampleState.heap
          sampleState.next).2.2 = [2, 3] :=
  ⟨by decide,
    (C6_activation_frame sampleState.nodes sampleState.heap sampleState.next
      (by decide)).2.2.2.2.1, by decide⟩

/-! ## activation.js in doubles: lemmas and theorems -/

theorem F64.round_nonneg (n d : ℕ) : (F64.round false n d).Nonneg := by
  unfold F64.round
  simp only
  split
  · rfl
  · simp [F64.Nonneg]

theorem F64.add_nonneg {x y : F64} (hx : x.Nonneg) (hy : y.Nonneg) : (F64.add x y).Nonneg := by
  cases x with
  | nan => exact hx.elim
  | inf s =>
    cases y with
    | nan => exact hy.elim
    | inf t =>
      have hs : s = false := hx
      have ht : t = false := hy
      subst hs
      subst ht
      simp [F64.add, F64.Nonneg]
    | fin b => exact hx
  | fin a =>
    cases y with
    | nan => exact hy.elim
    | inf t => exact hy
    | fin b =>
      have ha : 0 ≤ a := hx
      have hb : 0 ≤ b := hy
      have hab : ¬ a + b < 0 := by omega
      simp only [F64.add, hab, decide_False]
      exact F64.round_nonneg _ _

theorem F64.mul_nonneg_pos {x y : F64} (hx : x.Nonneg) (hy : y.Pos) :
    (F64.mul x y).Nonneg := by
  cases y with
  | nan => exact hy.elim
  | inf t => exact hy.elim
  | fin b =>
    have hb : 0 < b := hy
    cases x with
    | nan => exact hx.elim
    | inf s =>
      have hs : s = false := hx
      subst hs
      have hb0 : b ≠ 0 := by omega
      have hbn : ¬ b < 0 := by omega
      simp [F64.mul, hb0, hbn, F64.Nonneg]
    | fin a =>
      have ha : 0 ≤ a := hx
      have hab : ¬ a * b < 0 := by
        have := mul_nonneg ha hb.le
        omega
      simp only [F64.mul, hab, decide_False]
      exact F64.round_nonneg _ _

theorem F64.pos_mul_nonneg {x y : F64} (hx : x.Pos) (hy : y.Nonneg) :
    (F64.mul x y).Nonneg := by
  cases x with
  | nan => exact hx.elim
  | inf t => exact hx.elim
  | fin a =>
    have ha : 0 < a := hx
    cases y with
    | nan => exact hy.elim
    | inf s =>
      have hs : s = false := hy
      subst hs
      have ha0 : a ≠ 0 := by omega
      have han : ¬ a < 0 := by omega
      simp [F64.mul, ha0, han, F64.Nonneg]
    | fin b =>
      have hb : 0 ≤ b := hy
      have hab : ¬ a * b < 0 := by
        have := mul_nonneg ha.le hb
        omega
      simp only [F64.mul, hab, decide_False]
      exact F64.round_nonneg _ _

theorem F64.div_nonneg_pos {x y : F64} (hx : x.Nonneg) (hy : y.Pos) :
    (F64.div x y).Nonneg := by
  cases y with
  | nan => exact hy.elim
  | inf t => exact hy.elim
  | fin b =>
    have hb : 0 < b := hy
    have hb0 : b ≠ 0 := by omega
    have hbn : ¬ b < 0 := by omega
    cases x with
    | nan => exact hx.elim
    | inf s =>
      have hs : s = false := hx
      subst hs
      simp [F64.div, hbn, F64.Nonneg]
    | fin a =>
      have ha : 0 ≤ a := hx
      have han : ¬ a < 0 := by omega
      simp only [F64.div, hb0, if_false, han, hbn, decide_False, bne_self_eq_false]
      exact F64.round_nonneg _ _

set_option maxRecDepth 10000 in
theorem F64.ofInt_zero : F64.ofInt 0 = F64.fin 0 := by decide

set_option maxRecDepth 10000 in
theorem F64.pos_of_weight {w : F64}
    (h : w = F64.ofInt 1 ∨ w = F64.ofInt 2 ∨ w = F64.ofInt 3) : w.Pos := by
  rcases h with h | h | h <;> subst h <;> decide

set_option maxRecDepth 10000 in
theorem InDoubles.pos_ic : InDoubles.ic.Pos := by decide

set_option maxRecDepth 10000 in
theorem InDoubles.pos_alpha : InDoubles.alpha.Pos := by decide

theorem InDoubles.linkIncrement_nonneg (s : InDoubles.Node) (w : F64)
    (hc : s.commit.Nonneg) (ha : s.activation.Nonneg) (hw : w.Pos) :
    (InDoubles.linkIncrement s w).Nonneg := by
  have h1 : (F64.mul s.activation InDoubles.alpha).Nonneg :=
    @F64.mul_nonneg_pos s.activation InDoubles.alpha ha InDoubles.pos_alpha
  have h2 : (F64.add s.commit (F64.mul s.activation InDoubles.alpha)).Nonneg :=
    @F64.add_nonneg s.commit _ hc h1
  have h3 : (F64.mul w (F64.add s.commit (F64.mul s.activation InDoubles.alpha))).Nonneg :=
    @F64.pos_mul_nonneg w _ hw h2
  exact @F64.div_nonneg_pos
    (F64.mul w (F64.add s.commit (F64.mul s.activation InDoubles.alpha))) InDoubles.ic
    h3 InDoubles.pos_ic

theorem InDoubles.initIncrements_nonneg (ns : List InDoubles.Node) (k : NodeId) :
    (InDoubles.initIncrements ns k).Nonneg := by
  unfold InDoubles.initIncrements
  have h0 : ∀ k, ((fun _ => F64.ofInt 0 : NodeId → F64) k).Nonneg := by
    intro k
    rw [F64.ofInt_zero]
    exact le_refl (0 : ℤ)
  generalize (fun _ => F64.ofInt 0 : NodeId → F64) = acc at h0
  induction ns generalizing acc with
  | nil => exact h0 k
  | cons n ns ih =>
    rw [List.foldl_cons]
    apply ih
    intro j
    by_cases hj : j = n.id
    · subst hj
      rw [Function.update_same, F64.ofInt_zero]
      exact le_refl (0 : ℤ)
    · rw [Function.update_noteq hj]
      exact h0 j

theorem InDoubles.addLinkIncrements_nonneg (all : List InDoubles.Node) (inc : NodeId → F64)
    (s : InDoubles.Node) (hinc : ∀ k, (inc k).Nonneg) (hc : s.commit.Nonneg)
    (ha : s.activation.Nonneg) (hw : ∀ e ∈ s.links, e.2.Pos) (k : NodeId) :
    (InDoubles.addLinkIncrements all inc s k).Nonneg := by
  unfold InDoubles.addLinkIncrements
  generalize hl : s.links = links at hw
  clear hl
  induction links generalizing inc with
  | nil => exact hinc k
  | cons e links ih =>
    rw [List.foldl_cons]
    apply ih
    · intro j
      by_cases hany : all.any (fun n => n.id == e.1) = true
      · rw [if_pos hany]
        by_cases hj : j = e.1
        · subst hj
          rw [Function.update_same]
          exact F64.add_nonneg (hinc _)
            (InDoubles.linkIncrement_nonneg s e.2 hc ha (hw e (List.mem_cons_self _ _)))
        · rw [Function.update_noteq hj]
          exact hinc j
      · rw [if_neg hany]
        exact hinc j
    · intro e2 he2
      exact hw e2 (List.mem_cons_of_mem _ he2)

theorem InDoubles.foldl_addLinkIncrements_nonneg (all src : List InDoubles.Node)
    (inc : NodeId → F64) (hinc : ∀ k, (inc k).Nonneg)
    (hsrc : ∀ s ∈ src, s.commit.Nonneg ∧ s.activation.Nonneg ∧ ∀ e ∈ s.links, e.2.Pos)
    (k : NodeId) :
    (src.foldl (InDoubles.addLinkIncrements all) inc k).Nonneg := by
  induction src generalizing inc with
  | nil => exact hinc k
  | cons s src ih =>
    rw [List.foldl_cons]
    apply ih
    · intro j
      obtain ⟨hc, ha, hw⟩ := hsrc s (List.mem_cons_self _ _)
      exact InDoubles.addLinkIncrements_nonneg all inc s hinc hc ha hw j
    · intro s2 hs2
      exact hsrc s2 (List.mem_cons_of_mem _ hs2)

theorem InDoubles.propagationRound_nonneg (ns : List InDoubles.Node)
    (h : ∀ s ∈ ns, s.commit.Nonneg ∧ s.activation.Nonneg ∧ ∀ e ∈ s.links, e.2.Pos) :
    ∀ s ∈ InDoubles.propagationRound ns,
      s.commit.Nonneg ∧ s.activation.Nonneg ∧ ∀ e ∈ s.links, e.2.Pos := by
  intro s hs
  unfold InDoubles.propagationRound at hs
  simp only [List.mem_map] at hs
  obtain ⟨n, hn, rfl⟩ := hs
  obtain ⟨hc, ha, hw⟩ := h n hn
  refine ⟨hc, ?_, hw⟩
  have h1 := InDoubles.foldl_addLinkIncrements_nonneg ns ns _
    (InDoubles.initIncrements_nonneg ns) h n.id
  have h2 : (F64.div n.commit InDoubles.ic).Nonneg :=
    @F64.div_nonneg_pos n.commit InDoubles.ic hc InDoubles.pos_ic
  exact @F64.add_nonneg _ (F64.div n.commit InDoubles.ic) (@F64.add_nonneg _ _ ha h1) h2

theorem InDoubles.iterate_propagationRound_nonneg (k : ℕ) (ns : List InDoubles.Node)
    (h : ∀ s ∈ ns, s.commit.Nonneg ∧ s.activation.Nonneg ∧ ∀ e ∈ s.links, e.2.Pos) :
    ∀ s ∈ InDoubles.propagationRound^[k] ns,
      s.commit.Nonneg ∧ s.activation.Nonneg ∧ ∀ e ∈ s.links, e.2.Pos := by
  induction k generalizing ns with
  | zero => exact h
  | succ k ih =>
    rw [Function.iterate_succ_apply]
    exact ih _ (InDoubles.propagationRound_nonneg ns h)

/-- C7, amended: in the doubles of the code, for every node list whose commits are finite
Numbers `>= 0` and whose link weights are 1, 2 or 3, every activation in the output of
`calculateAndPropagateActivation` satisfies `>= 0`; it is never `NaN`, and it is `Infinity`
when the sums overflow. -/
theorem C7_activation_nonneg (ns : List InDoubles.Node)
    (hc : ∀ n ∈ ns, n.commit.Nonneg ∧ n.commit ≠ F64.inf false)
    (hw : ∀ n ∈ ns, ∀ e ∈ n.links,
      e.2 = F64.ofInt 1 ∨ e.2 = F64.ofInt 2 ∨ e.2 = F64.ofInt 3) :
    ∀ m ∈ InDoubles.calculateAndPropagateActivation ns, m.activation.Nonneg := by
  intro m hm
  unfold InDoubles.calculateAndPropagateActivation at hm
  refine (InDoubles.iterate_propagationRound_nonneg _ (ns.map InDoubles.resetActivation)
    ?_ m hm).2.1
  intro s hs
  rw [List.mem_map] at hs
  obtain ⟨n, hn, rfl⟩ := hs
  refine ⟨(hc n hn).1, ?_, fun e he => F64.pos_of_weight (hw n hn e he)⟩
  show (F64.ofInt 0).Nonneg
  rw [F64.ofInt_zero]
  exact le_refl (0 : ℤ)

set_option maxRecDepth 10000 in
/-- The amended statement of C7 on a commit near the largest double, where the sums
overflow: the target of the link ends at `Infinity`. -/
theorem C7_activation_nonneg_witness :
    (∀ n ∈ [(⟨"a", F64.ofRatio (10 ^ 308) 1, [("b", F64.ofInt 3)], F64.ofInt 0⟩
          : InDoubles.Node), ⟨"b", F64.ofInt 0, [], F64.ofInt 0⟩],
        n.commit.Nonneg ∧ n.commit ≠ F64.inf false) ∧
      (∀ m ∈ InDoubles.calculateAndPropagateActivation
          [⟨"a", F64.ofRatio (10 ^ 308) 1, [("b", F64.ofInt 3)], F64.ofInt 0⟩,
            ⟨"b", F64.ofInt 0, [], F64.ofInt 0⟩], m.activation.Nonneg) ∧
      (InDoubles.calculateAndPropagateActivation
          [⟨"a", F64.ofRatio (10 ^ 308) 1, [("b", F64.ofInt 3)], F64.ofInt 0⟩,
            ⟨"b", F64.ofInt 0, [], F64.ofInt 0⟩]).map (fun n => n.activation)
        = [F64.ofRatio (10 ^ 308) 1, F64.inf false] :=
  ⟨by decide,
    C7_activation_nonneg _ (by decide) (by decide), by decide⟩

set_option maxRecDepth 10000 in
/-- C7, as the claim states it, fails: a commit is any integer the user types, and the
single node with commit -1 and no links gets activation -1, in the doubles of the code as
over exact arithmetic. -/
theorem C7_negative_commit_counterexample :
    (∀ n ∈ [(⟨"a", F64.ofInt (-1), [], F64.ofInt 0⟩ : InDoubles.Node)],
        n.commit = F64.ofInt (-1) ∧
          ∀ e ∈ n.links, e.2 = F64.ofInt 1 ∨ e.2 = F64.ofInt 2 ∨ e.2 = F64.ofInt 3) ∧
      (InDoubles.calculateAndPropagateActivation
          [⟨"a", F64.ofInt (-1), [], F64.ofInt 0⟩]).map (fun n => n.activation)
        = [F64.ofInt (-1)] ∧
      ¬ (F64.ofInt (-1)).Nonneg := by
  decide

set_option maxRecDepth 10000 in
/-- C1, as the claim states it, fails on the doubles of the code: for node `a` with commit
7 and a link of weight 3 to node `b` with commit 0, the recurrence gives `a_4(b) = 903/40`,
that is 22.575, and the code returns 22.575000000000003, the double after the one nearest
to 22.575. -/
theorem C1_counterexample :
    (InDoubles.calculateAndPropagateActivation
          [⟨"a", F64.ofInt 7, [("b", F64.ofInt 3)], F64.ofInt 0⟩,
            ⟨"b", F64.ofInt 0, [], F64.ofInt 0⟩]).map (fun n => n.activation)
        = [F64.ofInt 7, F64.ofRatio 22575000000000003 1000000000000000] ∧
      specActivations 4 (1 / 5) [sampleNode "a" 7 [("b", 3)], sampleNode "b" 0 []] 4
        = [7, 903 / 40] ∧
      F64.ofRatio 22575000000000003 1000000000000000 ≠ F64.ofRatio 903 40 := by
  refine ⟨by decide, ?_, by decide⟩
  have ga : JsObj.get [("b", (3 : Num))] "a" = none := by decide
  have gb : JsObj.get [("b", (3 : Num))] "b" = some 3 := by decide
  have step : ∀ u v : Num,
      specStep 4 (1 / 5) [sampleNode "a" 7 [("b", 3)], sampleNode "b" 0 []] [u, v]
        = [u + 7 / 4, v + 3 * (7 + 1 / 5 * u) / 4] := by
    intro u v
    simp [specStep, specIncoming, sampleNode, ga, gb, JsObj.get_nil]
  have h0 : specActivations 4 (1 / 5) [sampleNode "a" 7 [("b", 3)], sampleNode "b" 0 []] 0
      = [0, 0] := rfl
  simp only [specActivations] at h0 ⊢
  rw [h0, step, step, step, step]
  norm_num

end Todonet
